import Mathlib

/-!
Barycenter finder (`linearBarycenter/main.go`, `concurrentBarycenter/main.go`).

Shallow embedding of the point combinator and of the round-based reduction of both
programs.  `float64` is read as an exact field element: every definition is generic in a
field `K`, so that it can be evaluated over `ℚ` and reasoned about over `ℝ`.

Namespace `Webserver` holds `topTen` of `webserver/main.go` and `hnsearch/main.go`,
namespace `S2t1` the sequence generator `lucasoid` of `s2t1/main.go`.
-/

namespace Barycenter

/-- The record `type MassPoint struct { x, y, z, mass float64 }`. -/
structure MassPoint (K : Type) where
  x : K
  y : K
  z : K
  mass : K
deriving DecidableEq

variable {K : Type} [Field K]

/-- Go `addMassPoints`: adds each coordinate, and the masses. -/
def addMassPoints (a : MassPoint K) (b : MassPoint K) : MassPoint K :=
  { x := a.x + b.x, y := a.y + b.y, z := a.z + b.z, mass := a.mass + b.mass }

/-- Go `avgMassPoints`: `sum := addMassPoints(a, b)`, every coordinate of the sum divided by
two, the mass of the sum kept. -/
def avgMassPoints (a : MassPoint K) (b : MassPoint K) : MassPoint K :=
  let sum := addMassPoints a b
  { x := sum.x / 2, y := sum.y / 2, z := sum.z / 2, mass := sum.mass }

/-- Go `toWeightedSubspace`: every coordinate multiplied by the mass. -/
def toWeightedSubspace (a : MassPoint K) : MassPoint K :=
  { x := a.x * a.mass, y := a.y * a.mass, z := a.z * a.mass, mass := a.mass }

/-- Go `fromWeightedSubspace`: every coordinate divided by the mass. -/
def fromWeightedSubspace (a : MassPoint K) : MassPoint K :=
  { x := a.x / a.mass, y := a.y / a.mass, z := a.z / a.mass, mass := a.mass }

/-- Go `avgMassPointsWeighted`:
`fromWeightedSubspace(avgMassPoints(toWeightedSubspace(a), toWeightedSubspace(b)))`. -/
def avgMassPointsWeighted (a : MassPoint K) (b : MassPoint K) : MassPoint K :=
  let aWeighted := toWeightedSubspace a
  let bWeighted := toWeightedSubspace b
  fromWeightedSubspace (avgMassPoints aWeighted bWeighted)

/-- Inner loop of a round of `linearBarycenter`:
`for i := 0; i < len(masspoints)-1; i += 2 { newMasspoints = append(newMasspoints,
avgMassPointsWeighted(masspoints[i], masspoints[i+1])) }`, started at index `i` with the
accumulator `newMasspoints`.  The bound is compared over the integers, as Go's `int` does;
`none` is an index out of range. -/
def pairLoop (masspoints : List (MassPoint K)) (i : Nat)
    (newMasspoints : List (MassPoint K)) : Option (List (MassPoint K)) :=
  if (i : Int) < (masspoints.length : Int) - 1 then
    match masspoints[i]?, masspoints[i + 1]? with
    | some a, some b =>
      pairLoop masspoints (i + 2) (newMasspoints ++ [avgMassPointsWeighted a b])
    | _, _ => none
  else some newMasspoints
termination_by masspoints.length - i
decreasing_by omega

/-- The tail of a round, shared by both programs:
`if len(masspoints)%2 != 0 { newMasspoints = append(newMasspoints,
masspoints[len(masspoints)-1]) }`; `none` is an index out of range. -/
def appendCarry (masspoints : List (MassPoint K))
    (newMasspoints : List (MassPoint K)) : Option (List (MassPoint K)) :=
  if masspoints.length % 2 ≠ 0 then
    match masspoints[masspoints.length - 1]? with
    | some last => some (newMasspoints ++ [last])
    | none => none
  else some newMasspoints

/-- One pass of the body of `for len(masspoints) != 1 { ... }` in `linearBarycenter`: the
pairing loop from an empty `newMasspoints`, then the odd carry; the result is the next value
of `masspoints`. -/
def linearRound (masspoints : List (MassPoint K)) : Option (List (MassPoint K)) :=
  match pairLoop masspoints 0 [] with
  | some newMasspoints => appendCarry masspoints newMasspoints
  | none => none

/-- The reduction of `linearBarycenter`: `for len(masspoints) != 1 { round }` followed by
`systemAverage := masspoints[0]`.  The loop need not terminate (on the empty slice it never
does), so it is run on `fuel`: every test of the loop condition costs one unit, and `none`
is fuel exhausted or an index out of range. -/
def linearReduce : Nat → List (MassPoint K) → Option (MassPoint K)
  | 0, _ => none
  | fuel + 1, masspoints =>
    if masspoints.length ≠ 1 then
      match linearRound masspoints with
      | some newMasspoints => linearReduce fuel newMasspoints
      | none => none
    else masspoints[0]?

/-- Go `avgMassPointsWeightedAsync(a, b, c)`: `c <- avgMassPointsWeighted(a, b)`; the value
is the one the goroutine sends on `c`. -/
def avgMassPointsWeightedAsync (a : MassPoint K) (b : MassPoint K) : MassPoint K :=
  avgMassPointsWeighted a b

/-- Dispatch loop of a round of `concurrentBarycenter`:
`for i := 0; i < len(masspoints)-1; i += 2 { go avgMassPointsWeightedAsync(masspoints[i],
masspoints[i+1], c); goroutines++ }`.  The result lists, in start order, the value each
started goroutine sends on `c`; its length is `goroutines`.  `none` is an index out of
range. -/
def dispatchLoop (masspoints : List (MassPoint K)) (i : Nat)
    (sent : List (MassPoint K)) : Option (List (MassPoint K)) :=
  if (i : Int) < (masspoints.length : Int) - 1 then
    match masspoints[i]?, masspoints[i + 1]? with
    | some a, some b =>
      dispatchLoop masspoints (i + 2) (sent ++ [avgMassPointsWeightedAsync a b])
    | _, _ => none
  else some sent
termination_by masspoints.length - i
decreasing_by omega

/-- Receive loop of a round of `concurrentBarycenter`:
`for i := 0; i < goroutines; i++ { newMasspoints = append(newMasspoints, <-c) }`.  The
scheduler is an oracle `order`: the `i`-th value received from `c` is the one sent by the
goroutine number `order[i]`.  `none` is an oracle that names no started goroutine. -/
def receiveLoop (sent : List (MassPoint K)) (order : List Nat) (goroutines : Nat) (i : Nat)
    (newMasspoints : List (MassPoint K)) : Option (List (MassPoint K)) :=
  if i < goroutines then
    match order[i]? with
    | some k =>
      match sent[k]? with
      | some val => receiveLoop sent order goroutines (i + 1) (newMasspoints ++ [val])
      | none => none
    | none => none
  else some newMasspoints
termination_by goroutines - i
decreasing_by omega

/-- One pass of the body of `for len(masspoints) > 1 { ... }` in `concurrentBarycenter`
under the arrival order `order`: dispatch, receive `goroutines` values, odd carry. -/
def concurrentRound (order : List Nat) (masspoints : List (MassPoint K)) :
    Option (List (MassPoint K)) :=
  match dispatchLoop masspoints 0 [] with
  | some sent =>
    match receiveLoop sent order sent.length 0 [] with
    | some newMasspoints => appendCarry masspoints newMasspoints
    | none => none
  | none => none

/-- The reduction of `concurrentBarycenter`: `for len(masspoints) > 1 { round }` followed by
`systemAverage := masspoints[0]`.  `schedule` gives the arrival order of every round, first
round first; `none` is a schedule that is too short or names no started goroutine, or an
index out of range. -/
def concurrentReduce : List (List Nat) → List (MassPoint K) → Option (MassPoint K)
  | schedule, masspoints =>
    if masspoints.length > 1 then
      match schedule with
      | order :: later =>
        match concurrentRound order masspoints with
        | some newMasspoints => concurrentReduce later newMasspoints
        | none => none
      | [] => none
    else masspoints[0]?

/-- An arrival order the scheduler can produce in a round that started `goroutines`
goroutines: each of them delivers its value exactly once. -/
def ValidOrder (goroutines : Nat) (order : List Nat) : Prop :=
  order.Perm (List.range goroutines)

/-- A schedule the scheduler can produce for a reduction started on `n` points: one valid
arrival order for each round that runs (a round on `n` points starts `n / 2` goroutines and
leaves `(n + 1) / 2` points). -/
def ValidSchedule : List (List Nat) → Nat → Prop
  | [], n => n ≤ 1
  | order :: later, n => 1 < n ∧ ValidOrder (n / 2) order ∧ ValidSchedule later ((n + 1) / 2)

/-- Structural form of the pairing loop (a proof device, shown equal to `pairLoop` in
`pairLoop_eq`): the combined consecutive pairs of a list, an unpaired last element left
out. -/
def combinedPairs : List (MassPoint K) → List (MassPoint K)
  | a :: b :: rest => avgMassPointsWeighted a b :: combinedPairs rest
  | _ => []

/-- Structural form of a whole round (a proof device, shown equal to `linearRound` in
`linearRound_eq`): the combined consecutive pairs followed by the unpaired last element. -/
def roundList : List (MassPoint K) → List (MassPoint K)
  | a :: b :: rest => avgMassPointsWeighted a b :: roundList rest
  | [a] => [a]
  | [] => []

/-- Structural form of the odd carry (a proof device, shown equal to `appendCarry` in
`appendCarry_eq`): the unpaired last element of a list of odd length, as a list. -/
def carry : List (MassPoint K) → List (MassPoint K)
  | _ :: _ :: rest => carry rest
  | [a] => [a]
  | [] => []

/-- The values taken by `i` in the loop header `for i := 0; i < len(masspoints)-1; i += 2`
of both programs, from the value `i` on, for `len(masspoints) = len`: one iteration each. -/
def pairIndices (len : Nat) (i : Nat) : List Nat :=
  if (i : Int) < (len : Int) - 1 then i :: pairIndices len (i + 2) else []
termination_by len - i
decreasing_by omega

/-- The call made by the iteration of index `i` of the pairing loop:
`avgMassPointsWeighted(masspoints[i], masspoints[i+1])`; `none` is an index out of range. -/
def callAt (masspoints : List (MassPoint K)) (i : Nat) : Option (MassPoint K) :=
  match masspoints[i]?, masspoints[i + 1]? with
  | some a, some b => some (avgMassPointsWeighted a b)
  | _, _ => none

/-- Sum of the masses of a list of points. -/
def totalMass (l : List (MassPoint K)) : K :=
  (l.map MassPoint.mass).sum

/-- The barycenter of a list of points in the words of the specification:
`x = (sum of mass_i * x_i) / (sum of mass_i)`, likewise `y` and `z`, and
`mass = sum of mass_i`. -/
def barycenter (l : List (MassPoint K)) : MassPoint K :=
  { x := (l.map fun p => p.mass * p.x).sum / totalMass l,
    y := (l.map fun p => p.mass * p.y).sum / totalMass l,
    z := (l.map fun p => p.mass * p.z).sum / totalMass l,
    mass := totalMass l }

/-- The three points `(0,0,0,1)`, `(0,0,0,1)`, `(0,0,0,2)` of the specification's second
scenario. -/
def threePoints : List (MassPoint ℚ) :=
  [⟨0, 0, 0, 1⟩, ⟨0, 0, 0, 1⟩, ⟨0, 0, 0, 2⟩]

/-! ## The concurrent loader of `concurrentBarycenter` -/

/-- `bufio.Reader.ReadString(delim)` on the unread input: reads up to and including the first
occurrence of `delim`; when the input ends before a delimiter it returns the data read and
an error (`io.EOF`).  The result is `(str, err != nil, input left unread)`. -/
def readString (delim : Char) : List Char → List Char × Bool × List Char
  | [] => ([], true, [])
  | c :: cs =>
    if c = delim then ([c], false, cs)
    else (c :: (readString delim cs).1, (readString delim cs).2.1, (readString delim cs).2.2)

/-- Where a goroutine `stringToPointAsync(s, c, wg)` stands: before its `fmt.Sscanf`, at the
send `c <- newMassPoint`, at its return (the deferred `wg.Done()` still to run), or gone. -/
inductive ParseTask (K : Type) where
  | parsing (s : List Char)
  | sending (newMassPoint : MassPoint K)
  | returning
  | exited

/-- Where the goroutine `go func() { wg.Wait(); syncChan <- false }()` stands: not started
yet, in `wg.Wait()`, blocked in the send on the unbuffered `syncChan`, or gone. -/
inductive Waiter where
  | absent
  | waiting
  | offering
  | exited
deriving DecidableEq

/-- Where `main` stands in the loader: in the loop around `r.ReadString`, in the loop around
the `select`, past it (the slice `masspoints` is complete), or stopped by a panic. -/
inductive Main where
  | reading
  | collecting
  | loaded
  | panicked
deriving DecidableEq

/-- The state of the loader: the input the reader has not consumed, the goroutines started
by `go stringToPointAsync(...)` in start order, the counter of `wg`, the buffer of
`masspointsChan` (oldest value first), the goroutine behind `syncChan`, the variables `run`
and `masspoints`, and the position of `main`. -/
structure Loader (K : Type) where
  unread : List Char
  tasks : List (ParseTask K)
  wg : Int
  masspointsChan : List (MassPoint K)
  waiter : Waiter
  run : Bool
  masspoints : List (MassPoint K)
  main : Main

/-- A choice of the scheduler: `main` runs its next statement (in the `select`, the case
`val := <-masspointsChan`); `main` takes the case `<-syncChan` of the `select`; the `i`-th
parse goroutine runs its next statement; the goroutine behind `syncChan` runs its next
statement. -/
inductive Move where
  | main
  | mainSync
  | task (i : Nat)
  | waiter

/-- The loader before the first `r.ReadString`. -/
def initial (input : List Char) : Loader K :=
  { unread := input, tasks := [], wg := 0, masspointsChan := [], waiter := Waiter.absent,
    run := true, masspoints := [], main := Main.reading }

/-- One scheduler choice on the loader of `concurrentBarycenter` (lines 119-156); `none`
when the chosen thread cannot move (blocked, gone or not started).  `sscanf` stands for
`fmt.Sscanf(s, "%f:%f:%f:%f", ...)`: the point scanned, or `none` when `err != nil`.

* `main`, reading: `str, err := r.ReadString('\n')`; `if len(str) == 0 || err != nil` it
  breaks, starts the goroutine behind `syncChan` and sets `run := true`; otherwise
  `wg.Add(1); go stringToPointAsync(str, masspointsChan, &wg)`.
* `main`, collecting: `for run || len(masspointsChan) > 0 { select { ... } }`; the case
  `val := <-masspointsChan` appends `val` to `masspoints`, the case `<-syncChan` meets the
  blocked send and sets `run = false`.
* a parse goroutine: `Sscanf`, then `return` on an error or `c <- newMassPoint` (blocked
  while the 128 slots are taken), then the deferred `wg.Done()`, which panics on a negative
  counter.
* the goroutine behind `syncChan`: `wg.Wait()` returns once the counter is zero. -/
def step (sscanf : List Char → Option (MassPoint K)) (m : Move) (s : Loader K) :
    Option (Loader K) :=
  match m with
  | Move.main =>
    match s.main with
    | Main.reading =>
      if (readString '\n' s.unread).1.length = 0 ∨ (readString '\n' s.unread).2.1 = true then
        some { s with
          unread := (readString '\n' s.unread).2.2
          waiter := Waiter.waiting
          run := true
          main := Main.collecting }
      else
        some { s with
          unread := (readString '\n' s.unread).2.2
          wg := s.wg + 1
          tasks := s.tasks ++ [ParseTask.parsing (readString '\n' s.unread).1] }
    | Main.collecting =>
      if s.run = true ∨ s.masspointsChan.length > 0 then
        match s.masspointsChan with
        | val :: rest =>
          some { s with masspointsChan := rest, masspoints := s.masspoints ++ [val] }
        | [] => none
      else some { s with main := Main.loaded }
    | _ => none
  | Move.mainSync =>
    match s.main with
    | Main.collecting =>
      if s.run = true ∨ s.masspointsChan.length > 0 then
        match s.waiter with
        | Waiter.offering => some { s with waiter := Waiter.exited, run := false }
        | _ => none
      else none
    | _ => none
  | Move.task i =>
    if s.main = Main.panicked then none
    else
      match s.tasks[i]? with
      | some (ParseTask.parsing str) =>
        match sscanf str with
        | some newMassPoint =>
          some { s with tasks := s.tasks.set i (ParseTask.sending newMassPoint) }
        | none => some { s with tasks := s.tasks.set i ParseTask.returning }
      | some (ParseTask.sending newMassPoint) =>
        if s.masspointsChan.length < 128 then
          some { s with
            masspointsChan := s.masspointsChan ++ [newMassPoint]
            tasks := s.tasks.set i ParseTask.returning }
        else none
      | some ParseTask.returning =>
        if s.wg - 1 < 0 then some { s with main := Main.panicked }
        else some { s with wg := s.wg - 1, tasks := s.tasks.set i ParseTask.exited }
      | _ => none
  | Move.waiter =>
    if s.main = Main.panicked then none
    else
      match s.waiter with
      | Waiter.waiting => if s.wg = 0 then some { s with waiter := Waiter.offering } else none
      | _ => none

/-- A run of the loader under a schedule, a list of scheduler choices; `none` when a choice
names a thread that cannot move. -/
def exec (sscanf : List Char → Option (MassPoint K)) :
    List Move → Loader K → Option (Loader K)
  | [], s => some s
  | m :: later, s =>
    match step sscanf m s with
    | some s' => exec sscanf later s'
    | none => none

/-- A line as the loader hands it over: its text, which holds no newline, and the newline
that terminates it. -/
def NewlineTerminated (line : List Char) : Prop :=
  ∃ body, line = body ++ ['\n'] ∧ '\n' ∉ body

/-- The points a parse goroutine can still put on the channel. -/
def pendingPoints (sscanf : List Char → Option (MassPoint K)) :
    ParseTask K → Multiset (MassPoint K)
  | ParseTask.parsing s => ((sscanf s).toList : List (MassPoint K))
  | ParseTask.sending newMassPoint => {newMassPoint}
  | _ => 0

/-- Whether a parse goroutine still owes its `wg.Done()`. -/
def outstanding : ParseTask K → Nat
  | ParseTask.exited => 0
  | _ => 1

/-- The number of scheduler choices a parse goroutine can still take, its send counted
twice (the value sent has to be received). -/
def taskWork : ParseTask K → Nat
  | ParseTask.parsing _ => 4
  | ParseTask.sending _ => 3
  | ParseTask.returning => 1
  | ParseTask.exited => 0

/-- The number of scheduler choices left to the goroutine behind `syncChan`. -/
def waiterWork : Waiter → Nat
  | Waiter.absent => 3
  | Waiter.waiting => 2
  | Waiter.offering => 1
  | Waiter.exited => 0

/-- The number of changes of position left to `main`. -/
def mainWork : Main → Nat
  | Main.reading => 2
  | Main.collecting => 1
  | _ => 0

/-- A measure of the work left in the loader; every scheduler choice lowers it. -/
def workLeft (s : Loader K) : Nat :=
  5 * s.unread.length + (s.tasks.map taskWork).sum + s.masspointsChan.length
    + waiterWork s.waiter + mainWork s.main

/-- What links the variables of the loader at every point of a run from `initial` on the
input made of `lines`: the lines still to read are newline-terminated; the points collected,
queued, held by a parse goroutine or still to be read make up the points scanned from all
the lines; `wg` counts the parse goroutines that have not run `wg.Done()`; and the
goroutine behind `syncChan`, `run` and the position of `main` go together as the code
orders them. -/
def LoaderInv (sscanf : List Char → Option (MassPoint K)) (lines : List (List Char))
    (s : Loader K) : Prop :=
  ∃ rest : List (List Char),
    (∀ l ∈ rest, NewlineTerminated l)
      ∧ (s.main = Main.reading → s.unread = rest.flatten)
      ∧ (s.main ≠ Main.reading → rest = [])
      ∧ ((s.masspoints : Multiset (MassPoint K)) + (s.masspointsChan : Multiset (MassPoint K))
            + (s.tasks.map (pendingPoints sscanf)).sum
            + ((rest.filterMap sscanf : List (MassPoint K)) : Multiset (MassPoint K))
          = ((lines.filterMap sscanf : List (MassPoint K)) : Multiset (MassPoint K)))
      ∧ s.wg = ((s.tasks.map outstanding).sum : Nat)
      ∧ (s.main = Main.reading → s.waiter = Waiter.absent)
      ∧ (s.main = Main.collecting →
          (s.waiter = Waiter.waiting ∧ s.run = true)
            ∨ (s.waiter = Waiter.offering ∧ s.run = true ∧ s.wg = 0)
            ∨ (s.waiter = Waiter.exited ∧ s.run = false ∧ s.wg = 0))
      ∧ (s.main = Main.loaded →
          s.waiter = Waiter.exited ∧ s.run = false ∧ s.wg = 0 ∧ s.masspointsChan = [])
      ∧ s.main ≠ Main.panicked

/-- The lines of an input on which the scan `sscanf` returns a point (`err == nil`), in
input order.  These need not be in the record format `x:y:z:mass`: see `specRecordFormat`. -/
def parsedLines (sscanf : List Char → Option (MassPoint K)) (lines : List (List Char)) :
    List (List Char) :=
  lines.filter fun l => (sscanf l).isSome

/-- A scanner for the examples: it accepts the record `1:2:3:4` followed by a newline, and
nothing else. -/
def exampleScan : List Char → Option (MassPoint ℚ) :=
  fun s => if s = ['1', ':', '2', ':', '3', ':', '4', '\n'] then some ⟨1, 2, 3, 4⟩ else none

/-- An input of two lines for the examples: a malformed line, then a well-formed one. -/
def exampleLines : List (List Char) :=
  [['o', 'o', 'p', 's', '\n'], ['1', ':', '2', ':', '3', ':', '4', '\n']]

/-- A complete schedule of the loader on `exampleLines`: both lines are read, both parse
goroutines run to their end, the point is received, then the completion signal. -/
def exampleSchedule : List Move :=
  [Move.main, Move.main, Move.task 1, Move.task 0, Move.main, Move.task 1, Move.task 0,
    Move.task 1, Move.main, Move.waiter, Move.mainSync, Move.main]

/-- The state in which `exampleSchedule` leaves the loader. -/
def exampleLoaded : Loader ℚ :=
  { unread := [], tasks := [ParseTask.exited, ParseTask.exited], wg := 0,
    masspointsChan := [], waiter := Waiter.exited, run := false,
    masspoints := [⟨1, 2, 3, 4⟩], main := Main.loaded }

/-! ## The guard before the reduction, checked division, and the rounds of a reduction -/

/-- Go `handle(err)`: `if err != nil { panic(err) }`.  An error value is its message; the
panic is the `error` of `Except`. -/
def handle (err : Option String) : Except String Unit :=
  match err with
  | some msg => Except.error msg
  | none => Except.ok ()

/-- The guard of both programs after loading:
`if len(masspoints) <= 1 { handle(errors.New("Insufficient number of values; ...")) }`. -/
def insufficientGuard (masspoints : List (MassPoint K)) : Except String Unit :=
  if masspoints.length ≤ 1 then
    handle (some "Insufficient number of values; there must be at least one ")
  else Except.ok ()

/-- What `main` of `linearBarycenter` does with the loaded `masspoints` (lines 140-171): the
guard, then the reduction loop.  `error` is the panic of the guard; `ok none` is a reduction
that does not return within `fuel` or runs out of range. -/
def linearMain (fuel : Nat) (masspoints : List (MassPoint K)) :
    Except String (Option (MassPoint K)) :=
  match insufficientGuard masspoints with
  | Except.error msg => Except.error msg
  | Except.ok _ => Except.ok (linearReduce fuel masspoints)

/-- What `main` of `concurrentBarycenter` does with the loaded `masspoints` (lines 158-192)
under a schedule of arrival orders: the guard, then the reduction loop. -/
def concurrentMain (schedule : List (List Nat)) (masspoints : List (MassPoint K)) :
    Except String (Option (MassPoint K)) :=
  match insufficientGuard masspoints with
  | Except.error msg => Except.error msg
  | Except.ok _ => Except.ok (concurrentReduce schedule masspoints)

/-- Go `fromWeightedSubspace` with its three divisions `a.x / a.mass`, `a.y / a.mass`,
`a.z / a.mass` checked: `none` when the divisor `a.mass` is zero. -/
def fromWeightedSubspaceChecked [DecidableEq K] (a : MassPoint K) : Option (MassPoint K) :=
  if a.mass = 0 then none else some (fromWeightedSubspace a)

/-- Go `avgMassPointsWeighted` with the divisions of its final `fromWeightedSubspace`
checked. -/
def avgMassPointsWeightedChecked [DecidableEq K] (a : MassPoint K) (b : MassPoint K) :
    Option (MassPoint K) :=
  let aWeighted := toWeightedSubspace a
  let bWeighted := toWeightedSubspace b
  fromWeightedSubspaceChecked (avgMassPoints aWeighted bWeighted)

/-- The divisor of the three divisions made by the call
`avgMassPointsWeighted(masspoints[i], masspoints[i+1])` of a round: the mass of the point
handed to `fromWeightedSubspace`; `none` is an index out of range. -/
def callDivisor (masspoints : List (MassPoint K)) (i : Nat) : Option K :=
  match masspoints[i]?, masspoints[i + 1]? with
  | some a, some b => some (avgMassPoints (toWeightedSubspace a) (toWeightedSubspace b)).mass
  | _, _ => none

/-- The successive values of `masspoints` at the tests of the loop condition
`len(masspoints) != 1` of `linearBarycenter`: the input first, then the result of every
round; the number of rounds is the length of the trace minus one.  `none` is fuel exhausted
(one unit per test) or an index out of range. -/
def linearTrace : Nat → List (MassPoint K) → Option (List (List (MassPoint K)))
  | 0, _ => none
  | fuel + 1, masspoints =>
    if masspoints.length ≠ 1 then
      match linearRound masspoints with
      | some newMasspoints =>
        match linearTrace fuel newMasspoints with
        | some later => some (masspoints :: later)
        | none => none
      | none => none
    else some [masspoints]

/-- The successive values of `masspoints` at the tests of the loop condition
`len(masspoints) > 1` of `concurrentBarycenter` under a schedule of arrival orders. -/
def concurrentTrace : List (List Nat) → List (MassPoint K) →
    Option (List (List (MassPoint K)))
  | schedule, masspoints =>
    if masspoints.length > 1 then
      match schedule with
      | order :: later =>
        match concurrentRound order masspoints with
        | some newMasspoints =>
          match concurrentTrace later newMasspoints with
          | some rest => some (masspoints :: rest)
          | none => none
        | none => none
      | [] => none
    else some [masspoints]

/-- The indices of `masspoints` read by a round on a slice of length `len`: the pair
`i, i+1` of every iteration of the pairing loop, then `len-1` when `len` is odd. -/
def roundReads (len : Nat) : List Nat :=
  (pairIndices len 0).flatMap (fun i => [i, i + 1])
    ++ (if len % 2 ≠ 0 then [len - 1] else [])

/-- Whether a scheduler choice is the one in which `main` receives the completion signal
from `syncChan` (the send of the signal completes at that very moment, the channel being
unbuffered). -/
def isSync : Move → Bool
  | Move.mainSync => true
  | _ => false

/-! ## The reduction of `concurrentBarycenter` with its channel -/

/-- Where `main` stands in the reduction of `concurrentBarycenter` (lines 166-192): at the
test of `for len(masspoints) > 1`, at the test `i < len(masspoints)-1` of the dispatch loop,
at the test `i < goroutines` of the receive loop, past `systemAverage := masspoints[0]`, or
stopped by an index out of range. -/
inductive ReducePc where
  | loopTest
  | dispatch (i : Nat)
  | receive (i : Nat)
  | finished
  | panicked
deriving DecidableEq

/-- The state of the reduction of `concurrentBarycenter`: the capacity and the buffer of
the channel `c` (oldest value first), the values held by the goroutines
`avgMassPointsWeightedAsync` that have been started and have not sent yet, the variables
`masspoints`, `newMasspoints`, `goroutines` and `systemAverage`, and the position of
`main`. -/
structure Reducer (K : Type) where
  chanCap : Nat
  c : List (MassPoint K)
  senders : List (MassPoint K)
  masspoints : List (MassPoint K)
  newMasspoints : List (MassPoint K)
  goroutines : Nat
  pc : ReducePc
  systemAverage : Option (MassPoint K)

/-- A choice of the scheduler in the reduction: `main` runs its next statement, or the
`k`-th of the goroutines that have not sent yet performs its send. -/
inductive ReduceMove where
  | main
  | goroutine (k : Nat)

/-- The reduction right after `c := make(chan MassPoint, len(masspoints)/2)`, which runs
once, before the loop. -/
def reducerInit (masspoints : List (MassPoint K)) : Reducer K :=
  { chanCap := masspoints.length / 2, c := [], senders := [], masspoints := masspoints,
    newMasspoints := [], goroutines := 0, pc := ReducePc.loopTest, systemAverage := none }

/-- One scheduler choice on the reduction of `concurrentBarycenter`; `none` when the chosen
thread cannot move (blocked, gone or not started).

* `main` at the loop test: `len(masspoints) > 1` enters a round (`var newMasspoints`,
  `goroutines := 0`, `i := 0`), otherwise `systemAverage := masspoints[0]`.
* `main` in the dispatch loop: `go avgMassPointsWeightedAsync(masspoints[i],
  masspoints[i+1], c); goroutines++; i += 2` while `i < len(masspoints)-1`.
* `main` in the receive loop: `newMasspoints = append(newMasspoints, <-c)` while
  `i < goroutines` (blocked on an empty buffer), then the odd carry and
  `masspoints = newMasspoints`.
* a goroutine: `c <- avgMassPointsWeighted(a, b)`, blocked while the buffer is full. -/
def reduceStep (m : ReduceMove) (s : Reducer K) : Option (Reducer K) :=
  match m with
  | ReduceMove.main =>
    match s.pc with
    | ReducePc.loopTest =>
      if s.masspoints.length > 1 then
        some { s with newMasspoints := [], goroutines := 0, pc := ReducePc.dispatch 0 }
      else
        match s.masspoints[0]? with
        | some p => some { s with systemAverage := some p, pc := ReducePc.finished }
        | none => some { s with pc := ReducePc.panicked }
    | ReducePc.dispatch i =>
      if (i : Int) < (s.masspoints.length : Int) - 1 then
        match s.masspoints[i]?, s.masspoints[i + 1]? with
        | some a, some b =>
          some { s with
            senders := s.senders ++ [avgMassPointsWeightedAsync a b]
            goroutines := s.goroutines + 1
            pc := ReducePc.dispatch (i + 2) }
        | _, _ => some { s with pc := ReducePc.panicked }
      else some { s with pc := ReducePc.receive 0 }
    | ReducePc.receive i =>
      if i < s.goroutines then
        match s.c with
        | val :: rest =>
          some { s with
            c := rest
            newMasspoints := s.newMasspoints ++ [val]
            pc := ReducePc.receive (i + 1) }
        | [] => none
      else
        match appendCarry s.masspoints s.newMasspoints with
        | some newMasspoints =>
          some { s with masspoints := newMasspoints, pc := ReducePc.loopTest }
        | none => some { s with pc := ReducePc.panicked }
    | _ => none
  | ReduceMove.goroutine k =>
    if s.pc = ReducePc.panicked then none
    else
      match s.senders[k]? with
      | some val =>
        if s.c.length < s.chanCap then
          some { s with c := s.c ++ [val], senders := s.senders.eraseIdx k }
        else none
      | none => none

/-- A run of the reduction under a list of scheduler choices; `none` when a choice names a
thread that cannot move. -/
def reduceExec : List ReduceMove → Reducer K → Option (Reducer K)
  | [], s => some s
  | m :: later, s =>
    match reduceStep m s with
    | some s' => reduceExec later s'
    | none => none

/-- What links the variables of the reduction at every point of a run started on `n`
points: the capacity of `c` is the one fixed before the loop; `masspoints` is never empty
and never longer than at the start; the values buffered in `c`, those still to be sent and
those received in the round are together the ones of the goroutines started in the round;
between rounds nothing is buffered or still to be sent. -/
def ReducerInv (n : Nat) (s : Reducer K) : Prop :=
  s.chanCap = n / 2
    ∧ 1 ≤ s.masspoints.length ∧ s.masspoints.length ≤ n
    ∧ s.goroutines ≤ n / 2
    ∧ match s.pc with
      | ReducePc.loopTest => s.c = [] ∧ s.senders = []
      | ReducePc.dispatch i =>
        i % 2 = 0 ∧ i ≤ s.masspoints.length ∧ s.goroutines * 2 = i
          ∧ s.c.length + s.senders.length = s.goroutines ∧ s.newMasspoints = []
      | ReducePc.receive i =>
        s.goroutines = s.masspoints.length / 2
          ∧ s.c.length + s.senders.length + i = s.goroutines
          ∧ s.newMasspoints.length = i
      | ReducePc.finished => s.c = [] ∧ s.senders = []
      | ReducePc.panicked => False

/-- The four points `(48,0,0,1)`, `(0,0,0,1)`, `(0,0,0,1)`, `(0,0,0,1)` for the examples. -/
def fourPoints : List (MassPoint ℚ) :=
  [⟨48, 0, 0, 1⟩, ⟨0, 0, 0, 1⟩, ⟨0, 0, 0, 1⟩, ⟨0, 0, 0, 1⟩]

/-- A schedule of the first round of the reduction on four points and of the dispatch of
the second: two goroutines are started, both send, both values are received, the round
ends, and the second round starts its one goroutine. -/
def intoSecondRound : List ReduceMove :=
  [ReduceMove.main, ReduceMove.main, ReduceMove.main, ReduceMove.main,
    ReduceMove.goroutine 1, ReduceMove.goroutine 0, ReduceMove.main, ReduceMove.main,
    ReduceMove.main, ReduceMove.main, ReduceMove.main, ReduceMove.main]

/-- A schedule that completes the reduction after `intoSecondRound`. -/
def afterSecondRound : List ReduceMove :=
  [ReduceMove.goroutine 0, ReduceMove.main, ReduceMove.main, ReduceMove.main]

/-- The state in which `intoSecondRound` leaves the reduction of `fourPoints`: the second
round works on two points and has started its one goroutine, which has not sent yet. -/
def secondRoundState : Reducer ℚ :=
  { chanCap := 2, c := [], senders := [⟨3, 0, 0, 4⟩],
    masspoints := [⟨0, 0, 0, 2⟩, ⟨12, 0, 0, 2⟩], newMasspoints := [], goroutines := 1,
    pc := ReducePc.receive 0, systemAverage := none }

/-! ## The record parser of `concurrentBarycenter` -/

/-- `fmt.Sscanf` run on a format made of verbs `%f` and plain characters (no space, no
newline, no other verb), as `"%f:%f:%f:%f"` is; modelled from the documentation of package
`fmt`.  The format is processed from left to right: a verb `%f` scans one floating-point
value from the front of the input (`scanFloat`, which returns the value and the input left,
or `none` on a syntax or range error); a plain character must be the next character of the
input; when the format is used up the scan ends, and the input left is not examined.  The
result lists the values scanned; `none` is `err != nil`. -/
def doScanf (scanFloat : List Char → Option (K × List Char)) :
    List Char → List Char → Option (List K)
  | [], _ => some []
  | '%' :: 'f' :: format, input =>
    match scanFloat input with
    | some (v, rest) =>
      match doScanf scanFloat format rest with
      | some vs => some (v :: vs)
      | none => none
    | none => none
  | c :: format, input =>
    match input with
    | d :: rest => if d = c then doScanf scanFloat format rest else none
    | [] => none

/-- The call `fmt.Sscanf(s, "%f:%f:%f:%f", &newMassPoint.x, &newMassPoint.y,
&newMassPoint.z, &newMassPoint.mass)` of `stringToPointAsync`: the point filled in, or
`none` when `err != nil`. -/
def sscanfPoint (scanFloat : List Char → Option (K × List Char)) (s : List Char) :
    Option (MassPoint K) :=
  match doScanf scanFloat ['%', 'f', ':', '%', 'f', ':', '%', 'f', ':', '%', 'f'] s with
  | some [x, y, z, mass] => some { x := x, y := y, z := z, mass := mass }
  | _ => none

/-- Go `stringToPointAsync(s, c, wg)`: the value it sends on `c`, or `none` when it returns
without sending (`if err != nil { return }`). -/
def stringToPointAsync (scanFloat : List Char → Option (K × List Char)) (s : List Char) :
    Option (MassPoint K) :=
  match sscanfPoint scanFloat s with
  | some newMassPoint => some newMassPoint
  | none => none

/-- The value of a decimal digit, from its code point (`'0'` has code 48); `none` for any
other character. -/
def digitValue (c : Char) : Option Nat :=
  if 48 ≤ c.toNat ∧ c.toNat ≤ 57 then some (c.toNat - 48) else none

/-- The longest run of decimal digits at the front of a text, read as a number on top of
the value `acc` of the digits before it, and the text left. -/
def scanDigits : Nat → List Char → Nat × List Char
  | acc, [] => (acc, [])
  | acc, c :: rest =>
    match digitValue c with
    | some d => scanDigits (10 * acc + d) rest
    | none => (acc, c :: rest)

/-- A scanner for the examples: the part of the verb `%f` that reads an unsigned decimal
integer, a non-empty run of digits. -/
def exampleFloat : List Char → Option (ℚ × List Char)
  | [] => none
  | c :: rest =>
    match digitValue c with
    | some d => some (((scanDigits d rest).1 : ℚ), (scanDigits d rest).2)
    | none => none

/-- The fields of a line: the texts between its colons. -/
def colonFields : List Char → List (List Char)
  | [] => [[]]
  | c :: rest =>
    if c = ':' then [] :: colonFields rest
    else
      match colonFields rest with
      | field :: fields => (c :: field) :: fields
      | [] => [[c]]

/-! ## The strings handed to the parse goroutines -/

/-- The successive segments of a text that end in a newline, each with its newline, after
the characters `cur` already read of the current segment; what follows the last newline is
left out. -/
def segmentsFrom : List Char → List Char → List (List Char)
  | _, [] => []
  | cur, c :: rest =>
    if c = '\n' then (cur ++ [c]) :: segmentsFrom [] rest
    else segmentsFrom (cur ++ [c]) rest

/-- The successive newline-terminated segments of a text. -/
def segments (text : List Char) : List (List Char) :=
  segmentsFrom [] text

/-- What follows the last newline of a text, after the characters `cur` already read of
the current segment. -/
def finalSegmentFrom : List Char → List Char → List Char
  | cur, [] => cur
  | cur, c :: rest =>
    if c = '\n' then finalSegmentFrom [] rest else finalSegmentFrom (cur ++ [c]) rest

/-- The final segment of a text, the one that no newline terminates; empty when the text
is empty or ends in a newline. -/
def finalSegment (text : List Char) : List Char :=
  finalSegmentFrom [] text

/-- The string that a scheduler choice hands to a new parse goroutine, as a list of at most
one string: `str` when `main` runs `go stringToPointAsync(str, masspointsChan, &wg)`,
nothing for any other choice. -/
def handedBy (m : Move) (s : Loader K) : List (List Char) :=
  match m, s.main with
  | Move.main, Main.reading =>
    if (readString '\n' s.unread).1.length = 0 ∨ (readString '\n' s.unread).2.1 = true then []
    else [(readString '\n' s.unread).1]
  | _, _ => []

/-- The strings handed to parse goroutines in the course of a run, in order. -/
def handedOver (sscanf : List Char → Option (MassPoint K)) :
    List Move → Loader K → List (List Char)
  | [], _ => []
  | m :: later, s =>
    match step sscanf m s with
    | some s' => handedBy m s ++ handedOver sscanf later s'
    | none => []

/-- The newline-terminated segments that the read loop has still to hand over: those of
the unread input while `main` is in the read loop, none afterwards. -/
def toHandOver (s : Loader K) : List (List Char) :=
  if s.main = Main.reading then segments s.unread else []

/-- Two states of the loader that differ at most in the unread input, the second having
the text `tail` more at its end while `main` is in the read loop. -/
def SameButInput (tail : List Char) (s t : Loader K) : Prop :=
  t.tasks = s.tasks ∧ t.wg = s.wg ∧ t.masspointsChan = s.masspointsChan
    ∧ t.waiter = s.waiter ∧ t.run = s.run ∧ t.masspoints = s.masspoints ∧ t.main = s.main
    ∧ (s.main = Main.reading → t.unread = s.unread ++ tail)


/-- An input for the examples: the record `1:2:3:4` with its newline, then the record
`5:6:7:8` at the end of the file without a newline. -/
def unterminatedText : List Char :=
  ['1', ':', '2', ':', '3', ':', '4', '\n', '5', ':', '6', ':', '7', ':', '8']

/-- A complete schedule of the loader on `unterminatedText`: `main` reads the first line,
then meets the end of the file; the one parse goroutine runs to its end; the point is
received, then the completion signal. -/
def unterminatedSchedule : List Move :=
  [Move.main, Move.main, Move.task 0, Move.task 0, Move.task 0, Move.waiter, Move.main,
    Move.mainSync, Move.main]

/-- The state in which `unterminatedSchedule` leaves the loader. -/
def unterminatedLoaded : Loader ℚ :=
  { unread := [], tasks := [ParseTask.exited], wg := 0, masspointsChan := [],
    waiter := Waiter.exited, run := false, masspoints := [⟨1, 2, 3, 4⟩],
    main := Main.loaded }

/-! ## The record format of the specification -/

/-- A real-number literal in the words of the specification, the verb `%f` being
`scanFloat`: a text that the verb scans to its end. -/
def specLiteral (scanFloat : List Char → Option (K × List Char)) (field : List Char) : Bool :=
  match scanFloat field with
  | some (_, []) => true
  | _ => false

/-- The record format of the specification, `x:y:z:mass` on a newline-terminated line: the
line ends in a newline, and before it stand four fields separated by colons, each a
real-number literal.  A line in this format is what the specification calls well-formed,
any other line malformed. -/
def specRecordFormat (scanFloat : List Char → Option (K × List Char)) (line : List Char) :
    Bool :=
  match colonFields line.dropLast with
  | [x, y, z, mass] =>
    (line.getLast? == some '\n') && specLiteral scanFloat x && specLiteral scanFloat y
      && specLiteral scanFloat z && specLiteral scanFloat mass
  | _ => false

/-- A line for the examples: five fields, `1:2:3:4:5`, and the newline. -/
def fiveFieldLine : List Char :=
  ['1', ':', '2', ':', '3', ':', '4', ':', '5', '\n']

/-- A complete schedule of the loader on an input of one line: `main` reads the line, then
meets the end of the file; the parse goroutine runs to its end; its point is received,
then the completion signal. -/
def oneLineSchedule : List Move :=
  [Move.main, Move.main, Move.task 0, Move.task 0, Move.task 0, Move.waiter, Move.main,
    Move.mainSync, Move.main]

/-- The state in which `oneLineSchedule` leaves the loader on the line `fiveFieldLine`. -/
def fiveFieldLoaded : Loader ℚ :=
  { unread := [], tasks := [ParseTask.exited], wg := 0, masspointsChan := [],
    waiter := Waiter.exited, run := false, masspoints := [⟨1, 2, 3, 4⟩],
    main := Main.loaded }

end Barycenter

namespace Webserver

/-- The record `type Story struct { title, url, author, source string }` of `webserver` and
`hnsearch`. -/
structure Story where
  title : String
  url : String
  author : String
  source : String
deriving DecidableEq

/-- The entry of a story: `fmt.Sprintf("<a href='%s'>%s</a><br>by %s on %s<br><br>",
story.url, story.title, story.author, story.source)`. -/
def storyEntry (story : Story) : String :=
  "<a href='" ++ story.url ++ "'>" ++ story.title ++ "</a><br>by " ++ story.author ++ " on "
    ++ story.source ++ "<br><br>"

/-- The loop of `topTen`:
`for i := len(stories) - 1; i >= 0 && len(stories)-i < 10; i-- { story := stories[i];
w.Write(entry of story) }`, from the value `i` on, `w` being the chunks written so far;
`none` is an index out of range. -/
def topTenLoop (stories : List Story) (i : Int) (w : List String) : Option (List String) :=
  if 0 ≤ i ∧ (stories.length : Int) - i < 10 then
    match stories[i.toNat]? with
    | some story => topTenLoop stories (i - 1) (w ++ [storyEntry story])
    | none => none
  else some w
termination_by (i + 1).toNat
decreasing_by omega

/-- Go `topTen(w, r)` on the slice `stories`: the chunks it writes to `w`, in order: the
opening of the document, the search form, the entries of the loop, the closing. -/
def topTen (stories : List Story) : Option (List String) :=
  match topTenLoop stories ((stories.length : Int) - 1)
      ["<html><body>",
        "<form action='search' method='post'>Search: <input type='text' name='q'> <input type='submit'></form>\n"] with
  | some w => some (w ++ ["</body></html>"])
  | none => none

/-- The entries that `topTen` is to write in the words of the claim: those of the last
`min(10, len(stories))` stories, last story first. -/
def lastTenEntries (stories : List Story) : List String :=
  (stories.reverse.take (min 10 stories.length)).map storyEntry

/-- Ten stories for the examples, titled `a` to `j`. -/
def tenStories : List Story :=
  [⟨"a", "u", "w", "s"⟩, ⟨"b", "u", "w", "s"⟩, ⟨"c", "u", "w", "s"⟩, ⟨"d", "u", "w", "s"⟩,
    ⟨"e", "u", "w", "s"⟩, ⟨"f", "u", "w", "s"⟩, ⟨"g", "u", "w", "s"⟩, ⟨"h", "u", "w", "s"⟩,
    ⟨"i", "u", "w", "s"⟩, ⟨"j", "u", "w", "s"⟩]

end Webserver

namespace S2t1

/-- Go's `int` on a 64-bit platform: the value of an integer after two's-complement
wrap-around to the range from `-2^63` to `2^63 - 1`. -/
def wrapInt (x : Int) : Int :=
  (x + 9223372036854775808) % 18446744073709551616 - 9223372036854775808

/-- The values of Go's `int` on a 64-bit platform. -/
def InRange (x : Int) : Prop :=
  -9223372036854775808 ≤ x ∧ x < 9223372036854775808

/-- Go `lucasoid(a, b, n)`, with the depth of the recursion bounded by `fuel` (`none` when
it is exceeded, as for every negative `n`); the arithmetic of `int` wraps around. -/
def lucasoid : Nat → Int → Int → Int → Option Int
  | 0, _, _, _ => none
  | fuel + 1, a, b, n =>
    if n = 0 then some a
    else if n = 1 then some b
    else
      match lucasoid fuel a b (wrapInt (n - 1)), lucasoid fuel a b (wrapInt (n - 2)) with
      | some u, some v => some (wrapInt (u + v))
      | _, _ => none

/-- The sequence of the claim over the unbounded integers: `s(0) = a`, `s(1) = b`,
`s(k+2) = s(k+1) + s(k)`. -/
def lucasSeq (a b : Int) : Nat → Int
  | 0 => a
  | 1 => b
  | k + 2 => lucasSeq a b (k + 1) + lucasSeq a b k

end S2t1

namespace Barycenter

variable {K : Type} [Field K]

/-! ## The point combinator -/

theorem avgMassPointsWeighted_x (a b : MassPoint K) :
    (avgMassPointsWeighted a b).x = (a.x * a.mass + b.x * b.mass) / 2 / (a.mass + b.mass) := rfl

theorem avgMassPointsWeighted_y (a b : MassPoint K) :
    (avgMassPointsWeighted a b).y = (a.y * a.mass + b.y * b.mass) / 2 / (a.mass + b.mass) := rfl

theorem avgMassPointsWeighted_z (a b : MassPoint K) :
    (avgMassPointsWeighted a b).z = (a.z * a.mass + b.z * b.mass) / 2 / (a.mass + b.mass) := rfl

theorem avgMassPointsWeighted_mass (a b : MassPoint K) :
    (avgMassPointsWeighted a b).mass = a.mass + b.mass := rfl

theorem avgMassPointsWeighted_eq (a b : MassPoint K) :
    avgMassPointsWeighted a b =
      { x := (a.x * a.mass + b.x * b.mass) / 2 / (a.mass + b.mass),
        y := (a.y * a.mass + b.y * b.mass) / 2 / (a.mass + b.mass),
        z := (a.z * a.mass + b.z * b.mass) / 2 / (a.mass + b.mass),
        mass := a.mass + b.mass } := rfl

theorem avgMassPointsWeighted_x_half (a b : MassPoint K) :
    (avgMassPointsWeighted a b).x
      = (a.x * a.mass + b.x * b.mass) / (a.mass + b.mass) / 2 := by
  rw [avgMassPointsWeighted_x, div_right_comm]

/-! ## The pairing loop and the round -/

theorem combinedPairs_of_length_le_one (l : List (MassPoint K)) (h : l.length ≤ 1) :
    combinedPairs l = [] := by
  match l, h with
  | [], _ => rfl
  | [_], _ => rfl

theorem pairLoop_eq (l : List (MassPoint K)) (i : Nat) (acc : List (MassPoint K)) :
    pairLoop l i acc = some (acc ++ combinedPairs (l.drop i)) := by
  generalize hn : l.length - i = n
  induction n using Nat.strong_induction_on generalizing i acc with
  | _ n ih =>
    rw [pairLoop]
    split_ifs with hlt
    · have h1 : i < l.length := by omega
      have h2 : i + 1 < l.length := by omega
      rw [List.getElem?_eq_getElem h1, List.getElem?_eq_getElem h2]
      simp only
      rw [ih (l.length - (i + 2)) (by omega) (i + 2) _ rfl]
      rw [List.drop_eq_getElem_cons h1, List.drop_eq_getElem_cons h2]
      simp [combinedPairs]
    · rw [combinedPairs_of_length_le_one, List.append_nil]
      simp only [List.length_drop]
      omega

theorem dispatchLoop_eq (l : List (MassPoint K)) (i : Nat) (acc : List (MassPoint K)) :
    dispatchLoop l i acc = some (acc ++ combinedPairs (l.drop i)) := by
  generalize hn : l.length - i = n
  induction n using Nat.strong_induction_on generalizing i acc with
  | _ n ih =>
    rw [dispatchLoop]
    split_ifs with hlt
    · have h1 : i < l.length := by omega
      have h2 : i + 1 < l.length := by omega
      rw [List.getElem?_eq_getElem h1, List.getElem?_eq_getElem h2]
      simp only
      rw [ih (l.length - (i + 2)) (by omega) (i + 2) _ rfl]
      rw [List.drop_eq_getElem_cons h1, List.drop_eq_getElem_cons h2]
      simp [combinedPairs, avgMassPointsWeightedAsync]
    · rw [combinedPairs_of_length_le_one, List.append_nil]
      simp only [List.length_drop]
      omega

theorem appendCarry_eq (l : List (MassPoint K)) (acc : List (MassPoint K)) :
    appendCarry l acc = some (acc ++ carry l) := by
  induction l using roundList.induct with
  | case1 a b rest ih =>
    simp only [appendCarry, carry, List.length_cons] at ih ⊢
    have e1 : (rest.length + 1 + 1) % 2 = rest.length % 2 := by omega
    rw [e1]
    split_ifs with hodd
    · rw [if_pos hodd] at ih
      have e2 : rest.length + 1 + 1 - 1 = (rest.length - 1) + 2 := by omega
      rw [e2]
      simpa only [List.getElem?_cons_succ] using ih
    · rw [if_neg hodd] at ih
      exact ih
  | case2 a => simp [appendCarry, carry]
  | case3 => simp [appendCarry, carry]

theorem roundList_eq (l : List (MassPoint K)) : roundList l = combinedPairs l ++ carry l := by
  induction l using roundList.induct with
  | case1 a b rest ih => simp [roundList, combinedPairs, carry, ih]
  | case2 a => simp [roundList, combinedPairs, carry]
  | case3 => simp [roundList, combinedPairs, carry]

theorem linearRound_eq (l : List (MassPoint K)) : linearRound l = some (roundList l) := by
  simp [linearRound, pairLoop_eq, appendCarry_eq, roundList_eq]

theorem roundList_length (l : List (MassPoint K)) :
    (roundList l).length = (l.length + 1) / 2 := by
  induction l using roundList.induct with
  | case1 a b rest ih => simp only [roundList, List.length_cons, ih]; omega
  | case2 a => simp [roundList]
  | case3 => simp [roundList]

theorem combinedPairs_length (l : List (MassPoint K)) :
    (combinedPairs l).length = l.length / 2 := by
  induction l using roundList.induct with
  | case1 a b rest ih => simp only [combinedPairs, List.length_cons, ih]; omega
  | case2 a => simp [combinedPairs]
  | case3 => simp [combinedPairs]

/-! ## The receive loop under a valid arrival order -/

omit [Field K] in
theorem receiveLoop_eq (sent : List (MassPoint K)) (order : List Nat)
    (hk : ∀ k ∈ order, k < sent.length) (i : Nat) (acc : List (MassPoint K)) :
    receiveLoop sent order order.length i acc
      = some (acc ++ (order.drop i).filterMap (fun k => sent[k]?)) := by
  generalize hn : order.length - i = n
  induction n using Nat.strong_induction_on generalizing i acc with
  | _ n ih =>
    rw [receiveLoop]
    split_ifs with hlt
    · rw [List.getElem?_eq_getElem hlt]
      have hlt2 : order[i] < sent.length := hk _ (List.getElem_mem hlt)
      simp only [List.getElem?_eq_getElem hlt2]
      rw [ih (order.length - (i + 1)) (by omega) (i + 1) _ rfl]
      rw [List.drop_eq_getElem_cons hlt]
      simp only [List.filterMap_cons, List.getElem?_eq_getElem hlt2, List.append_assoc,
        List.singleton_append]
    · rw [List.drop_eq_nil_of_le (by omega)]
      simp

theorem filterMap_range_getElem? {α : Type} (l : List α) (m : Nat) :
    (List.range m).filterMap (fun k => l[k]?) = l.take m := by
  induction m with
  | zero => simp
  | succ m ih =>
    rw [List.range_succ, List.filterMap_append, ih, List.take_succ]
    cases h : l[m]? <;> simp [h]

omit [Field K] in
theorem receiveLoop_perm (sent : List (MassPoint K)) (order : List Nat)
    (ho : ValidOrder sent.length order) :
    ∃ received, receiveLoop sent order sent.length 0 [] = some received
      ∧ received.Perm sent := by
  have hlen : order.length = sent.length := by
    have := ho.length_eq
    simpa using this
  have hk : ∀ k ∈ order, k < sent.length := by
    intro k hkm
    have := (ho.mem_iff).mp hkm
    simpa using this
  refine ⟨order.filterMap (fun k => sent[k]?), ?_, ?_⟩
  · rw [← hlen, receiveLoop_eq sent order hk 0 []]
    simp
  · have h1 := List.Perm.filterMap (fun k => sent[k]?) ho
    rw [filterMap_range_getElem?, List.take_length] at h1
    exact h1

theorem concurrentRound_perm (order : List Nat) (l : List (MassPoint K))
    (ho : ValidOrder (l.length / 2) order) :
    ∃ received, concurrentRound order l = some (received ++ carry l)
      ∧ received.Perm (combinedPairs l) := by
  have ho2 : ValidOrder (combinedPairs l).length order := by
    rw [combinedPairs_length]; exact ho
  obtain ⟨received, hr, hp⟩ := receiveLoop_perm (combinedPairs l) order ho2
  refine ⟨received, ?_, hp⟩
  simp [concurrentRound, dispatchLoop_eq, hr, appendCarry_eq]

/-! ## Mass conservation -/

theorem totalMass_append (l1 l2 : List (MassPoint K)) :
    totalMass (l1 ++ l2) = totalMass l1 + totalMass l2 := by
  simp [totalMass]

theorem totalMass_perm {l1 l2 : List (MassPoint K)} (h : l1.Perm l2) :
    totalMass l1 = totalMass l2 :=
  (h.map MassPoint.mass).sum_eq

theorem totalMass_roundList (l : List (MassPoint K)) : totalMass (roundList l) = totalMass l := by
  induction l using roundList.induct with
  | case1 a b rest ih =>
    simp only [totalMass, roundList, List.map_cons, List.sum_cons] at ih ⊢
    rw [ih, avgMassPointsWeighted_mass, add_assoc]
  | case2 a => rfl
  | case3 => rfl

theorem linearReduce_mass (n : Nat) (l : List (MassPoint K)) (hl : l.length = n)
    (h1 : 1 ≤ n) :
    ∃ p, (∀ fuel, n ≤ fuel → linearReduce fuel l = some p) ∧ p.mass = totalMass l := by
  induction n using Nat.strong_induction_on generalizing l with
  | _ n ih =>
    by_cases hone : n = 1
    · subst hone
      match l, hl with
      | [p], _ =>
        refine ⟨p, ?_, by simp [totalMass]⟩
        intro fuel hf
        obtain ⟨f, rfl⟩ : ∃ f, fuel = f + 1 := ⟨fuel - 1, by omega⟩
        simp [linearReduce]
    · have hlen : (roundList l).length = (n + 1) / 2 := by rw [roundList_length, hl]
      obtain ⟨p, hp, hm⟩ := ih ((n + 1) / 2) (by omega) (roundList l) hlen (by omega)
      refine ⟨p, ?_, by rw [hm, totalMass_roundList]⟩
      intro fuel hf
      obtain ⟨f, rfl⟩ : ∃ f, fuel = f + 1 := ⟨fuel - 1, by omega⟩
      rw [linearReduce, if_pos (by omega), linearRound_eq]
      exact hp f (by omega)

theorem concurrentReduce_mass (schedule : List (List Nat)) (l : List (MassPoint K))
    (h1 : 1 ≤ l.length) (hs : ValidSchedule schedule l.length) :
    ∃ p, concurrentReduce schedule l = some p ∧ p.mass = totalMass l := by
  induction schedule generalizing l with
  | nil =>
    have hlen : l.length = 1 := by
      have : l.length ≤ 1 := hs
      omega
    match l, hlen with
    | [p], _ => exact ⟨p, by simp [concurrentReduce], by simp [totalMass]⟩
  | cons order later ih =>
    obtain ⟨hgt, ho, hlater⟩ := hs
    obtain ⟨received, hr, hp⟩ := concurrentRound_perm order l ho
    have hlen : (received ++ carry l).length = (l.length + 1) / 2 := by
      rw [List.length_append, hp.length_eq, ← List.length_append, ← roundList_eq,
        roundList_length]
    obtain ⟨p, hred, hm⟩ := ih (received ++ carry l) (by omega) (by rw [hlen]; exact hlater)
    refine ⟨p, ?_, ?_⟩
    · rw [concurrentReduce, if_pos hgt]
      simp only [hr]
      exact hred
    · rw [hm, totalMass_append, totalMass_perm hp, ← totalMass_append, ← roundList_eq,
        totalMass_roundList]

/-! ## Claims on the point combinator -/

/-- C2 (the code departs from the claim).  At `a = (0,0,0,1)`, `b = (10,0,0,1)`, both of
mass `1 > 0`, `avgMassPointsWeighted` returns `x = 5/2` whereas the mass-weighted centroid
`(a.mass*a.x + b.mass*b.x) / (a.mass + b.mass)` is `5`: the summed weighted coordinates are
divided by the count `2` in `avgMassPoints` and then again by the summed mass. -/
theorem avgMassPointsWeighted_halves_centroid :
    avgMassPointsWeighted (⟨0, 0, 0, 1⟩ : MassPoint ℚ) ⟨10, 0, 0, 1⟩ = ⟨5 / 2, 0, 0, 2⟩
      ∧ (0 : ℚ) < 1
      ∧ ((1 : ℚ) * 0 + 1 * 10) / (1 + 1) = 5
      ∧ (avgMassPointsWeighted (⟨0, 0, 0, 1⟩ : MassPoint ℚ) ⟨10, 0, 0, 1⟩).x
          ≠ ((1 : ℚ) * 0 + 1 * 10) / (1 + 1) := by
  refine ⟨?_, ?_, ?_, ?_⟩
  · simp only [avgMassPointsWeighted_eq]; norm_num
  · norm_num
  · norm_num
  · simp only [avgMassPointsWeighted_x]; norm_num

/-- C3.  For all points `a`, `b` with `a.mass + b.mass ≠ 0`, the mass of
`avgMassPointsWeighted a b` is exactly `a.mass + b.mass`. -/
theorem avgMassPointsWeighted_mass_add (a b : MassPoint K) (_h : a.mass + b.mass ≠ 0) :
    (avgMassPointsWeighted a b).mass = a.mass + b.mass := by
  simp [avgMassPointsWeighted, fromWeightedSubspace, avgMassPoints, addMassPoints,
    toWeightedSubspace]

/-- Witness of C3 at the points `(0,0,0,1)` and `(10,0,0,1)` over `ℚ`. -/
theorem avgMassPointsWeighted_mass_add_witness :
    (1 : ℚ) + 1 ≠ 0
      ∧ (avgMassPointsWeighted (⟨0, 0, 0, 1⟩ : MassPoint ℚ) ⟨10, 0, 0, 1⟩).mass = 1 + 1 :=
  ⟨by norm_num, avgMassPointsWeighted_mass_add ⟨0, 0, 0, 1⟩ ⟨10, 0, 0, 1⟩ (by norm_num)⟩

/-- C4.  `avgMassPointsWeighted` is commutative: for all points `a`, `b` (valid or not),
`avgMassPointsWeighted a b` and `avgMassPointsWeighted b a` agree in `x`, `y`, `z` and
`mass`. -/
theorem avgMassPointsWeighted_commutative (a b : MassPoint K) :
    avgMassPointsWeighted a b = avgMassPointsWeighted b a
      ∧ (avgMassPointsWeighted a b).x = (avgMassPointsWeighted b a).x
      ∧ (avgMassPointsWeighted a b).y = (avgMassPointsWeighted b a).y
      ∧ (avgMassPointsWeighted a b).z = (avgMassPointsWeighted b a).z
      ∧ (avgMassPointsWeighted a b).mass = (avgMassPointsWeighted b a).mass := by
  have h : avgMassPointsWeighted a b = avgMassPointsWeighted b a := by
    simp only [avgMassPointsWeighted_eq, add_comm]
  exact ⟨h, by rw [h], by rw [h], by rw [h], by rw [h]⟩

/-- C5 (the code departs from the claim).  At `a = (12,0,0,1)`, `b = c = (0,0,0,1)` the two
binary trees over the leaves `a, b, c` evaluate to different points:
`avgMassPointsWeighted (avgMassPointsWeighted a b) c = (1,0,0,3)` and
`avgMassPointsWeighted a (avgMassPointsWeighted b c) = (2,0,0,3)`. -/
theorem avgMassPointsWeighted_not_associative :
    avgMassPointsWeighted (avgMassPointsWeighted (⟨12, 0, 0, 1⟩ : MassPoint ℚ) ⟨0, 0, 0, 1⟩)
        ⟨0, 0, 0, 1⟩ = ⟨1, 0, 0, 3⟩
      ∧ avgMassPointsWeighted (⟨12, 0, 0, 1⟩ : MassPoint ℚ)
        (avgMassPointsWeighted ⟨0, 0, 0, 1⟩ ⟨0, 0, 0, 1⟩) = ⟨2, 0, 0, 3⟩
      ∧ avgMassPointsWeighted (avgMassPointsWeighted (⟨12, 0, 0, 1⟩ : MassPoint ℚ) ⟨0, 0, 0, 1⟩)
          ⟨0, 0, 0, 1⟩
        ≠ avgMassPointsWeighted (⟨12, 0, 0, 1⟩ : MassPoint ℚ)
          (avgMassPointsWeighted ⟨0, 0, 0, 1⟩ ⟨0, 0, 0, 1⟩) := by
  have h1 : avgMassPointsWeighted (avgMassPointsWeighted (⟨12, 0, 0, 1⟩ : MassPoint ℚ)
      ⟨0, 0, 0, 1⟩) ⟨0, 0, 0, 1⟩ = ⟨1, 0, 0, 3⟩ := by
    simp only [avgMassPointsWeighted_eq]; norm_num
  have h2 : avgMassPointsWeighted (⟨12, 0, 0, 1⟩ : MassPoint ℚ)
      (avgMassPointsWeighted ⟨0, 0, 0, 1⟩ ⟨0, 0, 0, 1⟩) = ⟨2, 0, 0, 3⟩ := by
    simp only [avgMassPointsWeighted_eq]; norm_num
  refine ⟨h1, h2, ?_⟩
  rw [h1, h2]
  simp

/-! ## Claims on the reduction -/

/-- C1 (the code departs from the claim).  On the two points `(0,0,0,1)` and `(10,0,0,1)` the
reduction loop of `linearBarycenter` and that of `concurrentBarycenter` both return
`(5/2, 0, 0, 2)`, whereas the barycenter of the list is `(5, 0, 0, 2)`. -/
theorem reduce_two_points_halves_barycenter :
    linearReduce 2 [(⟨0, 0, 0, 1⟩ : MassPoint ℚ), ⟨10, 0, 0, 1⟩] = some ⟨5 / 2, 0, 0, 2⟩
      ∧ concurrentReduce [[0]] [(⟨0, 0, 0, 1⟩ : MassPoint ℚ), ⟨10, 0, 0, 1⟩]
          = some ⟨5 / 2, 0, 0, 2⟩
      ∧ barycenter [(⟨0, 0, 0, 1⟩ : MassPoint ℚ), ⟨10, 0, 0, 1⟩] = ⟨5, 0, 0, 2⟩ := by
  refine ⟨?_, ?_, ?_⟩
  · simp [linearReduce, linearRound, pairLoop, appendCarry, avgMassPointsWeighted_eq]
    norm_num
  · simp [concurrentReduce, concurrentRound, dispatchLoop, receiveLoop, appendCarry,
      avgMassPointsWeightedAsync, avgMassPointsWeighted_eq]
    norm_num
  · simp [barycenter, totalMass]
    norm_num

/-- C6.  Mass conservation: for every list of at least two points, the reduction loop of
`linearBarycenter` returns a point (with fuel at least the length of the list) whose mass is
the sum of the masses of the input points, and so does the reduction loop of
`concurrentBarycenter` under every valid schedule.  The mass never goes through a division,
so no condition on the partial mass sums is needed. -/
theorem reduce_conserves_mass (l : List (MassPoint K)) (h2 : 2 ≤ l.length) :
    (∃ p, (∀ fuel, l.length ≤ fuel → linearReduce fuel l = some p) ∧ p.mass = totalMass l)
      ∧ ∀ schedule, ValidSchedule schedule l.length →
          ∃ p, concurrentReduce schedule l = some p ∧ p.mass = totalMass l :=
  ⟨linearReduce_mass l.length l rfl (by omega),
    fun schedule hs => concurrentReduce_mass schedule l (by omega) hs⟩

/-- Witness of C6 on the points `(0,0,0,1)`, `(0,0,0,1)`, `(0,0,0,2)`: round 1 gives
`(0,0,0,2)` and the carried `(0,0,0,2)`, round 2 gives `(0,0,0,4)`. -/
theorem reduce_conserves_mass_witness :
    (2 ≤ threePoints.length
      ∧ ((∃ p, (∀ fuel, threePoints.length ≤ fuel → linearReduce fuel threePoints = some p)
            ∧ p.mass = totalMass threePoints)
          ∧ ∀ schedule, ValidSchedule schedule threePoints.length →
              ∃ p, concurrentReduce schedule threePoints = some p
                ∧ p.mass = totalMass threePoints))
      ∧ linearRound threePoints = some [⟨0, 0, 0, 2⟩, ⟨0, 0, 0, 2⟩]
      ∧ linearRound [(⟨0, 0, 0, 2⟩ : MassPoint ℚ), ⟨0, 0, 0, 2⟩] = some [⟨0, 0, 0, 4⟩]
      ∧ linearReduce 3 threePoints = some ⟨0, 0, 0, 4⟩
      ∧ ValidSchedule [[0], [0]] threePoints.length
      ∧ concurrentReduce [[0], [0]] threePoints = some ⟨0, 0, 0, 4⟩
      ∧ totalMass threePoints = 4 := by
  refine ⟨⟨by decide, reduce_conserves_mass threePoints (by decide)⟩, ?_, ?_, ?_, ?_, ?_, ?_⟩
  · simp [threePoints, linearRound, pairLoop, appendCarry, avgMassPointsWeighted_eq]
    norm_num
  · simp [linearRound, pairLoop, appendCarry, avgMassPointsWeighted_eq]
    norm_num
  · simp [threePoints, linearReduce, linearRound, pairLoop, appendCarry,
      avgMassPointsWeighted_eq]
    norm_num
  · simp [threePoints, ValidSchedule, ValidOrder, List.range_succ]
  · simp [threePoints, concurrentReduce, concurrentRound, dispatchLoop, receiveLoop,
      appendCarry, avgMassPointsWeightedAsync, avgMassPointsWeighted_eq]
    norm_num
  · simp [threePoints, totalMass]
    norm_num

/-- C8 (the code departs from the claim).  The list `[(12,0,0,1), (0,0,0,1), (0,0,0,1)]`
reduces to `(1,0,0,3)` and its permutation `[(0,0,0,1), (0,0,0,1), (12,0,0,1)]` reduces to
`(2,0,0,3)`. -/
theorem reduce_depends_on_order :
    List.Perm [(⟨0, 0, 0, 1⟩ : MassPoint ℚ), ⟨0, 0, 0, 1⟩, ⟨12, 0, 0, 1⟩]
        [⟨12, 0, 0, 1⟩, ⟨0, 0, 0, 1⟩, ⟨0, 0, 0, 1⟩]
      ∧ linearReduce 3 [(⟨12, 0, 0, 1⟩ : MassPoint ℚ), ⟨0, 0, 0, 1⟩, ⟨0, 0, 0, 1⟩]
          = some ⟨1, 0, 0, 3⟩
      ∧ linearReduce 3 [(⟨0, 0, 0, 1⟩ : MassPoint ℚ), ⟨0, 0, 0, 1⟩, ⟨12, 0, 0, 1⟩]
          = some ⟨2, 0, 0, 3⟩
      ∧ concurrentReduce [[0], [0]] [(⟨12, 0, 0, 1⟩ : MassPoint ℚ), ⟨0, 0, 0, 1⟩, ⟨0, 0, 0, 1⟩]
          = some ⟨1, 0, 0, 3⟩
      ∧ concurrentReduce [[0], [0]] [(⟨0, 0, 0, 1⟩ : MassPoint ℚ), ⟨0, 0, 0, 1⟩, ⟨12, 0, 0, 1⟩]
          = some ⟨2, 0, 0, 3⟩ := by
  refine ⟨?_, ?_, ?_, ?_, ?_⟩
  · exact (List.perm_append_comm :
      List.Perm ([(⟨0, 0, 0, 1⟩ : MassPoint ℚ), ⟨0, 0, 0, 1⟩] ++ [⟨12, 0, 0, 1⟩])
        ([⟨12, 0, 0, 1⟩] ++ [⟨0, 0, 0, 1⟩, ⟨0, 0, 0, 1⟩]))
  · simp [linearReduce, linearRound, pairLoop, appendCarry, avgMassPointsWeighted_eq]
    norm_num
  · simp [linearReduce, linearRound, pairLoop, appendCarry, avgMassPointsWeighted_eq]
    norm_num
  · simp [concurrentReduce, concurrentRound, dispatchLoop, receiveLoop, appendCarry,
      avgMassPointsWeightedAsync, avgMassPointsWeighted_eq]
    norm_num
  · simp [concurrentReduce, concurrentRound, dispatchLoop, receiveLoop, appendCarry,
      avgMassPointsWeightedAsync, avgMassPointsWeighted_eq]
    norm_num

/-- C9 (the code departs from the claim).  On the six points `(48,0,0,1)`, `(0,0,0,1)` (five
times), the schedule whose first round receives the three results in the order `0, 1, 2`
ends in `(1,0,0,6)`, as the sequential loop does, and the schedule whose first round
receives them in the order `1, 2, 0` ends in `(2,0,0,6)`; both schedules are valid. -/
theorem concurrentReduce_depends_on_schedule :
    ValidSchedule [[0, 1, 2], [0], [0]] 6 ∧ ValidSchedule [[1, 2, 0], [0], [0]] 6
      ∧ concurrentReduce [[0, 1, 2], [0], [0]]
          [(⟨48, 0, 0, 1⟩ : MassPoint ℚ), ⟨0, 0, 0, 1⟩, ⟨0, 0, 0, 1⟩, ⟨0, 0, 0, 1⟩,
            ⟨0, 0, 0, 1⟩, ⟨0, 0, 0, 1⟩] = some ⟨1, 0, 0, 6⟩
      ∧ concurrentReduce [[1, 2, 0], [0], [0]]
          [(⟨48, 0, 0, 1⟩ : MassPoint ℚ), ⟨0, 0, 0, 1⟩, ⟨0, 0, 0, 1⟩, ⟨0, 0, 0, 1⟩,
            ⟨0, 0, 0, 1⟩, ⟨0, 0, 0, 1⟩] = some ⟨2, 0, 0, 6⟩
      ∧ linearReduce 6
          [(⟨48, 0, 0, 1⟩ : MassPoint ℚ), ⟨0, 0, 0, 1⟩, ⟨0, 0, 0, 1⟩, ⟨0, 0, 0, 1⟩,
            ⟨0, 0, 0, 1⟩, ⟨0, 0, 0, 1⟩] = some ⟨1, 0, 0, 6⟩ := by
  refine ⟨?_, ?_, ?_, ?_, ?_⟩
  · simp [ValidSchedule, ValidOrder, List.range_succ]
  · simp only [ValidSchedule, ValidOrder]
    refine ⟨by decide, ?_, by decide, ?_, by decide, ?_, by decide⟩
    · decide
    · decide
    · decide
  · simp [concurrentReduce, concurrentRound, dispatchLoop, receiveLoop, appendCarry,
      avgMassPointsWeightedAsync, avgMassPointsWeighted_eq]
    norm_num
  · simp [concurrentReduce, concurrentRound, dispatchLoop, receiveLoop, appendCarry,
      avgMassPointsWeightedAsync, avgMassPointsWeighted_eq]
    norm_num
  · simp [linearReduce, linearRound, pairLoop, appendCarry, avgMassPointsWeighted_eq]
    norm_num

/-! ## The odd carry -/

theorem pairIndices_callAt (l : List (MassPoint K)) (i : Nat) :
    (pairIndices l.length i).map (callAt l) = (combinedPairs (l.drop i)).map some := by
  generalize hn : l.length - i = n
  induction n using Nat.strong_induction_on generalizing i with
  | _ n ih =>
    rw [pairIndices]
    split_ifs with hlt
    · have h1 : i < l.length := by omega
      have h2 : i + 1 < l.length := by omega
      rw [List.map_cons, ih (l.length - (i + 2)) (by omega) (i + 2) rfl]
      rw [List.drop_eq_getElem_cons h1, List.drop_eq_getElem_cons h2]
      simp only [callAt, List.getElem?_eq_getElem h1, List.getElem?_eq_getElem h2,
        combinedPairs, List.map_cons, List.drop_drop]
    · rw [combinedPairs_of_length_le_one]
      · rfl
      · simp only [List.length_drop]
        omega

theorem pairIndices_mem (len : Nat) (i : Nat) (j : Nat) (hj : j ∈ pairIndices len i) :
    j % 2 = i % 2 ∧ j + 1 < len := by
  generalize hn : len - i = n at hj
  induction n using Nat.strong_induction_on generalizing i with
  | _ n ih =>
    rw [pairIndices] at hj
    split_ifs at hj with hlt
    · rcases List.mem_cons.mp hj with rfl | hmem
      · exact ⟨rfl, by omega⟩
      · have := ih (len - (i + 2)) (by omega) (i + 2) hmem rfl
        omega
    · simp at hj

theorem carry_of_odd (l : List (MassPoint K)) (hodd : l.length % 2 = 1) :
    ∃ last, l[l.length - 1]? = some last ∧ carry l = [last] := by
  have h := appendCarry_eq l []
  have hlt : l.length - 1 < l.length := by omega
  refine ⟨l[l.length - 1], List.getElem?_eq_getElem hlt, ?_⟩
  simp only [appendCarry, hodd, List.getElem?_eq_getElem hlt] at h
  simpa using h.symm

/-- C7.  Odd-carry rule: on every list of odd length at least 3, a round of
`linearBarycenter` returns the combined pairs followed by the last input point `last`
itself (all four fields as they were); the calls of `avgMassPointsWeighted` made by the round
are those of the indices `(i, i+1)` of the pairing loop, none of which is the index of the
last point; a round of `concurrentBarycenter` under any valid arrival order also ends with
`last`.  For `[P1, P2, P3]` round 1 yields `[combine(P1,P2), P3]` and the final result is
`combine(combine(P1,P2), P3)`, in both programs. -/
theorem odd_carry_rule (l : List (MassPoint K)) (hodd : l.length % 2 = 1)
    (h3 : 3 ≤ l.length) :
    ∃ combined last,
      l[l.length - 1]? = some last
        ∧ linearRound l = some (combined ++ [last])
        ∧ (pairIndices l.length 0).map (callAt l) = combined.map some
        ∧ (∀ i ∈ pairIndices l.length 0, i ≠ l.length - 1 ∧ i + 1 ≠ l.length - 1)
        ∧ (∀ order, ValidOrder (l.length / 2) order →
            ∃ received, concurrentRound order l = some (received ++ [last])
              ∧ received.Perm combined)
        ∧ (∀ P1 P2 P3, l = [P1, P2, P3] →
            linearRound l = some [avgMassPointsWeighted P1 P2, P3]
              ∧ linearReduce 3 l
                  = some (avgMassPointsWeighted (avgMassPointsWeighted P1 P2) P3)
              ∧ concurrentRound [0] l = some [avgMassPointsWeighted P1 P2, P3]
              ∧ concurrentReduce [[0], [0]] l
                  = some (avgMassPointsWeighted (avgMassPointsWeighted P1 P2) P3)) := by
  obtain ⟨last, hlast, hcarry⟩ := carry_of_odd l hodd
  refine ⟨combinedPairs l, last, hlast, ?_, ?_, ?_, ?_, ?_⟩
  · rw [linearRound_eq, roundList_eq, hcarry]
  · simpa using pairIndices_callAt l 0
  · intro i hi
    have := pairIndices_mem l.length 0 i hi
    omega
  · intro order ho
    obtain ⟨received, hr, hp⟩ := concurrentRound_perm order l ho
    exact ⟨received, by rw [hr, hcarry], hp⟩
  · rintro P1 P2 P3 rfl
    refine ⟨?_, ?_, ?_, ?_⟩
    · simp [linearRound_eq, roundList]
    · simp [linearReduce, linearRound_eq, roundList]
    · simp [concurrentRound, dispatchLoop, receiveLoop, appendCarry,
        avgMassPointsWeightedAsync]
    · simp [concurrentReduce, concurrentRound, dispatchLoop, receiveLoop, appendCarry,
        avgMassPointsWeightedAsync]

/-- Witness of C7 on the points `(0,0,0,1)`, `(0,0,0,1)`, `(0,0,0,2)`. -/
theorem odd_carry_rule_witness :
    threePoints.length % 2 = 1 ∧ 3 ≤ threePoints.length
      ∧ ∃ combined last,
          threePoints[threePoints.length - 1]? = some last
            ∧ linearRound threePoints = some (combined ++ [last])
            ∧ (pairIndices threePoints.length 0).map (callAt threePoints) = combined.map some
            ∧ (∀ i ∈ pairIndices threePoints.length 0,
                i ≠ threePoints.length - 1 ∧ i + 1 ≠ threePoints.length - 1)
            ∧ (∀ order, ValidOrder (threePoints.length / 2) order →
                ∃ received, concurrentRound order threePoints = some (received ++ [last])
                  ∧ received.Perm combined)
            ∧ (∀ P1 P2 P3, threePoints = [P1, P2, P3] →
                linearRound threePoints = some [avgMassPointsWeighted P1 P2, P3]
                  ∧ linearReduce 3 threePoints
                      = some (avgMassPointsWeighted (avgMassPointsWeighted P1 P2) P3)
                  ∧ concurrentRound [0] threePoints = some [avgMassPointsWeighted P1 P2, P3]
                  ∧ concurrentReduce [[0], [0]] threePoints
                      = some (avgMassPointsWeighted (avgMassPointsWeighted P1 P2) P3)) :=
  ⟨by decide, by decide, odd_carry_rule threePoints (by decide) (by decide)⟩


/-! ## The concurrent loader -/

section LoaderProofs
omit [Field K]

theorem readString_nil (delim : Char) : readString delim [] = ([], true, []) := rfl

theorem readString_line (body rest : List Char) (h : '\n' ∉ body) :
    readString '\n' (body ++ '\n' :: rest) = (body ++ ['\n'], false, rest) := by
  induction body with
  | nil => simp [readString]
  | cons c cs ih =>
    have hc : c ≠ '\n' := fun e => h (by simp [e])
    have hcs : '\n' ∉ cs := fun e => h (by simp [e])
    simp [readString, hc, ih hcs]

theorem readString_length (delim : Char) (u : List Char) :
    (readString delim u).1.length + (readString delim u).2.2.length = u.length := by
  induction u with
  | nil => simp [readString]
  | cons c cs ih =>
    by_cases hc : c = delim
    · simp [readString, hc]
      omega
    · simp [readString, hc]
      omega

theorem sum_map_set {α M : Type} [AddCommMonoid M] (f : α → M) (l : List α) (i : Nat)
    (a b : α) (h : l[i]? = some a) :
    ((l.set i b).map f).sum + f a = (l.map f).sum + f b := by
  induction l generalizing i with
  | nil => simp at h
  | cons x xs ih =>
    cases i with
    | zero =>
      simp at h
      subst h
      simp only [List.set_cons_zero, List.map_cons, List.sum_cons]
      abel
    | succ i =>
      simp at h
      simp only [List.set_cons_succ, List.map_cons, List.sum_cons, add_assoc, ih i h]

theorem exited_of_outstanding_zero (tasks : List (ParseTask K))
    (h : (tasks.map outstanding).sum = 0) (i : Nat) (t : ParseTask K)
    (ht : tasks[i]? = some t) : t = ParseTask.exited := by
  have hmem : t ∈ tasks := List.mem_iff_getElem?.mpr ⟨i, ht⟩
  have h0 : outstanding t = 0 :=
    (List.sum_eq_zero_iff.mp h) _ (List.mem_map_of_mem outstanding hmem)
  cases t <;> simp [outstanding] at h0 ⊢

theorem pendingPoints_zero_of_outstanding_zero (sscanf : List Char → Option (MassPoint K))
    (tasks : List (ParseTask K)) (h : (tasks.map outstanding).sum = 0) :
    (tasks.map (pendingPoints sscanf)).sum = 0 := by
  induction tasks with
  | nil => simp
  | cons t ts ih =>
    simp only [List.map_cons, List.sum_cons, Nat.add_eq_zero] at h
    have ht : t = ParseTask.exited := by
      cases t <;> simp [outstanding] at h ⊢
    simp [ht, pendingPoints, ih h.2]

theorem step_main_reading (sscanf : List Char → Option (MassPoint K))
    (lines : List (List Char)) (s s' : Loader K) (hinv : LoaderInv sscanf lines s)
    (hmain : s.main = Main.reading) (hstep : step sscanf Move.main s = some s') :
    LoaderInv sscanf lines s' := by
  obtain ⟨rest, hterm, hunread, hrest, hpts, hwg, hread, hcoll, hload, hpanic⟩ := hinv
  obtain ⟨unread, tasks, wg, chan, waiter, run, masspoints, main⟩ := s
  simp only at hunread hrest hpts hwg hread hcoll hload hpanic hmain
  subst hmain
  simp only [true_implies] at hunread hread
  subst hunread
  cases rest with
  | nil =>
    simp [step, readString] at hstep
    subst hstep
    refine ⟨[], by simp, by simp, by simp, ?_, hwg, by simp, by simp, by simp, by simp⟩
    simpa using hpts
  | cons l rest =>
    obtain ⟨body, rfl, hbody⟩ := hterm l (by simp)
    have hrs : readString '\n' ((body ++ ['\n']) :: rest).flatten
        = (body ++ ['\n'], false, rest.flatten) := by
      simpa using readString_line body rest.flatten hbody
    simp only [step, hrs] at hstep
    simp at hstep
    subst hstep
    refine ⟨rest, fun l hl => hterm l (by simp [hl]), by simp, by simp, ?_, ?_,
      fun _ => hread, by simp, by simp, by simp⟩
    · simp only [List.map_append, List.sum_append, List.map_cons, List.map_nil, List.sum_cons,
        List.sum_nil, add_zero, pendingPoints]
      rw [← hpts]
      cases hs : sscanf (body ++ ['\n']) with
      | none => simp [List.filterMap_cons, hs]
      | some p =>
        simp only [List.filterMap_cons, hs, Option.toList, ← Multiset.cons_coe,
          ← Multiset.singleton_add, Multiset.coe_nil]
        abel
    · simp only [List.map_append, List.sum_append, List.map_cons, List.map_nil, List.sum_cons,
        List.sum_nil, outstanding, hwg]
      push_cast
      ring

theorem step_main_collecting (sscanf : List Char → Option (MassPoint K))
    (lines : List (List Char)) (s s' : Loader K) (hinv : LoaderInv sscanf lines s)
    (hmain : s.main = Main.collecting) (hstep : step sscanf Move.main s = some s') :
    LoaderInv sscanf lines s' := by
  obtain ⟨rest, hterm, hunread, hrest, hpts, hwg, hread, hcoll, hload, hpanic⟩ := hinv
  obtain ⟨unread, tasks, wg, chan, waiter, run, masspoints, main⟩ := s
  simp only at hunread hrest hpts hwg hread hcoll hload hpanic hmain
  subst hmain
  have hrest0 : rest = [] := hrest (by simp)
  subst hrest0
  simp only [true_implies] at hcoll
  simp only [step] at hstep
  split_ifs at hstep with hcond
  · cases chan with
    | nil => simp at hstep
    | cons val later =>
      simp at hstep
      subst hstep
      refine ⟨[], by simp, by simp, by simp, ?_, hwg, by simp, fun _ => hcoll, by simp,
        by simp⟩
      rw [← hpts]
      simp only [← Multiset.coe_add, ← Multiset.cons_coe, ← Multiset.singleton_add,
        Multiset.coe_nil, List.filterMap_nil]
      abel
  · simp at hstep
    subst hstep
    simp only [not_or, Bool.not_eq_true, gt_iff_lt, List.length_pos, ne_eq, not_not] at hcond
    obtain ⟨hrun, hchan⟩ := hcond
    subst hchan
    refine ⟨[], by simp, by simp, by simp, hpts, hwg, by simp, by simp, ?_, by simp⟩
    intro _
    rcases hcoll with ⟨_, h⟩ | ⟨_, h, _⟩ | ⟨h1, h2, h3⟩
    · simp [hrun] at h
    · simp [hrun] at h
    · exact ⟨h1, h2, h3, rfl⟩

theorem step_mainSync (sscanf : List Char → Option (MassPoint K))
    (lines : List (List Char)) (s s' : Loader K) (hinv : LoaderInv sscanf lines s)
    (hstep : step sscanf Move.mainSync s = some s') :
    LoaderInv sscanf lines s' := by
  obtain ⟨rest, hterm, hunread, hrest, hpts, hwg, hread, hcoll, hload, hpanic⟩ := hinv
  obtain ⟨unread, tasks, wg, chan, waiter, run, masspoints, main⟩ := s
  simp only at hunread hrest hpts hwg hread hcoll hload hpanic
  cases main <;> simp only [step] at hstep <;> try (simp at hstep; done)
  have hrest0 : rest = [] := hrest (by simp)
  subst hrest0
  simp only [true_implies] at hcoll
  split_ifs at hstep with hcond
  · cases waiter <;> simp at hstep
    subst hstep
    rcases hcoll with ⟨h, _⟩ | ⟨_, _, h⟩ | ⟨h, _⟩
    · simp at h
    · refine ⟨[], by simp, by simp, by simp, hpts, hwg, by simp, ?_, by simp, by simp⟩
      intro _
      exact Or.inr (Or.inr ⟨rfl, rfl, h⟩)
    · simp at h

theorem step_waiter (sscanf : List Char → Option (MassPoint K))
    (lines : List (List Char)) (s s' : Loader K) (hinv : LoaderInv sscanf lines s)
    (hstep : step sscanf Move.waiter s = some s') :
    LoaderInv sscanf lines s' := by
  obtain ⟨rest, hterm, hunread, hrest, hpts, hwg, hread, hcoll, hload, hpanic⟩ := hinv
  obtain ⟨unread, tasks, wg, chan, waiter, run, masspoints, main⟩ := s
  simp only at hunread hrest hpts hwg hread hcoll hload hpanic
  simp only [step] at hstep
  split_ifs at hstep with hp hw
  all_goals cases waiter <;> simp at hstep
  subst hstep
  simp only at hw
  refine ⟨rest, hterm, hunread, hrest, hpts, hwg, ?_, ?_, ?_, hpanic⟩
  · intro h; simpa using hread h
  · intro h
    rcases hcoll h with ⟨_, h2⟩ | ⟨h1, _⟩ | ⟨h1, _⟩
    · exact Or.inr (Or.inl ⟨rfl, h2, hw⟩)
    · simp at h1
    · simp at h1
  · intro h
    have := (hload h).1
    simp at this

theorem outstanding_pos (tasks : List (ParseTask K)) (i : Nat) (t : ParseTask K)
    (ht : tasks[i]? = some t) (hne : t ≠ ParseTask.exited) :
    1 ≤ (tasks.map outstanding).sum := by
  by_contra hlt
  exact hne (exited_of_outstanding_zero tasks (by omega) i t ht)

theorem step_task (sscanf : List Char → Option (MassPoint K))
    (lines : List (List Char)) (i : Nat) (s s' : Loader K) (hinv : LoaderInv sscanf lines s)
    (hstep : step sscanf (Move.task i) s = some s') :
    LoaderInv sscanf lines s' := by
  obtain ⟨rest, hterm, hunread, hrest, hpts, hwg, hread, hcoll, hload, hpanic⟩ := hinv
  obtain ⟨unread, tasks, wg, chan, waiter, run, masspoints, main⟩ := s
  simp only at hunread hrest hpts hwg hread hcoll hload hpanic
  simp only [step] at hstep
  rw [if_neg hpanic] at hstep
  cases ht : tasks[i]? with
  | none => simp [ht] at hstep
  | some t =>
    rw [ht] at hstep
    have hpos : t ≠ ParseTask.exited → (1 : Int) ≤ wg := by
      intro hne
      have := outstanding_pos tasks i t ht hne
      omega
    have hcoll2 : t ≠ ParseTask.exited → ∀ wg2 : Int, main = Main.collecting →
        (waiter = Waiter.waiting ∧ run = true)
          ∨ (waiter = Waiter.offering ∧ run = true ∧ wg2 = 0)
          ∨ (waiter = Waiter.exited ∧ run = false ∧ wg2 = 0) := by
      intro hne wg2 hm
      have h1 := hpos hne
      rcases hcoll hm with h | ⟨_, _, h⟩ | ⟨_, _, h⟩
      · exact Or.inl h
      · omega
      · omega
    have hload2 : t ≠ ParseTask.exited → ∀ wg2 : Int, main = Main.loaded →
        waiter = Waiter.exited ∧ run = false ∧ wg2 = 0 ∧ chan = [] := by
      intro hne wg2 hm
      have h1 := hpos hne
      have := (hload hm).2.2.1
      omega
    have hP := fun b => sum_map_set (pendingPoints sscanf) tasks i t b ht
    have hO := fun b => sum_map_set outstanding tasks i t b ht
    cases t with
    | parsing str =>
      cases hs : sscanf str with
      | none =>
        simp only [hs] at hstep
        simp at hstep
        subst hstep
        refine ⟨rest, hterm, hunread, hrest, ?_, ?_, hread, hcoll2 (by simp) wg,
          hload2 (by simp) wg, hpanic⟩
        · have := hP ParseTask.returning
          simp only [pendingPoints, hs, Option.toList, Multiset.coe_nil, add_zero] at this
          simp only [this]
          exact hpts
        · have := hO ParseTask.returning
          simp only [outstanding, add_left_inj] at this
          simp only [this]
          exact hwg
      | some p =>
        simp only [hs] at hstep
        simp at hstep
        subst hstep
        refine ⟨rest, hterm, hunread, hrest, ?_, ?_, hread, hcoll2 (by simp) wg,
          hload2 (by simp) wg, hpanic⟩
        · have := hP (ParseTask.sending p)
          simp only [pendingPoints, hs, Option.toList, Multiset.coe_singleton,
            add_left_inj] at this
          simp only [this]
          exact hpts
        · have := hO (ParseTask.sending p)
          simp only [outstanding, add_left_inj] at this
          simp only [this]
          exact hwg
    | sending p =>
      simp only at hstep
      split_ifs at hstep with hroom
      simp at hstep
      subst hstep
      refine ⟨rest, hterm, hunread, hrest, ?_, ?_, hread, hcoll2 (by simp) wg, ?_, hpanic⟩
      · have := hP ParseTask.returning
        simp only [pendingPoints, add_zero] at this
        simp only
        rw [← hpts, ← this, ← Multiset.coe_add, Multiset.coe_singleton]
        abel
      · have := hO ParseTask.returning
        simp only [outstanding, add_left_inj] at this
        simp only [this]
        exact hwg
      · intro hm
        have h1 := hpos (by simp)
        have := (hload hm).2.2.1
        omega
    | returning =>
      simp only at hstep
      have h1 := hpos (by simp)
      rw [if_neg (by omega)] at hstep
      simp at hstep
      subst hstep
      refine ⟨rest, hterm, hunread, hrest, ?_, ?_, hread, hcoll2 (by simp) (wg - 1),
        hload2 (by simp) (wg - 1), hpanic⟩
      · have := hP ParseTask.exited
        simp only [pendingPoints, add_zero] at this
        simp only [this]
        exact hpts
      · have := hO ParseTask.exited
        simp only [outstanding, add_zero] at this
        simp only
        omega
    | exited => simp at hstep

theorem step_preserves_inv (sscanf : List Char → Option (MassPoint K))
    (lines : List (List Char)) (m : Move) (s s' : Loader K)
    (hinv : LoaderInv sscanf lines s) (hstep : step sscanf m s = some s') :
    LoaderInv sscanf lines s' := by
  cases m with
  | main =>
    cases hm : s.main with
    | reading => exact step_main_reading sscanf lines s s' hinv hm hstep
    | collecting => exact step_main_collecting sscanf lines s s' hinv hm hstep
    | loaded => simp [step, hm] at hstep
    | panicked => simp [step, hm] at hstep
  | mainSync => exact step_mainSync sscanf lines s s' hinv hstep
  | task i => exact step_task sscanf lines i s s' hinv hstep
  | waiter => exact step_waiter sscanf lines s s' hinv hstep

theorem exec_preserves_inv (sscanf : List Char → Option (MassPoint K))
    (lines : List (List Char)) (schedule : List Move) (s s' : Loader K)
    (hinv : LoaderInv sscanf lines s) (hexec : exec sscanf schedule s = some s') :
    LoaderInv sscanf lines s' := by
  induction schedule generalizing s with
  | nil =>
    simp only [exec, Option.some.injEq] at hexec
    exact hexec ▸ hinv
  | cons m later ih =>
    simp only [exec] at hexec
    cases hs : step sscanf m s with
    | none => simp [hs] at hexec
    | some s1 =>
      rw [hs] at hexec
      exact ih s1 (step_preserves_inv sscanf lines m s s1 hinv hs) hexec

theorem initial_inv (sscanf : List Char → Option (MassPoint K))
    (lines : List (List Char)) (hlines : ∀ l ∈ lines, NewlineTerminated l) :
    LoaderInv sscanf lines (initial lines.flatten) :=
  ⟨lines, hlines, by simp [initial], by simp [initial], by simp [initial],
    by simp [initial], by simp [initial], by simp [initial], by simp [initial],
    by simp [initial]⟩

theorem loaded_perm (sscanf : List Char → Option (MassPoint K)) (lines : List (List Char))
    (s : Loader K) (hinv : LoaderInv sscanf lines s) (hm : s.main = Main.loaded) :
    s.masspoints.Perm (lines.filterMap sscanf) := by
  obtain ⟨rest, hterm, hunread, hrest, hpts, hwg, hread, hcoll, hload, hpanic⟩ := hinv
  obtain ⟨_, _, hwg0, hchan⟩ := hload hm
  have hrest0 : rest = [] := hrest (by simp [hm])
  have hsum : (s.tasks.map outstanding).sum = 0 := by omega
  rw [hrest0, hchan, pendingPoints_zero_of_outstanding_zero sscanf s.tasks hsum] at hpts
  simp only [Multiset.coe_nil, add_zero, List.filterMap_nil] at hpts
  exact Multiset.coe_eq_coe.mp hpts

theorem length_filterMap_eq {α β : Type} (f : α → Option β) (l : List α) :
    (l.filterMap f).length = (l.filter fun a => (f a).isSome).length := by
  induction l with
  | nil => rfl
  | cons a l ih =>
    cases h : f a <;> simp [List.filterMap_cons, List.filter_cons, h, ih]

theorem step_progress (sscanf : List Char → Option (MassPoint K))
    (lines : List (List Char)) (s : Loader K) (hinv : LoaderInv sscanf lines s)
    (hm : s.main ≠ Main.loaded) : ∃ m s', step sscanf m s = some s' := by
  obtain ⟨rest, hterm, hunread, hrest, hpts, hwg, hread, hcoll, hload, hpanic⟩ := hinv
  obtain ⟨unread, tasks, wg, chan, waiter, run, masspoints, main⟩ := s
  simp only at hunread hrest hpts hwg hread hcoll hload hpanic hm
  cases main with
  | reading =>
    refine ⟨Move.main, ?_⟩
    simp only [step]
    split_ifs <;> exact ⟨_, rfl⟩
  | collecting =>
    simp only [true_implies] at hcoll
    cases chan with
    | cons val later =>
      refine ⟨Move.main, ?_⟩
      simp [step]
    | nil =>
      by_cases hall : ∀ t ∈ tasks, t = ParseTask.exited
      · have hsum : (tasks.map outstanding).sum = 0 := by
          apply List.sum_eq_zero_iff.mpr
          intro x hx
          obtain ⟨t, ht, rfl⟩ := List.mem_map.mp hx
          rw [hall t ht]
          rfl
        have hwg0 : wg = 0 := by omega
        rcases hcoll with ⟨h1, h2⟩ | ⟨h1, h2, _⟩ | ⟨h1, h2, _⟩
        · refine ⟨Move.waiter, ?_⟩
          simp [step, h1, hwg0]
        · refine ⟨Move.mainSync, ?_⟩
          simp [step, h1, h2]
        · refine ⟨Move.main, ?_⟩
          simp [step, h2]
      · push_neg at hall
        obtain ⟨t, htmem, hne⟩ := hall
        obtain ⟨i, hi⟩ := List.mem_iff_getElem?.mp htmem
        refine ⟨Move.task i, ?_⟩
        simp only [step, hi]
        cases t with
        | parsing str => cases hs : sscanf str <;> simp [hs]
        | sending p => simp
        | returning => simp only [reduceCtorEq, if_false]; split_ifs <;> exact ⟨_, rfl⟩
        | exited => exact absurd rfl hne
  | loaded => exact absurd rfl hm
  | panicked => exact absurd rfl hpanic

theorem step_workLeft (sscanf : List Char → Option (MassPoint K))
    (lines : List (List Char)) (m : Move) (s s' : Loader K)
    (hinv : LoaderInv sscanf lines s) (hstep : step sscanf m s = some s') :
    workLeft s' < workLeft s := by
  obtain ⟨rest, hterm, hunread, hrest, hpts, hwg, hread, hcoll, hload, hpanic⟩ := hinv
  obtain ⟨unread, tasks, wg, chan, waiter, run, masspoints, main⟩ := s
  simp only at hunread hrest hpts hwg hread hcoll hload hpanic
  cases m with
  | main =>
    cases main with
    | reading =>
      have hw : waiter = Waiter.absent := hread rfl
      subst hw
      have hlen := readString_length '\n' unread
      simp only [step] at hstep
      split_ifs at hstep with hcond
      · simp at hstep
        subst hstep
        simp only [workLeft, waiterWork, mainWork]
        omega
      · simp at hstep
        subst hstep
        simp only [not_or] at hcond
        have h1 : 0 < (readString '\n' unread).1.length := by omega
        simp only [workLeft, waiterWork, mainWork, List.map_append, List.sum_append,
          List.map_cons, List.map_nil, List.sum_cons, List.sum_nil, taskWork]
        omega
    | collecting =>
      simp only [step] at hstep
      split_ifs at hstep with hcond
      · cases chan with
        | nil => simp at hstep
        | cons val later =>
          simp at hstep
          subst hstep
          simp only [workLeft, List.length_cons]
          omega
      · simp at hstep
        subst hstep
        simp only [workLeft, mainWork]
        omega
    | loaded => simp [step] at hstep
    | panicked => simp [step] at hstep
  | mainSync =>
    cases main <;> simp only [step] at hstep <;> try (simp at hstep; done)
    split_ifs at hstep with hcond
    cases waiter <;> simp at hstep
    subst hstep
    simp only [workLeft, waiterWork]
    omega
  | task i =>
    simp only [step] at hstep
    rw [if_neg hpanic] at hstep
    cases ht : tasks[i]? with
    | none => simp [ht] at hstep
    | some t =>
      rw [ht] at hstep
      have hW := fun b => sum_map_set taskWork tasks i t b ht
      cases t with
      | parsing str =>
        cases hs : sscanf str with
        | none =>
          simp only [hs] at hstep
          simp at hstep
          subst hstep
          have := hW ParseTask.returning
          simp only [taskWork] at this
          simp only [workLeft]
          omega
        | some p =>
          simp only [hs] at hstep
          simp at hstep
          subst hstep
          have := hW (ParseTask.sending p)
          simp only [taskWork] at this
          simp only [workLeft]
          omega
      | sending p =>
        simp only at hstep
        split_ifs at hstep with hroom
        simp at hstep
        subst hstep
        have := hW ParseTask.returning
        simp only [taskWork] at this
        simp only [workLeft, List.length_append, List.length_singleton]
        omega
      | returning =>
        simp only at hstep
        have h1 := outstanding_pos tasks i ParseTask.returning ht (by simp)
        rw [if_neg (by omega)] at hstep
        simp at hstep
        subst hstep
        have := hW ParseTask.exited
        simp only [taskWork] at this
        simp only [workLeft]
        omega
      | exited => simp at hstep
  | waiter =>
    simp only [step] at hstep
    split_ifs at hstep with hp hw
    all_goals cases waiter <;> simp at hstep
    subst hstep
    simp only [workLeft, waiterWork]
    omega

theorem exec_append (sscanf : List Char → Option (MassPoint K)) (first later : List Move)
    (s s1 : Loader K) (h : exec sscanf first s = some s1) :
    exec sscanf (first ++ later) s = exec sscanf later s1 := by
  induction first generalizing s with
  | nil =>
    simp only [exec, Option.some.injEq] at h
    simp [h]
  | cons m ms ih =>
    simp only [exec, List.cons_append] at h ⊢
    cases hs : step sscanf m s with
    | none => simp [hs] at h
    | some s2 =>
      rw [hs] at h
      simp only
      exact ih s2 h

theorem reaches_loaded (sscanf : List Char → Option (MassPoint K))
    (lines : List (List Char)) (s : Loader K) (hinv : LoaderInv sscanf lines s) :
    ∃ more s', exec sscanf more s = some s' ∧ s'.main = Main.loaded := by
  generalize hn : workLeft s = n
  induction n using Nat.strong_induction_on generalizing s with
  | _ n ih =>
    by_cases hm : s.main = Main.loaded
    · exact ⟨[], s, rfl, hm⟩
    · obtain ⟨m, s1, hstep⟩ := step_progress sscanf lines s hinv hm
      have hlt := step_workLeft sscanf lines m s s1 hinv hstep
      obtain ⟨more, s2, hexec, hloaded⟩ :=
        ih (workLeft s1) (by omega) s1 (step_preserves_inv sscanf lines m s s1 hinv hstep) rfl
      refine ⟨m :: more, s2, ?_, hloaded⟩
      simp only [exec, hstep]
      exact hexec

theorem exec_length_le (sscanf : List Char → Option (MassPoint K))
    (lines : List (List Char)) (schedule : List Move) (s s' : Loader K)
    (hinv : LoaderInv sscanf lines s) (hexec : exec sscanf schedule s = some s') :
    schedule.length + workLeft s' ≤ workLeft s := by
  induction schedule generalizing s with
  | nil =>
    simp only [exec, Option.some.injEq] at hexec
    simp [hexec]
  | cons m later ih =>
    simp only [exec] at hexec
    cases hs : step sscanf m s with
    | none => simp [hs] at hexec
    | some s1 =>
      rw [hs] at hexec
      have h1 := step_workLeft sscanf lines m s s1 hinv hs
      have h2 := ih s1 (step_preserves_inv sscanf lines m s s1 hinv hs) hexec
      simp only [List.length_cons]
      omega

theorem filterMap_parsedLines (sscanf : List Char → Option (MassPoint K))
    (lines : List (List Char)) :
    (parsedLines sscanf lines).filterMap sscanf = lines.filterMap sscanf := by
  induction lines with
  | nil => rfl
  | cons l ls ih =>
    simp only [parsedLines] at ih ⊢
    cases h : sscanf l <;> simp [List.filterMap_cons, List.filter_cons, h, ih]

end LoaderProofs


/-! ## The insufficient-data guard -/

omit [Field K] in
theorem insufficientGuard_error (masspoints : List (MassPoint K)) :
    (∃ msg, insufficientGuard masspoints = Except.error msg) ↔ masspoints.length ≤ 1 := by
  unfold insufficientGuard handle
  split_ifs with h
  · simp [h]
  · simp [h]

omit [Field K] in
theorem insufficientGuard_ok (masspoints : List (MassPoint K)) :
    insufficientGuard masspoints = Except.ok () ↔ 2 ≤ masspoints.length := by
  unfold insufficientGuard handle
  split_ifs with h
  · simp only [reduceCtorEq, false_iff]
    omega
  · simp only [true_iff]
    omega

theorem linearMain_error (fuel : Nat) (masspoints : List (MassPoint K)) :
    (∃ msg, linearMain fuel masspoints = Except.error msg) ↔ masspoints.length ≤ 1 := by
  rw [← insufficientGuard_error]
  unfold linearMain
  cases insufficientGuard masspoints <;> simp

theorem concurrentMain_error (schedule : List (List Nat)) (masspoints : List (MassPoint K)) :
    (∃ msg, concurrentMain schedule masspoints = Except.error msg)
      ↔ masspoints.length ≤ 1 := by
  rw [← insufficientGuard_error]
  unfold concurrentMain
  cases insufficientGuard masspoints <;> simp

theorem linearMain_ok (fuel : Nat) (masspoints : List (MassPoint K))
    (r : Option (MassPoint K)) (h : linearMain fuel masspoints = Except.ok r) :
    2 ≤ masspoints.length ∧ r = linearReduce fuel masspoints := by
  unfold linearMain at h
  cases hg : insufficientGuard masspoints with
  | error msg => simp [hg] at h
  | ok u =>
    simp only [hg, Except.ok.injEq] at h
    exact ⟨(insufficientGuard_ok masspoints).mp hg, h.symm⟩

theorem concurrentMain_ok (schedule : List (List Nat)) (masspoints : List (MassPoint K))
    (r : Option (MassPoint K)) (h : concurrentMain schedule masspoints = Except.ok r) :
    2 ≤ masspoints.length ∧ r = concurrentReduce schedule masspoints := by
  unfold concurrentMain at h
  cases hg : insufficientGuard masspoints with
  | error msg => simp [hg] at h
  | ok u =>
    simp only [hg, Except.ok.injEq] at h
    exact ⟨(insufficientGuard_ok masspoints).mp hg, h.symm⟩

/-- C11.  Insufficient-data guard.  With the loaded `masspoints`, `main` of either program
stops with an error, before its reduction loop, if and only if `masspoints` holds 0 or 1
point; when it goes on, there are at least 2 points and the result is that of the reduction
loop on them.  In particular an input of one malformed line and no well-formed line, on
which every complete run of the loader leaves no point, gives the error; such a run
exists. -/
theorem insufficient_data_guard (fuel : Nat) (schedule : List (List Nat))
    (masspoints : List (MassPoint K)) :
    ((∃ msg, linearMain fuel masspoints = Except.error msg)
        ↔ masspoints.length = 0 ∨ masspoints.length = 1)
      ∧ ((∃ msg, concurrentMain schedule masspoints = Except.error msg)
        ↔ masspoints.length = 0 ∨ masspoints.length = 1)
      ∧ (∀ r, linearMain fuel masspoints = Except.ok r →
          2 ≤ masspoints.length ∧ r = linearReduce fuel masspoints)
      ∧ (∀ r, concurrentMain schedule masspoints = Except.ok r →
          2 ≤ masspoints.length ∧ r = concurrentReduce schedule masspoints)
      ∧ (∀ (sscanf : List Char → Option (MassPoint K)) (line : List Char)
          (moves : List Move) (s : Loader K),
          NewlineTerminated line → sscanf line = none →
          exec sscanf moves (initial [line].flatten) = some s → s.main = Main.loaded →
          s.masspoints = []
            ∧ ∃ msg, concurrentMain schedule s.masspoints = Except.error msg)
      ∧ ∃ (moves : List Move) (s : Loader ℚ),
          exec exampleScan moves (initial [['o', 'o', 'p', 's', '\n']].flatten) = some s
            ∧ s.main = Main.loaded ∧ s.masspoints = []
            ∧ concurrentMain [] s.masspoints
              = Except.error "Insufficient number of values; there must be at least one " := by
  refine ⟨?_, ?_, linearMain_ok fuel masspoints, concurrentMain_ok schedule masspoints,
    ?_, ?_⟩
  · rw [linearMain_error]; omega
  · rw [concurrentMain_error]; omega
  · intro sscanf line moves s hline hnone hexec hloaded
    have hinv := exec_preserves_inv sscanf [line] moves _ s
      (initial_inv sscanf [line] (by simpa using hline)) hexec
    have hperm := loaded_perm sscanf [line] s hinv hloaded
    have hnil : s.masspoints = [] := by
      simpa [List.filterMap_cons, hnone] using hperm
    refine ⟨hnil, ?_⟩
    rw [concurrentMain_error, hnil]
    simp
  · refine ⟨[Move.main, Move.main, Move.task 0, Move.task 0, Move.waiter, Move.mainSync,
      Move.main], _, rfl, ?_, ?_, ?_⟩ <;>
      simp [exec, step, initial, readString, exampleScan, concurrentMain, insufficientGuard,
        handle]

/-! ## Checked division -/

/-- C13.  `avgMassPointsWeighted` fails only on zero total mass: the divisor of the three
divisions of its final `fromWeightedSubspace` is `a.mass + b.mass`; it is zero, and the
checked function fails, if and only if `a.mass + b.mass = 0`; for every other pair the
three divisions are defined and give the result of the code, also when one of the two
points has zero mass. -/
theorem avgMassPointsWeighted_fails_iff [DecidableEq K] (a b : MassPoint K) :
    (avgMassPoints (toWeightedSubspace a) (toWeightedSubspace b)).mass = a.mass + b.mass
      ∧ ((avgMassPoints (toWeightedSubspace a) (toWeightedSubspace b)).mass = 0
          ↔ a.mass + b.mass = 0)
      ∧ (avgMassPointsWeightedChecked a b = none ↔ a.mass + b.mass = 0)
      ∧ (a.mass + b.mass ≠ 0 →
          avgMassPointsWeightedChecked a b = some (avgMassPointsWeighted a b))
      ∧ (a.mass = 0 → b.mass ≠ 0 →
          avgMassPointsWeightedChecked a b = some (avgMassPointsWeighted a b)) := by
  have hd : (avgMassPoints (toWeightedSubspace a) (toWeightedSubspace b)).mass
      = a.mass + b.mass := rfl
  have hsome : a.mass + b.mass ≠ 0 →
      avgMassPointsWeightedChecked a b = some (avgMassPointsWeighted a b) := by
    intro h
    simp only [avgMassPointsWeightedChecked, fromWeightedSubspaceChecked, hd, if_neg h]
    rfl
  refine ⟨hd, by rw [hd], ?_, hsome, ?_⟩
  · constructor
    · intro h
      by_contra hne
      rw [hsome hne] at h
      exact Option.some_ne_none _ h
    · intro h
      simp only [avgMassPointsWeightedChecked, fromWeightedSubspaceChecked, hd, if_pos h]
  · intro ha hb
    exact hsome (by rw [ha, zero_add]; exact hb)


/-! ## The rounds of a reduction -/

theorem clog_two_round (n : Nat) (h : 2 ≤ n) :
    Nat.clog 2 n = Nat.clog 2 ((n + 1) / 2) + 1 := by
  rw [Nat.clog_of_two_le (by decide) h]
  have e : n + 2 - 1 = n + 1 := by omega
  rw [e]

theorem linearTrace_spec (P : List (MassPoint K) → Prop)
    (hP : ∀ m, P m → 2 ≤ m.length → P (roundList m))
    (n : Nat) (l : List (MassPoint K)) (hl : l.length = n) (h1 : 1 ≤ n) (hPl : P l) :
    ∃ trace p,
      (∀ fuel, Nat.clog 2 n + 1 ≤ fuel →
          linearTrace fuel l = some trace ∧ linearReduce fuel l = some p)
        ∧ trace.length = Nat.clog 2 n + 1
        ∧ trace.head? = some l
        ∧ trace.getLast? = some [p]
        ∧ (∀ m ∈ trace, P m ∧ 1 ≤ m.length)
        ∧ List.Chain' (fun a b => 2 ≤ a.length ∧ linearRound a = some b
            ∧ b.length = (a.length + 1) / 2) trace := by
  induction n using Nat.strong_induction_on generalizing l with
  | _ n ih =>
    by_cases hone : n = 1
    · subst hone
      match l, hl with
      | [p], _ =>
        refine ⟨[[p]], p, ?_, by simp [Nat.clog_of_right_le_one], rfl, rfl, ?_, by simp⟩
        · intro fuel hf
          obtain ⟨f, rfl⟩ : ∃ f, fuel = f + 1 := ⟨fuel - 1, by omega⟩
          simp [linearTrace, linearReduce]
        · intro m hm
          simp only [List.mem_singleton] at hm
          subst hm
          exact ⟨hPl, by simp⟩
    · have h2 : 2 ≤ l.length := by omega
      have hlen : (roundList l).length = (n + 1) / 2 := by rw [roundList_length, hl]
      obtain ⟨trace, p, hrun, htl, hhead, hlast, hall, hchain⟩ :=
        ih ((n + 1) / 2) (by omega) (roundList l) hlen (by omega) (hP l hPl h2)
      have hc := clog_two_round n (by omega)
      refine ⟨l :: trace, p, ?_, by simp [htl, hc], rfl, ?_, ?_, ?_⟩
      · intro fuel hf
        obtain ⟨f, rfl⟩ : ∃ f, fuel = f + 1 := ⟨fuel - 1, by omega⟩
        obtain ⟨ht, hr⟩ := hrun f (by omega)
        constructor
        · rw [linearTrace, if_pos (by omega), linearRound_eq]
          simp only [ht]
        · rw [linearReduce, if_pos (by omega), linearRound_eq]
          exact hr
      · cases trace with
        | nil => simp at hhead
        | cons t ts => rw [List.getLast?_cons_cons]; exact hlast
      · intro m hm
        rcases List.mem_cons.mp hm with rfl | hm
        · exact ⟨hPl, by omega⟩
        · exact hall m hm
      · cases trace with
        | nil => simp at hhead
        | cons t ts =>
          simp only [List.head?_cons, Option.some.injEq] at hhead
          subst hhead
          rw [List.chain'_cons]
          exact ⟨⟨h2, linearRound_eq l, by rw [roundList_length]⟩, hchain⟩

theorem validSchedule_length (schedule : List (List Nat)) (n : Nat)
    (hs : ValidSchedule schedule n) : schedule.length = Nat.clog 2 n := by
  induction schedule generalizing n with
  | nil =>
    have : n ≤ 1 := hs
    simp [Nat.clog_of_right_le_one this]
  | cons order later ih =>
    obtain ⟨hgt, _, hlater⟩ := hs
    rw [List.length_cons, ih _ hlater, clog_two_round n (by omega)]

theorem concurrentTrace_spec (P : List (MassPoint K) → Prop)
    (hP : ∀ m r, P m → 2 ≤ m.length → r.Perm (combinedPairs m) → P (r ++ carry m))
    (schedule : List (List Nat)) (l : List (MassPoint K)) (h1 : 1 ≤ l.length)
    (hs : ValidSchedule schedule l.length) (hPl : P l) :
    ∃ trace p,
      concurrentTrace schedule l = some trace ∧ concurrentReduce schedule l = some p
        ∧ trace.length = Nat.clog 2 l.length + 1
        ∧ trace.head? = some l
        ∧ trace.getLast? = some [p]
        ∧ (∀ m ∈ trace, P m ∧ 1 ≤ m.length)
        ∧ List.Chain' (fun a b => 2 ≤ a.length
            ∧ (∃ order, ValidOrder (a.length / 2) order ∧ concurrentRound order a = some b)
            ∧ b.length = (a.length + 1) / 2) trace := by
  induction schedule generalizing l with
  | nil =>
    have hlen : l.length = 1 := by
      have : l.length ≤ 1 := hs
      omega
    match l, hlen with
    | [p], _ =>
      refine ⟨[[p]], p, by simp [concurrentTrace], by simp [concurrentReduce],
        by simp [Nat.clog_of_right_le_one], rfl, rfl, ?_, by simp⟩
      intro m hm
      simp only [List.mem_singleton] at hm
      subst hm
      exact ⟨hPl, by simp⟩
  | cons order later ih =>
    obtain ⟨hgt, ho, hlater⟩ := hs
    obtain ⟨received, hr, hp⟩ := concurrentRound_perm order l ho
    have hlen : (received ++ carry l).length = (l.length + 1) / 2 := by
      rw [List.length_append, hp.length_eq, ← List.length_append, ← roundList_eq,
        roundList_length]
    obtain ⟨trace, p, htrace, hred, htl, hhead, hlast, hall, hchain⟩ :=
      ih (received ++ carry l) (by omega) (by rw [hlen]; exact hlater)
        (hP l received hPl (by omega) hp)
    have hc := clog_two_round l.length (by omega)
    refine ⟨l :: trace, p, ?_, ?_, by simp [htl, hlen, hc], rfl, ?_, ?_, ?_⟩
    · rw [concurrentTrace, if_pos hgt]
      simp only [hr, htrace]
    · rw [concurrentReduce, if_pos hgt]
      simp only [hr]
      exact hred
    · cases trace with
      | nil => simp at hhead
      | cons t ts => rw [List.getLast?_cons_cons]; exact hlast
    · intro m hm
      rcases List.mem_cons.mp hm with rfl | hm
      · exact ⟨hPl, by omega⟩
      · exact hall m hm
    · cases trace with
      | nil => simp at hhead
      | cons t ts =>
        simp only [List.head?_cons, Option.some.injEq] at hhead
        subst hhead
        rw [List.chain'_cons]
        exact ⟨⟨by omega, ⟨order, ho, hr⟩, hlen⟩, hchain⟩


/-- C14.  For every list of `N ≥ 2` points the reduction loop of `linearBarycenter` returns
after exactly `⌈log₂ N⌉ = Nat.clog 2 N` rounds (the trace of the values of `masspoints` at
the loop tests has `Nat.clog 2 N + 1` entries, and `N ≤ 2 ^ Nat.clog 2 N` while
`2 ^ (Nat.clog 2 N - 1) < N`), each round turning a list of length `n` into one of length
`⌈n/2⌉ = (n + 1) / 2`; so does the loop of `concurrentBarycenter` under every valid
schedule, which has one arrival order per round. -/
theorem reduction_rounds (l : List (MassPoint K)) (h2 : 2 ≤ l.length) :
    (∃ trace p,
        (∀ fuel, Nat.clog 2 l.length + 1 ≤ fuel →
            linearTrace fuel l = some trace ∧ linearReduce fuel l = some p)
          ∧ trace.length = Nat.clog 2 l.length + 1
          ∧ List.Chain' (fun a b => 2 ≤ a.length ∧ linearRound a = some b
              ∧ b.length = (a.length + 1) / 2) trace)
      ∧ (∀ schedule, ValidSchedule schedule l.length →
          schedule.length = Nat.clog 2 l.length
            ∧ ∃ trace p,
                concurrentTrace schedule l = some trace ∧ concurrentReduce schedule l = some p
                  ∧ trace.length = Nat.clog 2 l.length + 1
                  ∧ List.Chain' (fun a b => 2 ≤ a.length
                      ∧ (∃ order, ValidOrder (a.length / 2) order
                          ∧ concurrentRound order a = some b)
                      ∧ b.length = (a.length + 1) / 2) trace)
      ∧ l.length ≤ 2 ^ Nat.clog 2 l.length
      ∧ 2 ^ (Nat.clog 2 l.length - 1) < l.length
      ∧ ∀ n : Nat, 2 * ((n + 1) / 2) = n ∨ 2 * ((n + 1) / 2) = n + 1 := by
  refine ⟨?_, ?_, Nat.le_pow_clog (by decide) _, Nat.pow_pred_clog_lt_self (by decide) h2,
    fun n => by omega⟩
  · obtain ⟨trace, p, hrun, hlen, _, _, _, hchain⟩ :=
      linearTrace_spec (fun _ => True) (fun _ _ _ => trivial) l.length l rfl (by omega)
        trivial
    exact ⟨trace, p, hrun, hlen, hchain⟩
  · intro schedule hs
    obtain ⟨trace, p, htrace, hred, hlen, _, _, _, hchain⟩ :=
      concurrentTrace_spec (fun _ => True) (fun _ _ _ _ _ => trivial) schedule l (by omega)
        hs trivial
    exact ⟨validSchedule_length schedule l.length hs, trace, p, htrace, hred, hlen, hchain⟩

/-- Witness of C14 on the three points `(0,0,0,1)`, `(0,0,0,1)`, `(0,0,0,2)`: two rounds,
`⌈log₂ 3⌉ = 2`. -/
theorem reduction_rounds_witness :
    2 ≤ threePoints.length
      ∧ ((∃ trace p,
          (∀ fuel, Nat.clog 2 threePoints.length + 1 ≤ fuel →
              linearTrace fuel threePoints = some trace
                ∧ linearReduce fuel threePoints = some p)
            ∧ trace.length = Nat.clog 2 threePoints.length + 1
            ∧ List.Chain' (fun a b => 2 ≤ a.length ∧ linearRound a = some b
                ∧ b.length = (a.length + 1) / 2) trace)
        ∧ (∀ schedule, ValidSchedule schedule threePoints.length →
            schedule.length = Nat.clog 2 threePoints.length
              ∧ ∃ trace p,
                  concurrentTrace schedule threePoints = some trace
                    ∧ concurrentReduce schedule threePoints = some p
                    ∧ trace.length = Nat.clog 2 threePoints.length + 1
                    ∧ List.Chain' (fun a b => 2 ≤ a.length
                        ∧ (∃ order, ValidOrder (a.length / 2) order
                            ∧ concurrentRound order a = some b)
                        ∧ b.length = (a.length + 1) / 2) trace)
        ∧ threePoints.length ≤ 2 ^ Nat.clog 2 threePoints.length
        ∧ 2 ^ (Nat.clog 2 threePoints.length - 1) < threePoints.length
        ∧ ∀ n : Nat, 2 * ((n + 1) / 2) = n ∨ 2 * ((n + 1) / 2) = n + 1)
      ∧ Nat.clog 2 threePoints.length = 2
      ∧ linearTrace 3 threePoints
          = some [threePoints, [⟨0, 0, 0, 2⟩, ⟨0, 0, 0, 2⟩], [⟨0, 0, 0, 4⟩]] := by
  refine ⟨by decide, reduction_rounds threePoints (by decide), ?_, ?_⟩
  · simp [threePoints, Nat.clog]
  · simp [threePoints, linearTrace, linearRound, pairLoop, appendCarry,
      avgMassPointsWeighted_eq]
    norm_num

/-! ## Positive masses -/

theorem roundList_mass_pos {F : Type} [LinearOrderedField F] (m : List (MassPoint F))
    (h : ∀ q ∈ m, 0 < q.mass) : ∀ q ∈ roundList m, 0 < q.mass := by
  induction m using roundList.induct with
  | case1 a b rest ih =>
    intro q hq
    simp only [roundList, List.mem_cons] at hq
    rcases hq with rfl | hq
    · rw [avgMassPointsWeighted_mass]
      exact add_pos (h a (by simp)) (h b (by simp))
    · exact ih (fun q hq => h q (by simp [hq])) q hq
  | case2 a => simpa [roundList] using h
  | case3 => simp [roundList]

theorem callDivisor_pos {F : Type} [LinearOrderedField F] (m : List (MassPoint F))
    (h : ∀ q ∈ m, 0 < q.mass) (i : Nat) (hi : i ∈ pairIndices m.length 0) :
    ∃ d, callDivisor m i = some d ∧ 0 < d := by
  have hb := (pairIndices_mem m.length 0 i hi).2
  have h1 : i < m.length := by omega
  refine ⟨m[i].mass + m[i + 1].mass, ?_, ?_⟩
  · simp only [callDivisor, List.getElem?_eq_getElem h1, List.getElem?_eq_getElem hb]
    rfl
  · exact add_pos (h _ (List.getElem_mem h1)) (h _ (List.getElem_mem hb))

/-- C15.  Strict positivity of mass is an invariant of the reduction.  If every input point
of a list of at least two points has mass `> 0`, the reduction loop of `linearBarycenter`
returns, every point of every round's list and the final point have mass `> 0`, and the
divisor of every call of `avgMassPointsWeighted` made by a round is `> 0`, hence not zero;
the same holds for the loop of `concurrentBarycenter` under every valid schedule. -/
theorem mass_positive_invariant {F : Type} [LinearOrderedField F] (l : List (MassPoint F))
    (h2 : 2 ≤ l.length) (hpos : ∀ q ∈ l, 0 < q.mass) :
    (∃ trace p,
        (∀ fuel, Nat.clog 2 l.length + 1 ≤ fuel →
            linearTrace fuel l = some trace ∧ linearReduce fuel l = some p)
          ∧ (∀ m ∈ trace, (∀ q ∈ m, 0 < q.mass)
              ∧ ∀ i ∈ pairIndices m.length 0, ∃ d, callDivisor m i = some d ∧ 0 < d ∧ d ≠ 0)
          ∧ 0 < p.mass)
      ∧ ∀ schedule, ValidSchedule schedule l.length →
          ∃ trace p,
            concurrentTrace schedule l = some trace ∧ concurrentReduce schedule l = some p
              ∧ (∀ m ∈ trace, (∀ q ∈ m, 0 < q.mass)
                  ∧ ∀ i ∈ pairIndices m.length 0,
                      ∃ d, callDivisor m i = some d ∧ 0 < d ∧ d ≠ 0)
              ∧ 0 < p.mass := by
  have hcalls : ∀ m : List (MassPoint F), (∀ q ∈ m, 0 < q.mass) →
      ∀ i ∈ pairIndices m.length 0, ∃ d, callDivisor m i = some d ∧ 0 < d ∧ d ≠ 0 := by
    intro m hm i hi
    obtain ⟨d, hd, hdpos⟩ := callDivisor_pos m hm i hi
    exact ⟨d, hd, hdpos, ne_of_gt hdpos⟩
  constructor
  · obtain ⟨trace, p, hrun, _, _, hlast, hall, _⟩ :=
      linearTrace_spec (fun m => ∀ q ∈ m, 0 < q.mass)
        (fun m hm _ => roundList_mass_pos m hm) l.length l rfl (by omega) hpos
    refine ⟨trace, p, hrun, fun m hm => ⟨(hall m hm).1, hcalls m (hall m hm).1⟩, ?_⟩
    exact (hall [p] (List.mem_of_mem_getLast? hlast)).1 p (by simp)
  · intro schedule hs
    obtain ⟨trace, p, htrace, hred, _, _, hlast, hall, _⟩ :=
      concurrentTrace_spec (fun m => ∀ q ∈ m, 0 < q.mass)
        (fun m r hm _ hperm => by
          intro q hq
          have hq2 : q ∈ roundList m := by
            rw [roundList_eq]
            rcases List.mem_append.mp hq with hq | hq
            · exact List.mem_append.mpr (Or.inl (hperm.mem_iff.mp hq))
            · exact List.mem_append.mpr (Or.inr hq)
          exact roundList_mass_pos m hm q hq2)
        schedule l (by omega) hs hpos
    refine ⟨trace, p, htrace, hred, fun m hm => ⟨(hall m hm).1, hcalls m (hall m hm).1⟩, ?_⟩
    exact (hall [p] (List.mem_of_mem_getLast? hlast)).1 p (by simp)

/-- Witness of C15 on the three points `(0,0,0,1)`, `(0,0,0,1)`, `(0,0,0,2)`. -/
theorem mass_positive_invariant_witness :
    2 ≤ threePoints.length ∧ (∀ q ∈ threePoints, 0 < q.mass)
      ∧ (∃ trace p,
          (∀ fuel, Nat.clog 2 threePoints.length + 1 ≤ fuel →
              linearTrace fuel threePoints = some trace
                ∧ linearReduce fuel threePoints = some p)
            ∧ (∀ m ∈ trace, (∀ q ∈ m, 0 < q.mass)
                ∧ ∀ i ∈ pairIndices m.length 0,
                    ∃ d, callDivisor m i = some d ∧ 0 < d ∧ d ≠ 0)
            ∧ 0 < p.mass)
      ∧ ∀ schedule, ValidSchedule schedule threePoints.length →
          ∃ trace p,
            concurrentTrace schedule threePoints = some trace
              ∧ concurrentReduce schedule threePoints = some p
              ∧ (∀ m ∈ trace, (∀ q ∈ m, 0 < q.mass)
                  ∧ ∀ i ∈ pairIndices m.length 0,
                      ∃ d, callDivisor m i = some d ∧ 0 < d ∧ d ≠ 0)
              ∧ 0 < p.mass := by
  have hpos : ∀ q ∈ threePoints, 0 < q.mass := by
    intro q hq
    simp only [threePoints, List.mem_cons, List.mem_singleton, List.not_mem_nil,
      or_false] at hq
    rcases hq with rfl | rfl | rfl <;> norm_num
  exact ⟨by decide, hpos, mass_positive_invariant threePoints (by decide) hpos⟩


/-! ## The structure of a round -/

theorem combinedPairs_getElem? (l : List (MassPoint K)) (k : Nat) (hk : k < l.length / 2) :
    ∃ a b, l[2 * k]? = some a ∧ l[2 * k + 1]? = some b
      ∧ (combinedPairs l)[k]? = some (avgMassPointsWeighted a b) := by
  induction l using roundList.induct generalizing k with
  | case1 a b rest ih =>
    cases k with
    | zero => exact ⟨a, b, by simp, by simp, by simp [combinedPairs]⟩
    | succ j =>
      have hj : j < rest.length / 2 := by
        simp only [List.length_cons] at hk
        omega
      obtain ⟨x, y, hx, hy, hxy⟩ := ih j hj
      refine ⟨x, y, ?_, ?_, ?_⟩
      · have e : 2 * (j + 1) = (2 * j) + 1 + 1 := by omega
        rw [e, List.getElem?_cons_succ, List.getElem?_cons_succ]
        exact hx
      · have e : 2 * (j + 1) + 1 = (2 * j + 1) + 1 + 1 := by omega
        rw [e, List.getElem?_cons_succ, List.getElem?_cons_succ]
        exact hy
      · simp only [combinedPairs, List.getElem?_cons_succ]
        exact hxy
  | case2 a => simp only [List.length_singleton] at hk; omega
  | case3 => simp only [List.length_nil] at hk; omega

theorem roundReads_from (len : Nat) (i : Nat) (hi : i % 2 = 0) (hle : i ≤ len) :
    (pairIndices len i).flatMap (fun i => [i, i + 1])
        ++ (if len % 2 ≠ 0 then [len - 1] else [])
      = List.range' i (len - i) := by
  generalize hn : len - i = n
  induction n using Nat.strong_induction_on generalizing i with
  | _ n ih =>
    rw [pairIndices]
    by_cases hlt : (i : Int) < (len : Int) - 1
    · have e : n = (len - (i + 2)) + 1 + 1 := by omega
      rw [if_pos hlt, List.flatMap_cons, List.append_assoc,
        ih (len - (i + 2)) (by omega) (i + 2) (by omega) (by omega) rfl, e,
        List.range'_succ, List.range'_succ]
      rfl
    · rw [if_neg hlt]
      by_cases hodd : len % 2 ≠ 0
      · have e : n = 1 := by omega
        have e2 : len - 1 = i := by omega
        subst e
        simp [List.range'_succ, e2, hodd]
      · have e : n = 0 := by omega
        subst e
        simp [hodd]

theorem roundReads_eq_range (len : Nat) : roundReads len = List.range len := by
  rw [roundReads, roundReads_from len 0 rfl (Nat.zero_le _), List.range_eq_range']
  rfl

theorem carry_of_even (l : List (MassPoint K)) (heven : l.length % 2 = 0) : carry l = [] := by
  have h := appendCarry_eq l []
  simp only [appendCarry, heven, ne_eq, not_true_eq_false, if_false, List.nil_append,
    Option.some.injEq] at h
  exact h.symm

/-- C17.  Round structure: on every list `l` of length `n ≥ 2`, a round of the sequential
reduction returns `[combine(l[0],l[1]), combine(l[2],l[3]), ...]`, the `n / 2` combined
results of the consecutive pairs in pair order, followed by `l[n-1]` when `n` is odd and by
nothing when `n` is even; the indices read by the round are `0, 1, ..., n-1`, each once;
the pairing loop runs `n / 2` times, and a round of the concurrent reduction under any
valid arrival order collects as many results as pairs were dispatched, the same results up
to order, followed by the same carry. -/
theorem round_structure (l : List (MassPoint K)) (_h2 : 2 ≤ l.length) :
    ∃ newMasspoints,
      linearRound l = some newMasspoints
        ∧ newMasspoints.length = l.length / 2 + l.length % 2
        ∧ (∀ k, k < l.length / 2 →
            ∃ a b, l[2 * k]? = some a ∧ l[2 * k + 1]? = some b
              ∧ newMasspoints[k]? = some (avgMassPointsWeighted a b))
        ∧ (l.length % 2 = 1 →
            ∃ last, l[l.length - 1]? = some last
              ∧ newMasspoints[l.length / 2]? = some last)
        ∧ (l.length % 2 = 0 → newMasspoints.length = l.length / 2)
        ∧ roundReads l.length = List.range l.length
        ∧ (pairIndices l.length 0).length = l.length / 2
        ∧ ∀ order, ValidOrder (l.length / 2) order →
            ∃ received,
              concurrentRound order l
                  = some (received ++ newMasspoints.drop (l.length / 2))
                ∧ received.length = (pairIndices l.length 0).length
                ∧ received.Perm (newMasspoints.take (l.length / 2)) := by
  have hcp := combinedPairs_length l
  have hpairs : (pairIndices l.length 0).length = l.length / 2 := by
    have h := congrArg List.length (pairIndices_callAt l 0)
    simpa [hcp] using h
  have htake : (combinedPairs l ++ carry l).take (l.length / 2) = combinedPairs l := by
    rw [← hcp, List.take_left']
    rfl
  have hdrop : (combinedPairs l ++ carry l).drop (l.length / 2) = carry l := by
    rw [← hcp, List.drop_left']
    rfl
  refine ⟨combinedPairs l ++ carry l, by rw [linearRound_eq, roundList_eq], ?_, ?_, ?_, ?_,
    roundReads_eq_range l.length, hpairs, ?_⟩
  · rw [← roundList_eq, roundList_length]
    omega
  · intro k hk
    obtain ⟨a, b, ha, hb, hab⟩ := combinedPairs_getElem? l k hk
    refine ⟨a, b, ha, hb, ?_⟩
    rw [List.getElem?_append_left (by rw [hcp]; exact hk)]
    exact hab
  · intro hodd
    obtain ⟨last, hlast, hcarry⟩ := carry_of_odd l hodd
    refine ⟨last, hlast, ?_⟩
    rw [hcarry, List.getElem?_append_right (by rw [hcp]), hcp]
    simp
  · intro heven
    rw [carry_of_even l heven, List.append_nil, hcp]
  · intro order ho
    obtain ⟨received, hr, hp⟩ := concurrentRound_perm order l ho
    refine ⟨received, ?_, ?_, ?_⟩
    · rw [hr, hdrop]
    · rw [hp.length_eq, hcp, hpairs]
    · rw [htake]
      exact hp

/-- Witness of C17 on the three points `(0,0,0,1)`, `(0,0,0,1)`, `(0,0,0,2)`. -/
theorem round_structure_witness :
    2 ≤ threePoints.length
      ∧ ∃ newMasspoints,
          linearRound threePoints = some newMasspoints
            ∧ newMasspoints.length = threePoints.length / 2 + threePoints.length % 2
            ∧ (∀ k, k < threePoints.length / 2 →
                ∃ a b, threePoints[2 * k]? = some a ∧ threePoints[2 * k + 1]? = some b
                  ∧ newMasspoints[k]? = some (avgMassPointsWeighted a b))
            ∧ (threePoints.length % 2 = 1 →
                ∃ last, threePoints[threePoints.length - 1]? = some last
                  ∧ newMasspoints[threePoints.length / 2]? = some last)
            ∧ (threePoints.length % 2 = 0 → newMasspoints.length = threePoints.length / 2)
            ∧ roundReads threePoints.length = List.range threePoints.length
            ∧ (pairIndices threePoints.length 0).length = threePoints.length / 2
            ∧ ∀ order, ValidOrder (threePoints.length / 2) order →
                ∃ received,
                  concurrentRound order threePoints
                      = some (received ++ newMasspoints.drop (threePoints.length / 2))
                    ∧ received.length = (pairIndices threePoints.length 0).length
                    ∧ received.Perm (newMasspoints.take (threePoints.length / 2)) :=
  ⟨by decide, round_structure threePoints (by decide)⟩

/-! ## Index safety -/

theorem linearReduce_nil (fuel : Nat) : linearReduce fuel ([] : List (MassPoint K)) = none := by
  induction fuel with
  | zero => rfl
  | succ f ih =>
    rw [linearReduce, if_pos (by simp), linearRound_eq]
    exact ih

theorem linearTrace_nil (fuel : Nat) : linearTrace fuel ([] : List (MassPoint K)) = none := by
  induction fuel with
  | zero => rfl
  | succ f ih =>
    rw [linearTrace, if_pos (by simp), linearRound_eq]
    simp only [roundList, ih]

/-- C20.  Index safety of the reduction.  On every list of at least two points the
reduction loop of `linearBarycenter` returns: in every round's list `m`, every access
`m[i]`, `m[i+1]` of the pairing loop and the access `m[len-1]` of the odd carry is within
bounds, no list of the trace is empty, and the loop exits on a list `[p]` of length exactly
1, whose element `p` the final read `masspoints[0]` returns; the same holds for the loop
of `concurrentBarycenter` under every valid schedule.  On the empty list a round of the
sequential loop returns the empty list, whose length is not 1, so the loop returns for no
amount of fuel. -/
theorem reduction_index_safety (l : List (MassPoint K)) (h2 : 2 ≤ l.length) :
    (∃ trace p,
        (∀ fuel, Nat.clog 2 l.length + 1 ≤ fuel →
            linearTrace fuel l = some trace ∧ linearReduce fuel l = some p)
          ∧ (∀ m ∈ trace, m ≠ []
              ∧ (∀ i ∈ pairIndices m.length 0,
                  i < m.length ∧ i + 1 < m.length
                    ∧ ∃ a b, m[i]? = some a ∧ m[i + 1]? = some b)
              ∧ (m.length % 2 ≠ 0 →
                  m.length - 1 < m.length ∧ ∃ last, m[m.length - 1]? = some last))
          ∧ trace.getLast? = some [p] ∧ [p].length = 1 ∧ [p][0]? = some p)
      ∧ (∀ schedule, ValidSchedule schedule l.length →
          ∃ trace p,
            concurrentTrace schedule l = some trace ∧ concurrentReduce schedule l = some p
              ∧ (∀ m ∈ trace, m ≠ []
                  ∧ (∀ i ∈ pairIndices m.length 0,
                      i < m.length ∧ i + 1 < m.length
                        ∧ ∃ a b, m[i]? = some a ∧ m[i + 1]? = some b)
                  ∧ (m.length % 2 ≠ 0 →
                      m.length - 1 < m.length ∧ ∃ last, m[m.length - 1]? = some last))
              ∧ trace.getLast? = some [p] ∧ [p].length = 1 ∧ [p][0]? = some p)
      ∧ linearRound ([] : List (MassPoint K)) = some []
      ∧ ([] : List (MassPoint K)).length ≠ 1
      ∧ ∀ fuel, linearReduce fuel ([] : List (MassPoint K)) = none
          ∧ linearTrace fuel ([] : List (MassPoint K)) = none := by
  have hsafe : ∀ m : List (MassPoint K), 1 ≤ m.length → m ≠ []
      ∧ (∀ i ∈ pairIndices m.length 0,
          i < m.length ∧ i + 1 < m.length ∧ ∃ a b, m[i]? = some a ∧ m[i + 1]? = some b)
      ∧ (m.length % 2 ≠ 0 →
          m.length - 1 < m.length ∧ ∃ last, m[m.length - 1]? = some last) := by
    intro m hm
    refine ⟨fun h => by simp [h] at hm, ?_, ?_⟩
    · intro i hi
      have hb := (pairIndices_mem m.length 0 i hi).2
      have h1 : i < m.length := by omega
      exact ⟨h1, hb, m[i], m[i + 1], List.getElem?_eq_getElem h1,
        List.getElem?_eq_getElem hb⟩
    · intro _
      have h1 : m.length - 1 < m.length := by omega
      exact ⟨h1, m[m.length - 1], List.getElem?_eq_getElem h1⟩
  refine ⟨?_, ?_, by simp [linearRound_eq, roundList], by simp,
    fun fuel => ⟨linearReduce_nil fuel, linearTrace_nil fuel⟩⟩
  · obtain ⟨trace, p, hrun, _, _, hlast, hall, _⟩ :=
      linearTrace_spec (fun _ => True) (fun _ _ _ => trivial) l.length l rfl (by omega)
        trivial
    exact ⟨trace, p, hrun, fun m hm => hsafe m (hall m hm).2, hlast, rfl, rfl⟩
  · intro schedule hs
    obtain ⟨trace, p, htrace, hred, _, _, hlast, hall, _⟩ :=
      concurrentTrace_spec (fun _ => True) (fun _ _ _ _ _ => trivial) schedule l (by omega)
        hs trivial
    exact ⟨trace, p, htrace, hred, fun m hm => hsafe m (hall m hm).2, hlast, rfl, rfl⟩

/-- Witness of C20 on the three points `(0,0,0,1)`, `(0,0,0,1)`, `(0,0,0,2)`. -/
theorem reduction_index_safety_witness :
    2 ≤ threePoints.length
      ∧ ((∃ trace p,
          (∀ fuel, Nat.clog 2 threePoints.length + 1 ≤ fuel →
              linearTrace fuel threePoints = some trace
                ∧ linearReduce fuel threePoints = some p)
            ∧ (∀ m ∈ trace, m ≠ []
                ∧ (∀ i ∈ pairIndices m.length 0,
                    i < m.length ∧ i + 1 < m.length
                      ∧ ∃ a b, m[i]? = some a ∧ m[i + 1]? = some b)
                ∧ (m.length % 2 ≠ 0 →
                    m.length - 1 < m.length ∧ ∃ last, m[m.length - 1]? = some last))
            ∧ trace.getLast? = some [p] ∧ [p].length = 1 ∧ [p][0]? = some p)
        ∧ (∀ schedule, ValidSchedule schedule threePoints.length →
            ∃ trace p,
              concurrentTrace schedule threePoints = some trace
                ∧ concurrentReduce schedule threePoints = some p
                ∧ (∀ m ∈ trace, m ≠ []
                    ∧ (∀ i ∈ pairIndices m.length 0,
                        i < m.length ∧ i + 1 < m.length
                          ∧ ∃ a b, m[i]? = some a ∧ m[i + 1]? = some b)
                    ∧ (m.length % 2 ≠ 0 →
                        m.length - 1 < m.length ∧ ∃ last, m[m.length - 1]? = some last))
                ∧ trace.getLast? = some [p] ∧ [p].length = 1 ∧ [p][0]? = some p)
        ∧ linearRound ([] : List (MassPoint ℚ)) = some []
        ∧ ([] : List (MassPoint ℚ)).length ≠ 1
        ∧ ∀ fuel, linearReduce fuel ([] : List (MassPoint ℚ)) = none
            ∧ linearTrace fuel ([] : List (MassPoint ℚ)) = none) :=
  ⟨by decide, reduction_index_safety threePoints (by decide)⟩


/-! ## Completion of the ingestion -/

section CompletionProofs
omit [Field K]

theorem step_sync_count (sscanf : List Char → Option (MassPoint K))
    (lines : List (List Char)) (m : Move) (s s' : Loader K)
    (hinv : LoaderInv sscanf lines s) (hstep : step sscanf m s = some s') :
    (if isSync m = true then 1 else 0) + (if s.waiter = Waiter.exited then 1 else 0)
      = (if s'.waiter = Waiter.exited then 1 else 0) := by
  obtain ⟨rest, hterm, hunread, hrest, hpts, hwg, hread, hcoll, hload, hpanic⟩ := hinv
  obtain ⟨unread, tasks, wg, chan, waiter, run, masspoints, main⟩ := s
  simp only at hunread hrest hpts hwg hread hcoll hload hpanic
  cases m with
  | main =>
    cases main with
    | reading =>
      have hw : waiter = Waiter.absent := hread rfl
      subst hw
      simp only [step] at hstep
      split_ifs at hstep <;> simp at hstep <;> subst hstep <;> simp [isSync]
    | collecting =>
      simp only [step] at hstep
      split_ifs at hstep with hcond
      · cases chan with
        | nil => simp at hstep
        | cons val later =>
          simp at hstep
          subst hstep
          simp [isSync]
      · simp at hstep
        subst hstep
        simp [isSync]
    | loaded => simp [step] at hstep
    | panicked => simp [step] at hstep
  | mainSync =>
    cases main <;> simp only [step] at hstep <;> try (simp at hstep; done)
    split_ifs at hstep with hcond
    cases waiter <;> simp at hstep
    subst hstep
    simp [isSync]
  | task i =>
    simp only [step] at hstep
    rw [if_neg hpanic] at hstep
    cases ht : tasks[i]? with
    | none => simp [ht] at hstep
    | some t =>
      rw [ht] at hstep
      cases t with
      | parsing str =>
        cases hs : sscanf str <;> simp only [hs] at hstep <;> simp at hstep <;>
          subst hstep <;> simp [isSync]
      | sending p =>
        simp only at hstep
        split_ifs at hstep with hroom
        simp at hstep
        subst hstep
        simp [isSync]
      | returning =>
        simp only at hstep
        split_ifs at hstep <;> simp at hstep <;> subst hstep <;> simp [isSync]
      | exited => simp at hstep
  | waiter =>
    simp only [step] at hstep
    split_ifs at hstep with hp hw
    all_goals cases waiter <;> simp at hstep
    subst hstep
    simp [isSync]

theorem exec_sync_count (sscanf : List Char → Option (MassPoint K))
    (lines : List (List Char)) (schedule : List Move) (s s' : Loader K)
    (hinv : LoaderInv sscanf lines s) (hexec : exec sscanf schedule s = some s') :
    schedule.countP isSync + (if s.waiter = Waiter.exited then 1 else 0)
      = (if s'.waiter = Waiter.exited then 1 else 0) := by
  induction schedule generalizing s with
  | nil =>
    simp only [exec, Option.some.injEq] at hexec
    simp [hexec]
  | cons m later ih =>
    simp only [exec] at hexec
    cases hs : step sscanf m s with
    | none => simp [hs] at hexec
    | some s1 =>
      rw [hs] at hexec
      have h1 := step_sync_count sscanf lines m s s1 hinv hs
      have h2 := ih s1 (step_preserves_inv sscanf lines m s s1 hinv hs) hexec
      rw [List.countP_cons]
      omega


theorem loaderInv_facts (sscanf : List Char → Option (MassPoint K))
    (lines : List (List Char)) (s : Loader K) (hinv : LoaderInv sscanf lines s) :
    s.main ≠ Main.panicked
      ∧ (s.main = Main.reading → s.waiter = Waiter.absent)
      ∧ (s.main = Main.collecting →
          (s.waiter = Waiter.waiting ∧ s.run = true)
            ∨ (s.waiter = Waiter.offering ∧ s.run = true ∧ s.wg = 0)
            ∨ (s.waiter = Waiter.exited ∧ s.run = false ∧ s.wg = 0))
      ∧ (s.main = Main.loaded →
          s.waiter = Waiter.exited ∧ s.run = false ∧ s.wg = 0 ∧ s.masspointsChan = [])
      ∧ (s.wg = 0 → ∀ t ∈ s.tasks, t = ParseTask.exited)
      ∧ (s.wg = 0 → s.main ≠ Main.reading →
          (s.masspoints ++ s.masspointsChan).Perm (lines.filterMap sscanf)) := by
  obtain ⟨rest, hterm, hunread, hrest, hpts, hwg, hread, hcoll, hload, hpanic⟩ := hinv
  refine ⟨hpanic, hread, hcoll, hload, ?_, ?_⟩
  · intro h0 t ht
    obtain ⟨i, hi⟩ := List.mem_iff_getElem?.mp ht
    exact exited_of_outstanding_zero s.tasks (by omega) i t hi
  · intro h0 hm
    have hsum : (s.tasks.map outstanding).sum = 0 := by omega
    rw [hrest hm, pendingPoints_zero_of_outstanding_zero sscanf s.tasks hsum] at hpts
    simp only [add_zero, List.filterMap_nil, Multiset.coe_nil, Multiset.coe_add] at hpts
    exact Multiset.coe_eq_coe.mp hpts

/-- C16.  Race-free completion of the ingestion.  On an input made of newline-terminated
`lines`, whatever the scheduler does from the initial state of the loader:
the completion signal has passed through `syncChan` exactly as often as the goroutine
behind it has ended, at most once, and exactly once when `main` is past the collector
loop; when the signal is offered or has passed, the read loop is over, the counter of `wg`
is zero and every parse goroutine has ended; a test of the collector loop leaves the loop
exactly when `run` is false (the signal has been observed) and `masspointsChan` is empty;
once the counter of `wg` is zero after the read loop, the points received and the points
queued are together the points scanned, each once, and past the collector loop `masspoints`
alone is; no goroutine stays blocked: past the loop all of them have ended, before it some
thread can always move, every run is finite and can be completed. -/
theorem ingestion_completes (sscanf : List Char → Option (MassPoint K))
    (lines : List (List Char)) (hlines : ∀ l ∈ lines, NewlineTerminated l)
    (schedule : List Move) (s : Loader K)
    (hexec : exec sscanf schedule (initial lines.flatten) = some s) :
    schedule.countP isSync = (if s.waiter = Waiter.exited then 1 else 0)
      ∧ (s.main = Main.loaded → schedule.countP isSync = 1)
      ∧ (s.waiter = Waiter.offering ∨ s.waiter = Waiter.exited →
          s.main ≠ Main.reading ∧ s.wg = 0 ∧ ∀ t ∈ s.tasks, t = ParseTask.exited)
      ∧ (s.main = Main.collecting → ∀ s', step sscanf Move.main s = some s' →
          (s'.main = Main.loaded ↔ s.run = false ∧ s.masspointsChan = []))
      ∧ (s.main = Main.collecting ∨ s.main = Main.loaded →
          (s.run = false ↔ s.waiter = Waiter.exited))
      ∧ (s.wg = 0 → s.main ≠ Main.reading →
          (s.masspoints ++ s.masspointsChan).Perm (lines.filterMap sscanf))
      ∧ (s.main = Main.loaded →
          s.run = false ∧ s.masspointsChan = []
            ∧ s.masspoints.Perm (lines.filterMap sscanf)
            ∧ s.waiter = Waiter.exited ∧ ∀ t ∈ s.tasks, t = ParseTask.exited)
      ∧ (s.main ≠ Main.loaded → ∃ m s', step sscanf m s = some s')
      ∧ schedule.length ≤ workLeft (initial lines.flatten : Loader K)
      ∧ ∃ more s', exec sscanf more s = some s' ∧ s'.main = Main.loaded := by
  have hinit := initial_inv sscanf lines hlines
  have hinv := exec_preserves_inv sscanf lines schedule _ s hinit hexec
  obtain ⟨hpanic, hread, hcoll, hload, hexited, hkept⟩ := loaderInv_facts sscanf lines s hinv
  have hcount := exec_sync_count sscanf lines schedule _ s hinit hexec
  simp only [initial, reduceCtorEq, if_false, add_zero] at hcount
  refine ⟨hcount, ?_, ?_, ?_, ?_, hkept, ?_, step_progress sscanf lines s hinv, ?_,
    reaches_loaded sscanf lines s hinv⟩
  · intro hm
    rw [hcount, if_pos (hload hm).1]
  · intro hw
    have hne : s.main ≠ Main.reading := by
      intro hm
      have := hread hm
      rcases hw with h | h <;> rw [this] at h <;> simp at h
    have hwg : s.wg = 0 := by
      cases hm : s.main with
      | reading => exact absurd hm hne
      | collecting =>
        rcases hcoll hm with ⟨h, _⟩ | ⟨_, _, h⟩ | ⟨_, _, h⟩
        · rcases hw with h2 | h2 <;> rw [h] at h2 <;> simp at h2
        · exact h
        · exact h
      | loaded => exact (hload hm).2.2.1
      | panicked => exact absurd hm hpanic
    exact ⟨hne, hwg, hexited hwg⟩
  · intro hm s' hstep
    simp only [step, hm] at hstep
    split_ifs at hstep with hcond
    · cases hc : s.masspointsChan with
      | nil => simp [hc] at hstep
      | cons val later =>
        simp only [hc, Option.some.injEq] at hstep
        subst hstep
        simp [hm]
    · simp only [Option.some.injEq] at hstep
      subst hstep
      simp only [not_or, Bool.not_eq_true, gt_iff_lt, List.length_pos, ne_eq,
        not_not] at hcond
      simp [hcond]
  · intro hm
    rcases hm with hm | hm
    · rcases hcoll hm with ⟨h1, h2⟩ | ⟨h1, h2, _⟩ | ⟨h1, h2, _⟩ <;> simp [h1, h2]
    · simp [(hload hm).1, (hload hm).2.1]
  · intro hm
    obtain ⟨h1, h2, h3, h4⟩ := hload hm
    exact ⟨h2, h4, loaded_perm sscanf lines s hinv hm, h1, hexited h3⟩
  · have := exec_length_le sscanf lines schedule _ s hinit hexec
    omega

/-- Witness of C16 on a malformed line followed by the well-formed line `1:2:3:4`, under a
complete schedule. -/
theorem ingestion_completes_witness :
    (∀ l ∈ exampleLines, NewlineTerminated l)
      ∧ exec exampleScan exampleSchedule (initial exampleLines.flatten) = some exampleLoaded
      ∧ exampleSchedule.countP isSync = 1
      ∧ exampleLoaded.masspoints = [⟨1, 2, 3, 4⟩]
      ∧ (exampleSchedule.countP isSync
          = (if exampleLoaded.waiter = Waiter.exited then 1 else 0)
        ∧ (exampleLoaded.main = Main.loaded → exampleSchedule.countP isSync = 1)
        ∧ (exampleLoaded.waiter = Waiter.offering ∨ exampleLoaded.waiter = Waiter.exited →
            exampleLoaded.main ≠ Main.reading ∧ exampleLoaded.wg = 0
              ∧ ∀ t ∈ exampleLoaded.tasks, t = ParseTask.exited)
        ∧ (exampleLoaded.main = Main.collecting →
            ∀ s', step exampleScan Move.main exampleLoaded = some s' →
              (s'.main = Main.loaded
                ↔ exampleLoaded.run = false ∧ exampleLoaded.masspointsChan = []))
        ∧ (exampleLoaded.main = Main.collecting ∨ exampleLoaded.main = Main.loaded →
            (exampleLoaded.run = false ↔ exampleLoaded.waiter = Waiter.exited))
        ∧ (exampleLoaded.wg = 0 → exampleLoaded.main ≠ Main.reading →
            (exampleLoaded.masspoints ++ exampleLoaded.masspointsChan).Perm
              (exampleLines.filterMap exampleScan))
        ∧ (exampleLoaded.main = Main.loaded →
            exampleLoaded.run = false ∧ exampleLoaded.masspointsChan = []
              ∧ exampleLoaded.masspoints.Perm (exampleLines.filterMap exampleScan)
              ∧ exampleLoaded.waiter = Waiter.exited
              ∧ ∀ t ∈ exampleLoaded.tasks, t = ParseTask.exited)
        ∧ (exampleLoaded.main ≠ Main.loaded →
            ∃ m s', step exampleScan m exampleLoaded = some s')
        ∧ exampleSchedule.length ≤ workLeft (initial exampleLines.flatten : Loader ℚ)
        ∧ ∃ more s', exec exampleScan more exampleLoaded = some s'
            ∧ s'.main = Main.loaded) := by
  have hlines : ∀ l ∈ exampleLines, NewlineTerminated l := by
    intro l hl
    simp only [exampleLines, List.mem_cons, List.mem_singleton, List.not_mem_nil,
      or_false] at hl
    rcases hl with rfl | rfl
    · exact ⟨['o', 'o', 'p', 's'], rfl, by decide⟩
    · exact ⟨['1', ':', '2', ':', '3', ':', '4'], rfl, by decide⟩
  have hexec : exec exampleScan exampleSchedule (initial exampleLines.flatten)
      = some exampleLoaded := by
    simp [exec, step, initial, readString, exampleScan, exampleSchedule, exampleLines,
      exampleLoaded]
  exact ⟨hlines, hexec, by simp [exampleSchedule, isSync], rfl,
    ingestion_completes exampleScan exampleLines hlines exampleSchedule exampleLoaded hexec⟩

end CompletionProofs


/-! ## The channel of the concurrent reduction -/

theorem carry_length (l : List (MassPoint K)) : (carry l).length = l.length % 2 := by
  have h1 := roundList_length l
  rw [roundList_eq, List.length_append, combinedPairs_length] at h1
  omega

omit [Field K] in
theorem reducerInit_inv (masspoints : List (MassPoint K)) (h1 : 1 ≤ masspoints.length) :
    ReducerInv masspoints.length (reducerInit masspoints) := by
  refine ⟨rfl, h1, le_refl _, Nat.zero_le _, ?_⟩
  exact ⟨rfl, rfl⟩

theorem reduceStep_inv (n : Nat) (m : ReduceMove) (s s' : Reducer K)
    (hinv : ReducerInv n s) (hstep : reduceStep m s = some s') : ReducerInv n s' := by
  obtain ⟨hcap, hlen1, hlenn, hg, hpc⟩ := hinv
  obtain ⟨chanCap, c, senders, masspoints, newMasspoints, goroutines, pc, systemAverage⟩ := s
  simp only at hcap hlen1 hlenn hg hpc
  cases m with
  | main =>
    cases pc with
    | loopTest =>
      obtain ⟨hc, hs⟩ := hpc
      subst hc hs
      simp only [reduceStep] at hstep
      split_ifs at hstep with hgt
      · simp only [Option.some.injEq] at hstep
        subst hstep
        exact ⟨hcap, hlen1, hlenn, Nat.zero_le _, by simp⟩
      · have h0 : 0 < masspoints.length := by omega
        rw [List.getElem?_eq_getElem h0] at hstep
        simp only [Option.some.injEq] at hstep
        subst hstep
        exact ⟨hcap, hlen1, hlenn, hg, rfl, rfl⟩
    | dispatch i =>
      obtain ⟨hi, hile, hgi, hsum, hnew⟩ := hpc
      simp only [reduceStep] at hstep
      split_ifs at hstep with hlt
      · have h1 : i < masspoints.length := by omega
        have h2 : i + 1 < masspoints.length := by omega
        rw [List.getElem?_eq_getElem h1, List.getElem?_eq_getElem h2] at hstep
        simp only [Option.some.injEq] at hstep
        subst hstep
        refine ⟨hcap, hlen1, hlenn, by simp only; omega, ?_⟩
        simp only [List.length_append, List.length_singleton]
        exact ⟨by omega, by omega, by omega, by omega, hnew⟩
      · simp only [Option.some.injEq] at hstep
        subst hstep
        refine ⟨hcap, hlen1, hlenn, hg, ?_⟩
        simp only [hnew, List.length_nil]
        exact ⟨by omega, by omega, trivial⟩
    | receive i =>
      obtain ⟨hgl, hsum, hnew⟩ := hpc
      simp only [reduceStep] at hstep
      split_ifs at hstep with hlt
      · cases c with
        | nil => simp at hstep
        | cons val rest =>
          simp only [Option.some.injEq] at hstep
          subst hstep
          refine ⟨hcap, hlen1, hlenn, hg, ?_⟩
          simp only [List.length_cons] at hsum
          dsimp only
          refine ⟨hgl, ?_, ?_⟩
          · omega
          · rw [List.length_append, List.length_singleton, hnew]
      · rw [appendCarry_eq] at hstep
        simp only [Option.some.injEq] at hstep
        subst hstep
        have hc : c = [] := List.eq_nil_of_length_eq_zero (by omega)
        have hs : senders = [] := List.eq_nil_of_length_eq_zero (by omega)
        have hcl := carry_length masspoints
        refine ⟨hcap, ?_, ?_, hg, hc, hs⟩
        · simp only [List.length_append]
          omega
        · simp only [List.length_append]
          omega
    | finished => simp [reduceStep] at hstep
    | panicked => simp [reduceStep] at hstep
  | goroutine k =>
    have hp : pc ≠ ReducePc.panicked := by
      intro h
      rw [h] at hpc
      exact hpc
    simp only [reduceStep] at hstep
    rw [if_neg hp] at hstep
    cases hk : senders[k]? with
    | none => simp [hk] at hstep
    | some val =>
      have hklt : k < senders.length := by
        by_contra hge
        rw [List.getElem?_eq_none (by omega)] at hk
        exact Option.noConfusion hk
      simp only [hk] at hstep
      split_ifs at hstep with hroom
      simp only [Option.some.injEq] at hstep
      subst hstep
      refine ⟨hcap, hlen1, hlenn, hg, ?_⟩
      cases pc with
      | loopTest => simp [hpc.2] at hklt
      | dispatch i =>
        obtain ⟨hi, hile, hgi, hsum, hnew⟩ := hpc
        simp only [List.length_append, List.length_singleton, List.length_eraseIdx,
          if_pos hklt]
        exact ⟨hi, hile, hgi, by omega, hnew⟩
      | receive i =>
        obtain ⟨hgl, hsum, hnew⟩ := hpc
        simp only [List.length_append, List.length_singleton, List.length_eraseIdx,
          if_pos hklt]
        exact ⟨hgl, by omega, hnew⟩
      | finished => simp [hpc.2] at hklt
      | panicked => exact hpc

theorem reduceExec_inv (n : Nat) (moves : List ReduceMove) (s s' : Reducer K)
    (hinv : ReducerInv n s) (hexec : reduceExec moves s = some s') : ReducerInv n s' := by
  induction moves generalizing s with
  | nil =>
    simp only [reduceExec, Option.some.injEq] at hexec
    exact hexec ▸ hinv
  | cons m later ih =>
    simp only [reduceExec] at hexec
    cases hs : reduceStep m s with
    | none => simp [hs] at hexec
    | some s1 =>
      rw [hs] at hexec
      exact ih s1 (reduceStep_inv n m s s1 hinv hs) hexec

theorem reducer_free_slot (n : Nat) (s : Reducer K) (hinv : ReducerInv n s) (k : Nat)
    (val : MassPoint K) (hk : s.senders[k]? = some val) :
    s.c.length < s.chanCap
      ∧ reduceStep (ReduceMove.goroutine k) s
          = some { s with c := s.c ++ [val], senders := s.senders.eraseIdx k } := by
  obtain ⟨hcap, hlen1, hlenn, hg, hpc⟩ := hinv
  have hklt : k < s.senders.length := by
    by_contra hge
    rw [List.getElem?_eq_none (by omega)] at hk
    exact Option.noConfusion hk
  have hnp : s.pc ≠ ReducePc.panicked := by
    intro h
    rw [h] at hpc
    exact hpc
  have hroom : s.c.length < s.chanCap := by
    cases hp : s.pc with
    | loopTest => rw [hp] at hpc; simp [hpc.2] at hklt
    | dispatch i => rw [hp] at hpc; obtain ⟨_, _, _, hsum, _⟩ := hpc; omega
    | receive i => rw [hp] at hpc; obtain ⟨_, hsum, _⟩ := hpc; omega
    | finished => rw [hp] at hpc; simp [hpc.2] at hklt
    | panicked => exact absurd hp hnp
  refine ⟨hroom, ?_⟩
  simp only [reduceStep, if_neg hnp, hk, if_pos hroom]

theorem reducer_progress (n : Nat) (s : Reducer K) (hinv : ReducerInv n s)
    (hne : s.pc ≠ ReducePc.finished) : ∃ m s', reduceStep m s = some s' := by
  obtain ⟨hcap, hlen1, hlenn, hg, hpc⟩ := id hinv
  cases hp : s.pc with
  | loopTest =>
    refine ⟨ReduceMove.main, ?_⟩
    simp only [reduceStep, hp]
    split_ifs
    · exact ⟨_, rfl⟩
    · rw [List.getElem?_eq_getElem (by omega : 0 < s.masspoints.length)]
      exact ⟨_, rfl⟩
  | dispatch i =>
    refine ⟨ReduceMove.main, ?_⟩
    simp only [reduceStep, hp]
    split_ifs with hlt
    · rw [List.getElem?_eq_getElem (by omega : i < s.masspoints.length),
        List.getElem?_eq_getElem (by omega : i + 1 < s.masspoints.length)]
      exact ⟨_, rfl⟩
    · exact ⟨_, rfl⟩
  | receive i =>
    rw [hp] at hpc
    obtain ⟨hgl, hsum, hnew⟩ := hpc
    by_cases hlt : i < s.goroutines
    · cases hc : s.c with
      | cons val rest =>
        refine ⟨ReduceMove.main, ?_⟩
        simp only [reduceStep, hp, if_pos hlt, hc]
        exact ⟨_, rfl⟩
      | nil =>
        have hsl : 0 < s.senders.length := by
          rw [hc] at hsum
          simp only [List.length_nil] at hsum
          omega
        refine ⟨ReduceMove.goroutine 0, _,
          (reducer_free_slot n s hinv 0 s.senders[0] (List.getElem?_eq_getElem hsl)).2⟩
    · refine ⟨ReduceMove.main, ?_⟩
      simp only [reduceStep, hp, if_neg hlt, appendCarry_eq]
      exact ⟨_, rfl⟩
  | finished => exact absurd hp hne
  | panicked => rw [hp] at hpc; exact absurd hpc id

theorem secondRoundState_reached :
    reduceExec intoSecondRound (reducerInit fourPoints) = some secondRoundState := by
  simp [reduceExec, reduceStep, reducerInit, fourPoints, intoSecondRound, appendCarry,
    avgMassPointsWeightedAsync, avgMassPointsWeighted_eq, secondRoundState]
  norm_num

/-- C18 (the claim fails on the code).  On four points the second round of the concurrent
reduction works on `n = 2` points and dispatches `n / 2 = 1` pair, while the capacity of `c`
is still `2`, the value fixed before the loop. -/
theorem result_channel_not_sized_per_round :
    reduceExec intoSecondRound (reducerInit fourPoints) = some secondRoundState
      ∧ secondRoundState.pc = ReducePc.receive 0
      ∧ secondRoundState.masspoints.length = 2
      ∧ secondRoundState.goroutines = 1
      ∧ secondRoundState.chanCap = 2
      ∧ secondRoundState.chanCap ≠ secondRoundState.masspoints.length / 2 :=
  ⟨secondRoundState_reached, rfl, rfl, rfl, rfl, by decide⟩

/-- C18 as amended.  In every state of the concurrent reduction started on `N ≥ 2` points
the capacity of `c` is `N / 2`, the value fixed once before the loop; it is the number of
pairs of the first round, and in every round it is at least the number `n / 2` of pairs of
the round's list of `n` points and of the goroutines started, and equal to it only when
`n / 2 = N / 2`. -/
theorem result_channel_capacity (l : List (MassPoint K)) (h2 : 2 ≤ l.length)
    (moves : List ReduceMove) (s : Reducer K)
    (hexec : reduceExec moves (reducerInit l) = some s) :
    (reducerInit l).chanCap = (reducerInit l).masspoints.length / 2
      ∧ s.chanCap = l.length / 2
      ∧ s.masspoints.length / 2 ≤ s.chanCap
      ∧ s.goroutines ≤ s.chanCap
      ∧ (s.chanCap = s.masspoints.length / 2 ↔ s.masspoints.length / 2 = l.length / 2) := by
  obtain ⟨hcap, hlen1, hlenn, hg, _⟩ :=
    reduceExec_inv l.length moves _ s (reducerInit_inv l (by omega)) hexec
  refine ⟨rfl, hcap, ?_, by omega, by rw [hcap]; exact eq_comm⟩
  rw [hcap]
  exact Nat.div_le_div_right hlenn

/-- Witness of C18 as amended, in the second round of the reduction of four points. -/
theorem result_channel_capacity_witness :
    2 ≤ fourPoints.length
      ∧ reduceExec intoSecondRound (reducerInit fourPoints) = some secondRoundState
      ∧ (reducerInit fourPoints).chanCap = (reducerInit fourPoints).masspoints.length / 2
      ∧ secondRoundState.chanCap = fourPoints.length / 2
      ∧ secondRoundState.masspoints.length / 2 ≤ secondRoundState.chanCap
      ∧ secondRoundState.goroutines ≤ secondRoundState.chanCap
      ∧ (secondRoundState.chanCap = secondRoundState.masspoints.length / 2
          ↔ secondRoundState.masspoints.length / 2 = fourPoints.length / 2) :=
  ⟨by decide, secondRoundState_reached,
    result_channel_capacity fourPoints (by decide) intoSecondRound secondRoundState
      secondRoundState_reached⟩

/-- C19.  The result channel of the concurrent reduction is never over-subscribed.  In
every state of a run started on `N ≥ 2` points: the capacity of `c` is `N / 2`; the list of
the round has `n ≤ N` points, so the `n / 2` pairs of the round and the goroutines started
are at most `N / 2`; in the receive loop the goroutines started are `n / 2` and the results
received are as many as the index of the loop, and when the loop ends they are all the
`n / 2` results, nothing being left in `c` or still to be sent; at the test of the outer
loop, the start of every round, `c` is empty; every goroutine that has not sent yet finds a
free slot, so its send can be taken at once; no index runs out of range, and some thread
can move as long as the reduction has not finished. -/
theorem result_channel_never_full (l : List (MassPoint K)) (h2 : 2 ≤ l.length)
    (moves : List ReduceMove) (s : Reducer K)
    (hexec : reduceExec moves (reducerInit l) = some s) :
    s.chanCap = l.length / 2
      ∧ s.masspoints.length ≤ l.length
      ∧ s.masspoints.length / 2 ≤ l.length / 2
      ∧ s.goroutines ≤ l.length / 2
      ∧ (∀ i, s.pc = ReducePc.receive i →
          s.goroutines = s.masspoints.length / 2 ∧ s.newMasspoints.length = i
            ∧ (¬ i < s.goroutines →
                s.newMasspoints.length = s.masspoints.length / 2
                  ∧ s.c = [] ∧ s.senders = []))
      ∧ (s.pc = ReducePc.loopTest → s.c = [] ∧ s.senders = [])
      ∧ s.c.length ≤ s.chanCap
      ∧ (∀ k val, s.senders[k]? = some val →
          s.c.length < s.chanCap
            ∧ reduceStep (ReduceMove.goroutine k) s
                = some { s with c := s.c ++ [val], senders := s.senders.eraseIdx k })
      ∧ s.pc ≠ ReducePc.panicked
      ∧ (s.pc ≠ ReducePc.finished → ∃ m s', reduceStep m s = some s') := by
  have hinv := reduceExec_inv l.length moves _ s (reducerInit_inv l (by omega)) hexec
  obtain ⟨hcap, hlen1, hlenn, hg, hpc⟩ := id hinv
  refine ⟨hcap, hlenn, Nat.div_le_div_right hlenn, hg, ?_, ?_, ?_,
    fun k val hk => reducer_free_slot l.length s hinv k val hk, ?_,
    reducer_progress l.length s hinv⟩
  · intro i hp
    rw [hp] at hpc
    obtain ⟨hgl, hsum, hnew⟩ := hpc
    refine ⟨hgl, hnew, fun hge => ⟨by omega, ?_, ?_⟩⟩
    · exact List.eq_nil_of_length_eq_zero (by omega)
    · exact List.eq_nil_of_length_eq_zero (by omega)
  · intro hp
    rw [hp] at hpc
    exact hpc
  · cases hp : s.pc with
    | loopTest => rw [hp] at hpc; simp [hpc.1]
    | dispatch i => rw [hp] at hpc; obtain ⟨_, _, _, hsum, _⟩ := hpc; omega
    | receive i => rw [hp] at hpc; obtain ⟨_, hsum, _⟩ := hpc; omega
    | finished => rw [hp] at hpc; simp [hpc.1]
    | panicked => rw [hp] at hpc; exact absurd hpc id
  · intro hp
    rw [hp] at hpc
    exact hpc

/-- Witness of C19: the reduction of four points in its second round, and a schedule that
completes it with `systemAverage = (3,0,0,4)`. -/
theorem result_channel_never_full_witness :
    2 ≤ fourPoints.length
      ∧ reduceExec intoSecondRound (reducerInit fourPoints) = some secondRoundState
      ∧ (secondRoundState.chanCap = fourPoints.length / 2
        ∧ secondRoundState.masspoints.length ≤ fourPoints.length
        ∧ secondRoundState.masspoints.length / 2 ≤ fourPoints.length / 2
        ∧ secondRoundState.goroutines ≤ fourPoints.length / 2
        ∧ (∀ i, secondRoundState.pc = ReducePc.receive i →
            secondRoundState.goroutines = secondRoundState.masspoints.length / 2
              ∧ secondRoundState.newMasspoints.length = i
              ∧ (¬ i < secondRoundState.goroutines →
                  secondRoundState.newMasspoints.length
                      = secondRoundState.masspoints.length / 2
                    ∧ secondRoundState.c = [] ∧ secondRoundState.senders = []))
        ∧ (secondRoundState.pc = ReducePc.loopTest →
            secondRoundState.c = [] ∧ secondRoundState.senders = [])
        ∧ secondRoundState.c.length ≤ secondRoundState.chanCap
        ∧ (∀ k val, secondRoundState.senders[k]? = some val →
            secondRoundState.c.length < secondRoundState.chanCap
              ∧ reduceStep (ReduceMove.goroutine k) secondRoundState
                  = some { secondRoundState with
                      c := secondRoundState.c ++ [val]
                      senders := secondRoundState.senders.eraseIdx k })
        ∧ secondRoundState.pc ≠ ReducePc.panicked
        ∧ (secondRoundState.pc ≠ ReducePc.finished →
            ∃ m s', reduceStep m secondRoundState = some s'))
      ∧ ∃ s', reduceExec afterSecondRound secondRoundState = some s'
          ∧ s'.pc = ReducePc.finished ∧ s'.systemAverage = some ⟨3, 0, 0, 4⟩ := by
  refine ⟨by decide, secondRoundState_reached,
    result_channel_never_full fourPoints (by decide) intoSecondRound secondRoundState
      secondRoundState_reached, ?_⟩
  simp [reduceExec, reduceStep, afterSecondRound, appendCarry, secondRoundState]


/-! ## The record parser -/

section ParserProofs
omit [Field K]

theorem doScanf_verb (scanFloat : List Char → Option (K × List Char))
    (format input : List Char) (vs : List K) :
    doScanf scanFloat ('%' :: 'f' :: format) input = some vs
      ↔ ∃ v rest tail, scanFloat input = some (v, rest)
          ∧ doScanf scanFloat format rest = some tail ∧ vs = v :: tail := by
  rw [doScanf]
  cases h : scanFloat input with
  | none => simp
  | some r =>
    obtain ⟨v, rest⟩ := r
    cases h2 : doScanf scanFloat format rest with
    | none => simp [h2]
    | some tail =>
      simp only [h2, Option.some.injEq, Prod.mk.injEq]
      constructor
      · rintro rfl
        exact ⟨v, rest, tail, ⟨rfl, rfl⟩, h2, rfl⟩
      · rintro ⟨v2, rest2, tail2, ⟨rfl, rfl⟩, ht, rfl⟩
        rw [h2] at ht
        simp only [Option.some.injEq] at ht
        rw [ht]

theorem doScanf_colon (scanFloat : List Char → Option (K × List Char))
    (format input : List Char) (vs : List K) :
    doScanf scanFloat (':' :: format) input = some vs
      ↔ ∃ rest, input = ':' :: rest ∧ doScanf scanFloat format rest = some vs := by
  cases input with
  | nil => simp [doScanf]
  | cons d rest =>
    by_cases hd : d = ':'
    · simp [doScanf, hd]
    · simp [doScanf, hd]

theorem sscanfPoint_eq_some (scanFloat : List Char → Option (K × List Char))
    (s : List Char) (p : MassPoint K) :
    sscanfPoint scanFloat s = some p
      ↔ ∃ x s1 y s2 z s3 mass s4,
          scanFloat s = some (x, ':' :: s1) ∧ scanFloat s1 = some (y, ':' :: s2)
            ∧ scanFloat s2 = some (z, ':' :: s3) ∧ scanFloat s3 = some (mass, s4)
            ∧ p = { x := x, y := y, z := z, mass := mass } := by
  unfold sscanfPoint
  constructor
  · intro h
    cases hd : doScanf scanFloat ['%', 'f', ':', '%', 'f', ':', '%', 'f', ':', '%', 'f'] s with
    | none => simp [hd] at h
    | some vs =>
      obtain ⟨x, r1, t1, hx, h1, e1⟩ := (doScanf_verb scanFloat _ s vs).mp hd
      obtain ⟨s1, hr1, g1⟩ := (doScanf_colon scanFloat _ r1 t1).mp h1
      obtain ⟨y, r2, t2, hy, h2, e2⟩ := (doScanf_verb scanFloat _ s1 t1).mp g1
      obtain ⟨s2, hr2, g2⟩ := (doScanf_colon scanFloat _ r2 t2).mp h2
      obtain ⟨z, r3, t3, hz, h3, e3⟩ := (doScanf_verb scanFloat _ s2 t2).mp g2
      obtain ⟨s3, hr3, g3⟩ := (doScanf_colon scanFloat _ r3 t3).mp h3
      obtain ⟨mass, s4, t4, hm, h4, e4⟩ := (doScanf_verb scanFloat _ s3 t3).mp g3
      simp only [doScanf, Option.some.injEq] at h4
      subst h4 e4 e3 e2 e1 hr1 hr2 hr3
      rw [hd] at h
      simp only [Option.some.injEq] at h
      exact ⟨x, s1, y, s2, z, s3, mass, s4, hx, hy, hz, hm, h.symm⟩
  · rintro ⟨x, s1, y, s2, z, s3, mass, s4, hx, hy, hz, hm, rfl⟩
    have hd : doScanf scanFloat ['%', 'f', ':', '%', 'f', ':', '%', 'f', ':', '%', 'f'] s
        = some [x, y, z, mass] := by
      rw [doScanf_verb]
      refine ⟨x, _, _, hx, ?_, rfl⟩
      rw [doScanf_colon]
      refine ⟨s1, rfl, ?_⟩
      rw [doScanf_verb]
      refine ⟨y, _, _, hy, ?_, rfl⟩
      rw [doScanf_colon]
      refine ⟨s2, rfl, ?_⟩
      rw [doScanf_verb]
      refine ⟨z, _, _, hz, ?_, rfl⟩
      rw [doScanf_colon]
      refine ⟨s3, rfl, ?_⟩
      rw [doScanf_verb]
      exact ⟨mass, s4, [], hm, by simp [doScanf], rfl⟩
    rw [hd]

/-- C12 (the claim fails on the code).  The line `1:2:3:4:5` with its newline has five
colon-separated fields, not four, and the line `1:2:3:4junk` has text after its fourth
literal; on both `stringToPointAsync` sends the point `(1,2,3,4)`. -/
theorem extra_content_is_parsed :
    stringToPointAsync exampleFloat ['1', ':', '2', ':', '3', ':', '4', ':', '5', '\n']
        = some ⟨1, 2, 3, 4⟩
      ∧ (colonFields ['1', ':', '2', ':', '3', ':', '4', ':', '5', '\n']).length = 5
      ∧ stringToPointAsync exampleFloat
          ['1', ':', '2', ':', '3', ':', '4', 'j', 'u', 'n', 'k', '\n'] = some ⟨1, 2, 3, 4⟩ := by
  refine ⟨?_, ?_, ?_⟩
  · simp [stringToPointAsync, sscanfPoint, doScanf, exampleFloat, scanDigits, digitValue]
  · simp [colonFields]
  · simp [stringToPointAsync, sscanfPoint, doScanf, exampleFloat, scanDigits, digitValue]

/-- C12 as amended.  For every line, the parse in `stringToPointAsync` succeeds exactly when
the line begins with four literals as the verb `%f` scans them, the first three each
followed at once by a colon; the point sent then has the first literal as `x`, the second
as `y`, the third as `z` and the fourth as `mass`; the text `s4` after the fourth literal
is not examined; on every other line nothing is sent.  So `1:2:3:4` with its newline gives
`(1,2,3,4)`, while a line of three fields, a line with a non-numeric field and a line with
another delimiter give nothing. -/
theorem stringToPointAsync_scans_four_literals (scanFloat : List Char → Option (K × List Char))
    (s : List Char) :
    (∀ p, stringToPointAsync scanFloat s = some p
        ↔ ∃ x s1 y s2 z s3 mass s4,
            scanFloat s = some (x, ':' :: s1) ∧ scanFloat s1 = some (y, ':' :: s2)
              ∧ scanFloat s2 = some (z, ':' :: s3) ∧ scanFloat s3 = some (mass, s4)
              ∧ p = { x := x, y := y, z := z, mass := mass })
      ∧ (stringToPointAsync scanFloat s = none
        ↔ ¬ ∃ x s1 y s2 z s3 mass s4,
            scanFloat s = some (x, ':' :: s1) ∧ scanFloat s1 = some (y, ':' :: s2)
              ∧ scanFloat s2 = some (z, ':' :: s3) ∧ scanFloat s3 = some (mass, s4))
      ∧ stringToPointAsync exampleFloat ['1', ':', '2', ':', '3', ':', '4', '\n']
          = some ⟨1, 2, 3, 4⟩
      ∧ stringToPointAsync exampleFloat ['1', ':', '2', ':', '3', '\n'] = none
      ∧ stringToPointAsync exampleFloat ['1', ':', 'x', ':', '3', ':', '4', '\n'] = none
      ∧ stringToPointAsync exampleFloat ['1', ';', '2', ';', '3', ';', '4', '\n'] = none := by
  have hsame : ∀ r, stringToPointAsync scanFloat r = sscanfPoint scanFloat r := by
    intro r
    unfold stringToPointAsync
    cases sscanfPoint scanFloat r <;> rfl
  have hsome := fun p => sscanfPoint_eq_some scanFloat s p
  refine ⟨fun p => by rw [hsame]; exact hsome p, ?_, ?_, ?_, ?_, ?_⟩
  · rw [hsame]
    constructor
    · rintro hnone ⟨x, s1, y, s2, z, s3, mass, s4, hx, hy, hz, hm⟩
      have := (hsome _).mpr ⟨x, s1, y, s2, z, s3, mass, s4, hx, hy, hz, hm, rfl⟩
      rw [hnone] at this
      exact Option.noConfusion this
    · intro hno
      cases hp : sscanfPoint scanFloat s with
      | none => rfl
      | some p =>
        obtain ⟨x, s1, y, s2, z, s3, mass, s4, hx, hy, hz, hm, _⟩ := (hsome p).mp hp
        exact absurd ⟨x, s1, y, s2, z, s3, mass, s4, hx, hy, hz, hm⟩ hno
  · simp [stringToPointAsync, sscanfPoint, doScanf, exampleFloat, scanDigits, digitValue]
  · simp [stringToPointAsync, sscanfPoint, doScanf, exampleFloat, scanDigits, digitValue]
  · simp [stringToPointAsync, sscanfPoint, doScanf, exampleFloat, scanDigits, digitValue]
  · simp [stringToPointAsync, sscanfPoint, doScanf, exampleFloat, scanDigits, digitValue]

end ParserProofs


/-! ## The strings handed to the parse goroutines -/

section HandOverProofs
omit [Field K]

theorem segmentsFrom_flatten (cur text : List Char) :
    (segmentsFrom cur text).flatten ++ finalSegmentFrom cur text = cur ++ text := by
  induction text generalizing cur with
  | nil => simp [segmentsFrom, finalSegmentFrom]
  | cons c rest ih =>
    by_cases hc : c = '\n'
    · simp only [segmentsFrom, finalSegmentFrom, hc, if_true, List.flatten_cons,
        List.append_assoc, ih []]
      simp
    · simp only [segmentsFrom, finalSegmentFrom, hc, if_false, ih (cur ++ [c])]
      simp

theorem segmentsFrom_terminated (cur text : List Char) (hcur : '\n' ∉ cur) :
    ∀ l ∈ segmentsFrom cur text, NewlineTerminated l := by
  induction text generalizing cur with
  | nil => simp [segmentsFrom]
  | cons c rest ih =>
    by_cases hc : c = '\n'
    · intro l hl
      simp only [segmentsFrom, hc, if_true, List.mem_cons] at hl
      rcases hl with rfl | hl
      · exact ⟨cur, rfl, hcur⟩
      · exact ih [] (by simp) l hl
    · simp only [segmentsFrom, hc, if_false]
      refine ih (cur ++ [c]) ?_
      simp only [List.mem_append, List.mem_singleton, not_or]
      exact ⟨hcur, fun h => hc h.symm⟩

theorem finalSegmentFrom_no_newline (cur text : List Char) (hcur : '\n' ∉ cur) :
    '\n' ∉ finalSegmentFrom cur text := by
  induction text generalizing cur with
  | nil => simpa [finalSegmentFrom] using hcur
  | cons c rest ih =>
    by_cases hc : c = '\n'
    · simp only [finalSegmentFrom, hc, if_true]
      exact ih [] (by simp)
    · simp only [finalSegmentFrom, hc, if_false]
      refine ih (cur ++ [c]) ?_
      simp only [List.mem_append, List.mem_singleton, not_or]
      exact ⟨hcur, fun h => hc h.symm⟩

theorem segmentsFrom_readString (cur text : List Char) :
    segmentsFrom cur text
      = if (readString '\n' text).2.1 = true then []
        else (cur ++ (readString '\n' text).1) :: segments (readString '\n' text).2.2 := by
  induction text generalizing cur with
  | nil => simp [segmentsFrom, readString]
  | cons c rest ih =>
    by_cases hc : c = '\n'
    · simp [segmentsFrom, readString, hc, segments]
    · simp only [segmentsFrom, readString, hc, if_false, ih (cur ++ [c])]
      split_ifs <;> simp

theorem readString_nonempty (delim : Char) (text : List Char)
    (h : (readString delim text).2.1 = false) : (readString delim text).1.length ≠ 0 := by
  cases text with
  | nil => simp [readString] at h
  | cons c rest =>
    by_cases hc : c = delim
    · simp [readString, hc]
    · simp [readString, hc]

theorem readString_no_newline (text : List Char) (h : '\n' ∉ text) :
    readString '\n' text = (text, true, []) := by
  induction text with
  | nil => rfl
  | cons c rest ih =>
    have hc : c ≠ '\n' := fun e => h (by simp [e])
    have hrest : '\n' ∉ rest := fun e => h (by simp [e])
    simp [readString, hc, ih hrest]

theorem step_frame (sscanf : List Char → Option (MassPoint K)) (m : Move)
    (s s1 : Loader K) (hstep : step sscanf m s = some s1)
    (hm : m = Move.main → s.main ≠ Main.reading) (u : List Char) :
    s1.unread = s.unread
      ∧ ((s1.main = Main.reading ↔ s.main = Main.reading) ∨ s1.main = Main.panicked)
      ∧ handedBy m s = []
      ∧ step sscanf m { s with unread := u } = some { s1 with unread := u } := by
  obtain ⟨unread, tasks, wg, chan, waiter, run, masspoints, main⟩ := s
  cases m with
  | main =>
    cases main with
    | reading => exact absurd rfl (hm rfl)
    | collecting =>
      simp only [step] at hstep ⊢
      split_ifs at hstep ⊢ with hcond
      · cases chan with
        | nil => simp at hstep
        | cons val later =>
          simp only [Option.some.injEq] at hstep
          subst hstep
          simp [handedBy]
      · simp only [Option.some.injEq] at hstep
        subst hstep
        simp [handedBy]
    | loaded => simp [step] at hstep
    | panicked => simp [step] at hstep
  | mainSync =>
    cases main <;> simp only [step] at hstep ⊢ <;> try (simp at hstep; done)
    split_ifs at hstep ⊢ with hcond
    cases waiter <;> simp at hstep
    subst hstep
    simp [handedBy]
  | task i =>
    simp only [step] at hstep ⊢
    by_cases hp : main = Main.panicked
    · simp [hp] at hstep
    · simp only [if_neg hp] at hstep ⊢
      cases ht : tasks[i]? with
      | none => simp [ht] at hstep
      | some t =>
        simp only [ht] at hstep ⊢
        cases t with
        | parsing str =>
          cases hs : sscanf str <;> simp only [hs] at hstep ⊢ <;>
            simp only [Option.some.injEq] at hstep <;> subst hstep <;> simp [handedBy]
        | sending p =>
          simp only at hstep ⊢
          by_cases hroom : chan.length < 128
          · simp only [if_pos hroom, Option.some.injEq] at hstep ⊢
            subst hstep
            simp [handedBy]
          · simp [hroom] at hstep
        | returning =>
          simp only at hstep ⊢
          by_cases hneg : wg - 1 < 0
          · simp only [if_pos hneg, Option.some.injEq] at hstep ⊢
            subst hstep
            simp [handedBy]
          · simp only [if_neg hneg, Option.some.injEq] at hstep ⊢
            subst hstep
            simp [handedBy]
        | exited => simp at hstep
  | waiter =>
    simp only [step] at hstep ⊢
    split_ifs at hstep ⊢ with hp hw
    all_goals cases waiter <;> simp at hstep
    subst hstep
    simp [handedBy]

theorem readString_append (u tail : List Char) (h : '\n' ∉ tail) :
    readString '\n' (u ++ tail)
      = if (readString '\n' u).2.1 = true then ((readString '\n' u).1 ++ tail, true, [])
        else ((readString '\n' u).1, false, (readString '\n' u).2.2 ++ tail) := by
  induction u with
  | nil => simp [readString, readString_no_newline tail h]
  | cons c cs ih =>
    by_cases hc : c = '\n'
    · simp [readString, hc]
    · have e : (c :: cs) ++ tail = c :: (cs ++ tail) := rfl
      rw [e]
      simp only [readString, if_neg hc, ih]
      split_ifs <;> rfl

theorem step_reading (sscanf : List Char → Option (MassPoint K)) (s s1 : Loader K)
    (hm : s.main = Main.reading) (hstep : step sscanf Move.main s = some s1) :
    handedBy Move.main s ++ toHandOver s1 = toHandOver s := by
  obtain ⟨unread, tasks, wg, chan, waiter, run, masspoints, main⟩ := s
  simp only at hm
  subst hm
  have hseg := segmentsFrom_readString [] unread
  simp only [step] at hstep
  by_cases hcond : (readString '\n' unread).1.length = 0 ∨ (readString '\n' unread).2.1 = true
  · simp only [if_pos hcond, Option.some.injEq] at hstep
    subst hstep
    have herr : (readString '\n' unread).2.1 = true := by
      rcases hcond with h0 | h1
      · by_contra hne
        exact readString_nonempty '\n' unread (by simpa using hne) h0
      · exact h1
    simp [handedBy, toHandOver, hcond, segments, hseg, herr]
  · simp only [if_neg hcond, Option.some.injEq] at hstep
    subst hstep
    have herr : ¬ (readString '\n' unread).2.1 = true := fun e => hcond (Or.inr e)
    have hlen : ¬ (readString '\n' unread).1 = [] := fun e =>
      hcond (Or.inl (by rw [e]; rfl))
    simp [handedBy, toHandOver, hcond, segments, hseg, herr, hlen]

theorem step_handed (sscanf : List Char → Option (MassPoint K)) (m : Move) (s s1 : Loader K)
    (hstep : step sscanf m s = some s1) (hp : s1.main ≠ Main.panicked) :
    handedBy m s ++ toHandOver s1 = toHandOver s := by
  by_cases hm : m = Move.main ∧ s.main = Main.reading
  · obtain ⟨rfl, hr⟩ := hm
    exact step_reading sscanf s s1 hr hstep
  · obtain ⟨hu, hmain, hby, _⟩ :=
      step_frame sscanf m s s1 hstep (fun e hr => hm ⟨e, hr⟩) []
    rcases hmain with hiff | hpan
    · rw [hby]
      by_cases hr : s.main = Main.reading
      · simp [toHandOver, hr, hiff.mpr hr, hu]
      · have hr1 : s1.main ≠ Main.reading := fun e => hr (hiff.mp e)
        simp [toHandOver, hr, hr1]
    · exact absurd hpan hp

theorem step_sim (sscanf : List Char → Option (MassPoint K)) (tail : List Char)
    (htail : '\n' ∉ tail) (m : Move) (s t t1 : Loader K) (hsame : SameButInput tail s t)
    (hstep : step sscanf m t = some t1) :
    ∃ s1, step sscanf m s = some s1 ∧ SameButInput tail s1 t1 := by
  obtain ⟨h1, h2, h3, h4, h5, h6, h7, h8⟩ := hsame
  by_cases hm : m = Move.main ∧ t.main = Main.reading
  · obtain ⟨rfl, hr⟩ := hm
    obtain ⟨unread, tasks, wg, chan, waiter, run, masspoints, main⟩ := s
    obtain ⟨unread2, tasks2, wg2, chan2, waiter2, run2, masspoints2, main2⟩ := t
    simp only at h1 h2 h3 h4 h5 h6 h7 h8 hr
    subst h1 h2 h3 h4 h5 h6 hr
    subst h7
    have hu := h8 rfl
    subst hu
    have happ := readString_append unread tail htail
    simp only [step] at hstep ⊢
    by_cases herr : (readString '\n' unread).2.1 = true
    · rw [if_pos herr] at happ
      have hc2 : (readString '\n' (unread ++ tail)).1.length = 0
          ∨ (readString '\n' (unread ++ tail)).2.1 = true := Or.inr (by rw [happ])
      simp only [if_pos hc2, Option.some.injEq] at hstep
      subst hstep
      refine ⟨_, if_pos (Or.inr herr), ?_⟩
      simp [SameButInput]
    · rw [if_neg herr] at happ
      have hlen : (readString '\n' unread).1.length ≠ 0 :=
        readString_nonempty '\n' unread (by simpa using herr)
      have hc1 : ¬ ((readString '\n' unread).1.length = 0
          ∨ (readString '\n' unread).2.1 = true) := by
        rintro (h | h)
        · exact hlen h
        · exact herr h
      have hc2 : ¬ ((readString '\n' (unread ++ tail)).1.length = 0
          ∨ (readString '\n' (unread ++ tail)).2.1 = true) := by
        rw [happ]
        rintro (h | h)
        · exact hlen h
        · simp at h
      simp only [if_neg hc2, Option.some.injEq] at hstep
      subst hstep
      refine ⟨_, if_neg hc1, ?_⟩
      simp [SameButInput, happ]
  · obtain ⟨hu, hmain, _, hfr⟩ :=
      step_frame sscanf m t t1 hstep (fun e hr => hm ⟨e, hr⟩) s.unread
    have hst : ({ t with unread := s.unread } : Loader K) = s := by
      obtain ⟨unread, tasks, wg, chan, waiter, run, masspoints, main⟩ := s
      obtain ⟨unread2, tasks2, wg2, chan2, waiter2, run2, masspoints2, main2⟩ := t
      simp only at h1 h2 h3 h4 h5 h6 h7
      subst h1 h2 h3 h4 h5 h6 h7
      rfl
    rw [hst] at hfr
    refine ⟨_, hfr, rfl, rfl, rfl, rfl, rfl, rfl, rfl, ?_⟩
    intro hr1
    have hr1 : t1.main = Main.reading := hr1
    have hrt : t.main = Main.reading := by
      rcases hmain with hiff | hpan
      · exact hiff.mp hr1
      · rw [hr1] at hpan
        cases hpan
    show t1.unread = s.unread ++ tail
    rw [hu]
    exact h8 (h7 ▸ hrt)

theorem exec_handed (sscanf : List Char → Option (MassPoint K)) (lines : List (List Char))
    (tail : List Char) (htail : '\n' ∉ tail) (schedule : List Move) (s t t1 : Loader K)
    (hinv : LoaderInv sscanf lines s) (hsame : SameButInput tail s t)
    (hexec : exec sscanf schedule t = some t1) :
    ∃ s1, exec sscanf schedule s = some s1 ∧ SameButInput tail s1 t1
      ∧ handedOver sscanf schedule t ++ toHandOver t1 = toHandOver t := by
  induction schedule generalizing s t with
  | nil =>
    simp only [exec, Option.some.injEq] at hexec
    subst hexec
    exact ⟨s, rfl, hsame, by simp [handedOver]⟩
  | cons m later ih =>
    simp only [exec] at hexec
    cases hs : step sscanf m t with
    | none => simp [hs] at hexec
    | some t2 =>
      rw [hs] at hexec
      obtain ⟨s2, hstep2, hsame2⟩ := step_sim sscanf tail htail m s t t2 hsame hs
      have hinv2 := step_preserves_inv sscanf lines m s s2 hinv hstep2
      obtain ⟨s1, hexec1, hsame1, hhand⟩ := ih s2 t2 hinv2 hsame2 hexec
      have hp : t2.main ≠ Main.panicked := by
        obtain ⟨_, _, _, _, _, _, _, _, _, hpanic⟩ := hinv2
        rw [hsame2.2.2.2.2.2.2.1]
        exact hpanic
      have hone := step_handed sscanf m t t2 hs hp
      refine ⟨s1, ?_, hsame1, ?_⟩
      · simp only [exec, hstep2]
        exact hexec1
      · simp only [handedOver, hs]
        rw [List.append_assoc, hhand, hone]

theorem segments_flatten (text : List Char) :
    (segments text).flatten ++ finalSegment text = text := by
  simpa [segments, finalSegment] using segmentsFrom_flatten [] text

theorem segments_terminated (text : List Char) :
    ∀ l ∈ segments text, NewlineTerminated l :=
  segmentsFrom_terminated [] text (by simp)

theorem finalSegment_no_newline (text : List Char) : '\n' ∉ finalSegment text :=
  finalSegmentFrom_no_newline [] text (by simp)

/-- C21. The concurrent loader parses only newline-terminated records.  Every text is its
successive segments ending in a newline, each with its newline, followed by a final segment
without newline.  In every run of the loader on the text, under every schedule and whatever
the scanner accepts, the strings handed to parse goroutines so far followed by the segments
still to hand over are those segments in order, so once the read loop is left the strings
handed over are exactly the newline-terminated segments; the loader does not panic; and
when it has finished, the points it returns are, up to order, those scanned from these
segments alone: the final segment is never handed over. -/
theorem loader_hands_terminated_segments (sscanf : List Char → Option (MassPoint K))
    (text : List Char) (schedule : List Move) (t : Loader K)
    (hexec : exec sscanf schedule (initial text) = some t) :
    (segments text).flatten ++ finalSegment text = text
      ∧ (∀ l ∈ segments text, NewlineTerminated l)
      ∧ '\n' ∉ finalSegment text
      ∧ handedOver sscanf schedule (initial text) ++ toHandOver t = segments text
      ∧ (t.main ≠ Main.reading →
          handedOver sscanf schedule (initial text) = segments text)
      ∧ t.main ≠ Main.panicked
      ∧ (t.main = Main.loaded → t.masspoints.Perm ((segments text).filterMap sscanf)) := by
  have hflat := segments_flatten text
  have hterm := segments_terminated text
  have htail := finalSegment_no_newline text
  have hsame : SameButInput (finalSegment text)
      (initial (segments text).flatten : Loader K) (initial text) := by
    refine ⟨rfl, rfl, rfl, rfl, rfl, rfl, rfl, ?_⟩
    intro _
    exact hflat.symm
  obtain ⟨s, hexec1, hsame1, hhand⟩ :=
    exec_handed sscanf (segments text) (finalSegment text) htail schedule _ _ t
      (initial_inv sscanf (segments text) hterm) hsame hexec
  have hinv := exec_preserves_inv sscanf (segments text) schedule _ s
    (initial_inv sscanf (segments text) hterm) hexec1
  have hinit : toHandOver (initial text : Loader K) = segments text := by
    simp [toHandOver, initial]
  rw [hinit] at hhand
  have hmain : t.main = s.main := hsame1.2.2.2.2.2.2.1
  have hpts : t.masspoints = s.masspoints := hsame1.2.2.2.2.2.1
  refine ⟨hflat, hterm, htail, hhand, ?_, ?_, ?_⟩
  · intro hr
    simpa [toHandOver, hr] using hhand
  · rw [hmain]
    exact hinv.choose_spec.2.2.2.2.2.2.2.2
  · intro hl
    rw [hpts]
    exact loaded_perm sscanf (segments text) s hinv (hmain ▸ hl)

end HandOverProofs

/-- Witness of C21: on the text `1:2:3:4`, newline, `5:6:7:8` (no newline at the end), with
the scanner of `stringToPointAsync`, the final segment `5:6:7:8` is a record the scanner
accepts, yet the one string handed over is the first line and the loader returns the one
point `(1,2,3,4)`. -/
theorem loader_hands_terminated_segments_witness :
    exec (sscanfPoint exampleFloat) unterminatedSchedule (initial unterminatedText)
        = some unterminatedLoaded
      ∧ segments unterminatedText = [['1', ':', '2', ':', '3', ':', '4', '\n']]
      ∧ finalSegment unterminatedText = ['5', ':', '6', ':', '7', ':', '8']
      ∧ sscanfPoint exampleFloat (finalSegment unterminatedText) = some ⟨5, 6, 7, 8⟩
      ∧ handedOver (sscanfPoint exampleFloat) unterminatedSchedule
          (initial unterminatedText : Loader ℚ) = [['1', ':', '2', ':', '3', ':', '4', '\n']]
      ∧ unterminatedLoaded.masspoints = [⟨1, 2, 3, 4⟩]
      ∧ ((segments unterminatedText).flatten ++ finalSegment unterminatedText
            = unterminatedText
          ∧ (∀ l ∈ segments unterminatedText, NewlineTerminated l)
          ∧ '\n' ∉ finalSegment unterminatedText
          ∧ handedOver (sscanfPoint exampleFloat) unterminatedSchedule
                (initial unterminatedText) ++ toHandOver unterminatedLoaded
              = segments unterminatedText
          ∧ (unterminatedLoaded.main ≠ Main.reading →
              handedOver (sscanfPoint exampleFloat) unterminatedSchedule
                (initial unterminatedText) = segments unterminatedText)
          ∧ unterminatedLoaded.main ≠ Main.panicked
          ∧ (unterminatedLoaded.main = Main.loaded →
              unterminatedLoaded.masspoints.Perm
                ((segments unterminatedText).filterMap (sscanfPoint exampleFloat)))) := by
  have hline : sscanfPoint exampleFloat ['1', ':', '2', ':', '3', ':', '4', '\n']
      = some ⟨1, 2, 3, 4⟩ := by
    simp [sscanfPoint, doScanf, exampleFloat, scanDigits, digitValue]
  have hexec : exec (sscanfPoint exampleFloat) unterminatedSchedule
      (initial unterminatedText) = some unterminatedLoaded := by
    simp [exec, step, initial, readString, unterminatedSchedule, unterminatedText,
      unterminatedLoaded, hline]
  refine ⟨hexec, ?_, ?_, ?_, ?_, rfl,
    loader_hands_terminated_segments (sscanfPoint exampleFloat) unterminatedText
      unterminatedSchedule unterminatedLoaded hexec⟩
  · simp [segments, segmentsFrom, unterminatedText]
  · simp [finalSegment, finalSegmentFrom, unterminatedText]
  · simp [finalSegment, finalSegmentFrom, unterminatedText, sscanfPoint, doScanf,
      exampleFloat, scanDigits, digitValue]
  · simp [handedOver, handedBy, step, initial, readString, unterminatedSchedule,
      unterminatedText, hline]


/-! ## The weighted subspace -/

/-- C24. The function `fromWeightedSubspace` takes a point back from the weighted subspace:
for every point `a` with `a.mass ≠ 0`, over exact arithmetic,
`fromWeightedSubspace(toWeightedSubspace(a)) = a` and
`toWeightedSubspace(fromWeightedSubspace(a)) = a`, and both functions leave the mass
unchanged. -/
theorem weightedSubspace_round_trip (a : MassPoint K) (h : a.mass ≠ 0) :
    fromWeightedSubspace (toWeightedSubspace a) = a
      ∧ toWeightedSubspace (fromWeightedSubspace a) = a
      ∧ (toWeightedSubspace a).mass = a.mass
      ∧ (fromWeightedSubspace a).mass = a.mass := by
  obtain ⟨x, y, z, mass⟩ := a
  simp only at h
  refine ⟨?_, ?_, rfl, rfl⟩
  · simp only [fromWeightedSubspace, toWeightedSubspace, mul_div_assoc, div_self h, mul_one]
  · simp only [fromWeightedSubspace, toWeightedSubspace, div_mul_cancel₀ _ h]

/-- Witness of C24: the point `(1, 2, 3)` of mass `4` goes to `(4, 8, 12)` in the weighted
subspace and comes back. -/
theorem weightedSubspace_round_trip_witness :
    (⟨1, 2, 3, 4⟩ : MassPoint ℚ).mass ≠ 0
      ∧ toWeightedSubspace (⟨1, 2, 3, 4⟩ : MassPoint ℚ) = ⟨4, 8, 12, 4⟩
      ∧ (fromWeightedSubspace (toWeightedSubspace (⟨1, 2, 3, 4⟩ : MassPoint ℚ)) = ⟨1, 2, 3, 4⟩
          ∧ toWeightedSubspace (fromWeightedSubspace (⟨1, 2, 3, 4⟩ : MassPoint ℚ))
            = ⟨1, 2, 3, 4⟩
          ∧ (toWeightedSubspace (⟨1, 2, 3, 4⟩ : MassPoint ℚ)).mass = 4
          ∧ (fromWeightedSubspace (⟨1, 2, 3, 4⟩ : MassPoint ℚ)).mass = 4) :=
  ⟨by norm_num, by simp [toWeightedSubspace]; norm_num,
    weightedSubspace_round_trip ⟨1, 2, 3, 4⟩ (by norm_num)⟩

/-! ## The lines whose points the loader collects -/

section CollectedProofs
omit [Field K]

/-- C10 (the claim fails on the code).  The input is the one line `1:2:3:4:5` with its
newline.  Whatever the real-number literals are, the line is not in the record format
`x:y:z:mass` (it has five fields; the line `1:2:3:4` is in the format), so the input has
`N = 0` well-formed lines and `M = 1` malformed line.  Yet the scan of
`stringToPointAsync` succeeds on it, and the loader, run to the end of the collector loop,
has collected the point `(1,2,3,4)`: one point, not `N = 0`, and a point from a malformed
line. -/
theorem malformed_line_is_collected :
    (∀ scanFloat : List Char → Option (ℚ × List Char),
        specRecordFormat scanFloat fiveFieldLine = false)
      ∧ (colonFields fiveFieldLine.dropLast).length = 5
      ∧ specRecordFormat exampleFloat ['1', ':', '2', ':', '3', ':', '4', '\n'] = true
      ∧ NewlineTerminated fiveFieldLine
      ∧ sscanfPoint exampleFloat fiveFieldLine = some ⟨1, 2, 3, 4⟩
      ∧ exec (sscanfPoint exampleFloat) oneLineSchedule (initial [fiveFieldLine].flatten)
          = some fiveFieldLoaded
      ∧ fiveFieldLoaded.main = Main.loaded
      ∧ fiveFieldLoaded.masspoints = [⟨1, 2, 3, 4⟩]
      ∧ ([fiveFieldLine].filter (specRecordFormat exampleFloat)).length = 0
      ∧ fiveFieldLoaded.masspoints.length
          ≠ ([fiveFieldLine].filter (specRecordFormat exampleFloat)).length
      ∧ ¬ fiveFieldLoaded.masspoints.Perm
          (([fiveFieldLine].filter (specRecordFormat exampleFloat)).filterMap
            (sscanfPoint exampleFloat)) := by
  have hfmt : ∀ scanFloat : List Char → Option (ℚ × List Char),
      specRecordFormat scanFloat fiveFieldLine = false := by
    intro scanFloat
    simp [specRecordFormat, fiveFieldLine, colonFields]
  have hline : sscanfPoint exampleFloat fiveFieldLine = some ⟨1, 2, 3, 4⟩ := by
    simp [fiveFieldLine, sscanfPoint, doScanf, exampleFloat, scanDigits, digitValue]
  have hline2 : sscanfPoint exampleFloat
      ['1', ':', '2', ':', '3', ':', '4', ':', '5', '\n'] = some ⟨1, 2, 3, 4⟩ := hline
  have hnone : [fiveFieldLine].filter (specRecordFormat exampleFloat) = [] := by
    simp [hfmt exampleFloat]
  refine ⟨hfmt, ?_, ?_, ⟨['1', ':', '2', ':', '3', ':', '4', ':', '5'], rfl, by decide⟩,
    hline, ?_, rfl, rfl, ?_, ?_, ?_⟩
  · simp [fiveFieldLine, colonFields]
  · simp [specRecordFormat, specLiteral, colonFields, exampleFloat, scanDigits, digitValue]
  · simp [exec, step, initial, readString, oneLineSchedule, fiveFieldLine, fiveFieldLoaded,
      hline2]
  · rw [hnone]
    rfl
  · rw [hnone]
    simp [fiveFieldLoaded]
  · rw [hnone]
    simp [fiveFieldLoaded]

/-- C10 as amended.  Parse-failure tolerance of the concurrent loader.  Let the input be
made of newline-terminated `lines`, and let the scan be the call `fmt.Sscanf` of
`stringToPointAsync`, whatever the verb `%f` accepts.  The lines that count are those on
which the scan succeeds: a line of the input is one of them exactly when it begins with
four literals as the verb scans them, the first three each followed at once by a colon,
the text after the fourth literal not being examined.  Whatever the scheduler does from
the initial state of the loader: no state reached is a panic; when `main` is past the
collector loop, `masspoints` is a permutation of the points scanned from these lines and
holds exactly as many points as there are such lines, so none comes from a line on which
the scan fails and none is duplicated; the run is no longer than the work measured in the
initial state; and from every state reached the loader can be run on to the end of the
collector loop. -/
theorem loader_collects_parsedLines (scanFloat : List Char → Option (K × List Char))
    (lines : List (List Char)) (hlines : ∀ l ∈ lines, NewlineTerminated l)
    (schedule : List Move) (s : Loader K)
    (hexec : exec (sscanfPoint scanFloat) schedule (initial lines.flatten) = some s) :
    s.main ≠ Main.panicked
      ∧ (s.main = Main.loaded →
          s.masspoints.Perm
              ((parsedLines (sscanfPoint scanFloat) lines).filterMap (sscanfPoint scanFloat))
            ∧ s.masspoints.length = (parsedLines (sscanfPoint scanFloat) lines).length)
      ∧ (∀ l, l ∈ parsedLines (sscanfPoint scanFloat) lines
          ↔ l ∈ lines ∧ ∃ x s1 y s2 z s3 mass s4,
              scanFloat l = some (x, ':' :: s1) ∧ scanFloat s1 = some (y, ':' :: s2)
                ∧ scanFloat s2 = some (z, ':' :: s3) ∧ scanFloat s3 = some (mass, s4))
      ∧ schedule.length ≤ workLeft (initial lines.flatten : Loader K)
      ∧ ∃ more s', exec (sscanfPoint scanFloat) more s = some s' ∧ s'.main = Main.loaded := by
  have hinit := initial_inv (sscanfPoint scanFloat) lines hlines
  have hinv := exec_preserves_inv (sscanfPoint scanFloat) lines schedule _ s hinit hexec
  refine ⟨?_, ?_, ?_, ?_, reaches_loaded (sscanfPoint scanFloat) lines s hinv⟩
  · obtain ⟨_, _, _, _, _, _, _, _, _, hpanic⟩ := hinv
    exact hpanic
  · intro hm
    have hperm := loaded_perm (sscanfPoint scanFloat) lines s hinv hm
    rw [filterMap_parsedLines]
    refine ⟨hperm, ?_⟩
    rw [hperm.length_eq, length_filterMap_eq]
    rfl
  · intro l
    simp only [parsedLines, List.mem_filter, Option.isSome_iff_exists]
    constructor
    · rintro ⟨hl, p, hp⟩
      obtain ⟨x, s1, y, s2, z, s3, mass, s4, hx, hy, hz, hmass, _⟩ :=
        (sscanfPoint_eq_some scanFloat l p).mp hp
      exact ⟨hl, x, s1, y, s2, z, s3, mass, s4, hx, hy, hz, hmass⟩
    · rintro ⟨hl, x, s1, y, s2, z, s3, mass, s4, hx, hy, hz, hmass⟩
      exact ⟨hl, _, (sscanfPoint_eq_some scanFloat l _).mpr
        ⟨x, s1, y, s2, z, s3, mass, s4, hx, hy, hz, hmass, rfl⟩⟩
  · have := exec_length_le (sscanfPoint scanFloat) lines schedule _ s hinit hexec
    omega

end CollectedProofs

/-- Witness of C10 as amended: on the line `oops`, on which the scan fails, followed by the
line `1:2:3:4`, on which it succeeds, a complete schedule leaves
`masspoints = [(1,2,3,4)]`. -/
theorem loader_collects_parsedLines_witness :
    (∀ l ∈ exampleLines, NewlineTerminated l)
      ∧ exec (sscanfPoint exampleFloat) exampleSchedule (initial exampleLines.flatten)
          = some exampleLoaded
      ∧ parsedLines (sscanfPoint exampleFloat) exampleLines
          = [['1', ':', '2', ':', '3', ':', '4', '\n']]
      ∧ exampleLoaded.masspoints = [⟨1, 2, 3, 4⟩]
      ∧ (exampleLoaded.main ≠ Main.panicked
        ∧ (exampleLoaded.main = Main.loaded →
            exampleLoaded.masspoints.Perm
                ((parsedLines (sscanfPoint exampleFloat) exampleLines).filterMap
                  (sscanfPoint exampleFloat))
              ∧ exampleLoaded.masspoints.length
                = (parsedLines (sscanfPoint exampleFloat) exampleLines).length)
        ∧ (∀ l, l ∈ parsedLines (sscanfPoint exampleFloat) exampleLines
            ↔ l ∈ exampleLines ∧ ∃ x s1 y s2 z s3 mass s4,
                exampleFloat l = some (x, ':' :: s1) ∧ exampleFloat s1 = some (y, ':' :: s2)
                  ∧ exampleFloat s2 = some (z, ':' :: s3)
                  ∧ exampleFloat s3 = some (mass, s4))
        ∧ exampleSchedule.length ≤ workLeft (initial exampleLines.flatten : Loader ℚ)
        ∧ ∃ more s', exec (sscanfPoint exampleFloat) more exampleLoaded = some s'
            ∧ s'.main = Main.loaded) := by
  have hlines : ∀ l ∈ exampleLines, NewlineTerminated l := by
    intro l hl
    simp only [exampleLines, List.mem_cons, List.mem_singleton, List.not_mem_nil,
      or_false] at hl
    rcases hl with rfl | rfl
    · exact ⟨['o', 'o', 'p', 's'], rfl, by decide⟩
    · exact ⟨['1', ':', '2', ':', '3', ':', '4'], rfl, by decide⟩
  have hbad : sscanfPoint exampleFloat ['o', 'o', 'p', 's', '\n'] = none := by
    simp [sscanfPoint, doScanf, exampleFloat, scanDigits, digitValue]
  have hgood : sscanfPoint exampleFloat ['1', ':', '2', ':', '3', ':', '4', '\n']
      = some ⟨1, 2, 3, 4⟩ := by
    simp [sscanfPoint, doScanf, exampleFloat, scanDigits, digitValue]
  have hexec : exec (sscanfPoint exampleFloat) exampleSchedule (initial exampleLines.flatten)
      = some exampleLoaded := by
    simp [exec, step, initial, readString, exampleSchedule, exampleLines, exampleLoaded,
      hbad, hgood]
  refine ⟨hlines, hexec, ?_, rfl,
    loader_collects_parsedLines exampleFloat exampleLines hlines exampleSchedule
      exampleLoaded hexec⟩
  simp [parsedLines, exampleLines, hbad, hgood]

end Barycenter

namespace Webserver

/-! ## `topTen` of `webserver` and `hnsearch` -/

theorem topTenLoop_eq (stories : List Story) (k : Nat) (hk : k ≤ stories.length)
    (w : List String) :
    topTenLoop stories ((stories.length : Int) - 1 - k) w
      = some (w ++ ((stories.reverse.drop k).take (9 - k)).map storyEntry) := by
  generalize hn : stories.length - k = n
  induction n using Nat.strong_induction_on generalizing k w with
  | _ n ih =>
    rw [topTenLoop]
    by_cases hc : k < stories.length ∧ k < 9
    · obtain ⟨hlt, h9⟩ := hc
      rw [if_pos (by omega)]
      have hidx : ((stories.length : Int) - 1 - k).toNat = stories.length - 1 - k := by omega
      have hrev : stories.reverse[k]? = stories[stories.length - 1 - k]? :=
        List.getElem?_reverse hlt
      have hk2 : k < stories.reverse.length := by simpa using hlt
      rw [hidx, ← hrev, List.getElem?_eq_getElem hk2]
      simp only
      have hnext : (stories.length : Int) - 1 - k - 1 = (stories.length : Int) - 1 - (k + 1 : Nat) := by
        push_cast
        ring
      rw [hnext, ih (stories.length - (k + 1)) (by omega) (k + 1) (by omega) _ rfl]
      have h9k : 9 - k = (9 - (k + 1)) + 1 := by omega
      rw [List.drop_eq_getElem_cons hk2, h9k, List.take_succ_cons]
      simp
    · rw [if_neg (by omega)]
      have hnil : ((stories.reverse.drop k).take (9 - k)) = [] := by
        by_cases h9 : k < 9
        · have : stories.length ≤ k := by omega
          rw [List.drop_eq_nil_of_le (by simpa using this)]
          exact List.take_nil
        · have : 9 - k = 0 := by omega
          rw [this]
          rfl
      rw [hnil]
      simp

theorem topTen_eq (stories : List Story) :
    topTen stories
      = some (["<html><body>",
          "<form action='search' method='post'>Search: <input type='text' name='q'> <input type='submit'></form>\n"]
          ++ (stories.reverse.take 9).map storyEntry ++ ["</body></html>"]) := by
  have h := topTenLoop_eq stories 0 (Nat.zero_le _)
    ["<html><body>",
      "<form action='search' method='post'>Search: <input type='text' name='q'> <input type='submit'></form>\n"]
  simp only [Nat.cast_zero, sub_zero, List.drop_zero] at h
  rw [topTen, h]

/-- C22 (the code departs from the claim).  On a list of ten stories `topTen` writes the
opening, the form, the entries of the last nine stories, last first, and the closing: nine
entries, whereas the entries of the last `min(10, 10) = 10` stories are ten; the entry of
the first story of the list, tenth from the end, is not written. -/
theorem topTen_writes_nine :
    topTen tenStories
        = some (["<html><body>",
            "<form action='search' method='post'>Search: <input type='text' name='q'> <input type='submit'></form>\n"]
            ++ (tenStories.reverse.take 9).map storyEntry ++ ["</body></html>"])
      ∧ ((tenStories.reverse.take 9).map storyEntry).length = 9
      ∧ (lastTenEntries tenStories).length = 10
      ∧ storyEntry ⟨"a", "u", "w", "s"⟩ ∈ lastTenEntries tenStories
      ∧ storyEntry ⟨"a", "u", "w", "s"⟩ ∉ (tenStories.reverse.take 9).map storyEntry
      ∧ (tenStories.reverse.take 9).map storyEntry ≠ lastTenEntries tenStories := by
  refine ⟨topTen_eq tenStories, by decide, by decide, by decide, by decide, by decide⟩

end Webserver

namespace S2t1

/-! ## The recursive sequence generator of `s2t1` -/

theorem wrapInt_of_inRange (x : Int) (h : InRange x) : wrapInt x = x := by
  unfold InRange at h
  unfold wrapInt
  omega

theorem wrapInt_add (x y : Int) : wrapInt (wrapInt x + wrapInt y) = wrapInt (x + y) := by
  unfold wrapInt
  omega

theorem lucasoid_eq (a b : Int) (ha : InRange a) (hb : InRange b) (n : Nat)
    (hn : InRange (n : Int)) (fuel : Nat) (hfuel : n + 1 ≤ fuel) :
    lucasoid fuel a b (n : Int) = some (wrapInt (lucasSeq a b n)) := by
  induction n using Nat.strong_induction_on generalizing fuel with
  | _ n ih =>
    cases fuel with
    | zero => omega
    | succ f =>
      match n, ih, hn, hfuel with
      | 0, _, _, _ => simp [lucasoid, lucasSeq, wrapInt_of_inRange a ha]
      | 1, _, _, _ => simp [lucasoid, lucasSeq, wrapInt_of_inRange b hb]
      | k + 2, ih, hn, hfuel =>
        have hk1 : InRange ((k + 1 : Nat) : Int) := by
          unfold InRange at hn ⊢
          omega
        have hk0 : InRange ((k : Nat) : Int) := by
          unfold InRange at hn ⊢
          omega
        have e1 : wrapInt (((k + 2 : Nat) : Int) - 1) = ((k + 1 : Nat) : Int) := by
          have e : (((k + 2 : Nat) : Int) - 1) = ((k + 1 : Nat) : Int) := by omega
          rw [e]
          exact wrapInt_of_inRange _ hk1
        have e2 : wrapInt (((k + 2 : Nat) : Int) - 2) = ((k : Nat) : Int) := by
          have e : (((k + 2 : Nat) : Int) - 2) = ((k : Nat) : Int) := by omega
          rw [e]
          exact wrapInt_of_inRange _ hk0
        have n0 : ¬ ((k + 2 : Nat) : Int) = 0 := by omega
        have n1 : ¬ ((k + 2 : Nat) : Int) = 1 := by omega
        have r1 := ih (k + 1) (by omega) hk1 f (by omega)
        have r0 := ih k (by omega) hk0 f (by omega)
        rw [lucasoid, if_neg n0, if_neg n1, e1, e2, r1, r0]
        simp only [lucasSeq]
        rw [wrapInt_add]

theorem lucasSeq_fib (n : Nat) : lucasSeq 0 1 n = (Nat.fib n : Int) := by
  induction n using Nat.strong_induction_on with
  | _ n ih =>
    match n, ih with
    | 0, _ => simp [lucasSeq]
    | 1, _ => simp [lucasSeq]
    | k + 2, ih =>
      rw [lucasSeq, ih (k + 1) (by omega), ih k (by omega), Nat.fib_add_two]
      push_cast
      ring

theorem lucasSeq_lucas (n : Nat) :
    lucasSeq 2 1 n = 2 * (Nat.fib (n + 1) : Int) - (Nat.fib n : Int) := by
  induction n using Nat.strong_induction_on with
  | _ n ih =>
    match n, ih with
    | 0, _ => simp [lucasSeq]
    | 1, _ => simp [lucasSeq]
    | k + 2, ih =>
      rw [lucasSeq, ih (k + 1) (by omega), ih k (by omega)]
      have h1 : Nat.fib (k + 2 + 1) = Nat.fib (k + 1) + Nat.fib (k + 2) := Nat.fib_add_two
      have h2 : Nat.fib (k + 2) = Nat.fib k + Nat.fib (k + 1) := Nat.fib_add_two
      rw [h1, h2]
      push_cast
      ring

/-- C23. The function `lucasoid` generates Lucas-type sequences.  For all `int` values `a`
and `b` and every `n ≥ 0` that is an `int` value, the call `lucasoid(a, b, n)` returns (any
recursion depth above `n` is enough), and its result is the `n`-th term of the sequence
`s(0) = a`, `s(1) = b`, `s(k+2) = s(k+1) + s(k)` wrapped to Go's `int`, hence that term
itself whenever it is an `int` value.  For `a = 0`, `b = 1` the term is the `n`-th
Fibonacci number, and for `a = 2`, `b = 1` it is the `n`-th Lucas number
`2 F(n+1) - F(n)`. -/
theorem lucasoid_generates_sequence (a b : Int) (n : Nat) (ha : InRange a) (hb : InRange b)
    (hn : InRange (n : Int)) :
    (∀ fuel, n + 1 ≤ fuel → lucasoid fuel a b (n : Int) = some (wrapInt (lucasSeq a b n)))
      ∧ (InRange (lucasSeq a b n) →
          ∀ fuel, n + 1 ≤ fuel → lucasoid fuel a b (n : Int) = some (lucasSeq a b n))
      ∧ lucasSeq a b 0 = a
      ∧ lucasSeq a b 1 = b
      ∧ (∀ k, lucasSeq a b (k + 2) = lucasSeq a b (k + 1) + lucasSeq a b k)
      ∧ lucasSeq 0 1 n = (Nat.fib n : Int)
      ∧ lucasSeq 2 1 n = 2 * (Nat.fib (n + 1) : Int) - (Nat.fib n : Int) := by
  refine ⟨fun fuel hfuel => lucasoid_eq a b ha hb n hn fuel hfuel, ?_, rfl, rfl,
    fun k => rfl, lucasSeq_fib n, lucasSeq_lucas n⟩
  intro hr fuel hfuel
  rw [lucasoid_eq a b ha hb n hn fuel hfuel, wrapInt_of_inRange _ hr]

/-- Witness of C23: the last line printed by `main`, `lucasoid(2, 1, 9) = 76`, the ninth
Lucas number. -/
theorem lucasoid_generates_sequence_witness :
    InRange 2 ∧ InRange 1 ∧ InRange ((9 : Nat) : Int)
      ∧ lucasoid 10 2 1 9 = some 76
      ∧ lucasoid 10 0 1 9 = some 34
      ∧ lucasSeq 2 1 9 = 76
      ∧ ((∀ fuel, 9 + 1 ≤ fuel →
            lucasoid fuel 2 1 ((9 : Nat) : Int) = some (wrapInt (lucasSeq 2 1 9)))
          ∧ (InRange (lucasSeq 2 1 9) →
              ∀ fuel, 9 + 1 ≤ fuel → lucasoid fuel 2 1 ((9 : Nat) : Int)
                = some (lucasSeq 2 1 9))
          ∧ lucasSeq 2 1 0 = 2
          ∧ lucasSeq 2 1 1 = 1
          ∧ (∀ k, lucasSeq 2 1 (k + 2) = lucasSeq 2 1 (k + 1) + lucasSeq 2 1 k)
          ∧ lucasSeq 0 1 9 = (Nat.fib 9 : Int)
          ∧ lucasSeq 2 1 9 = 2 * (Nat.fib (9 + 1) : Int) - (Nat.fib 9 : Int)) :=
  ⟨by unfold InRange; decide, by unfold InRange; decide, by unfold InRange; decide,
    by decide, by decide, by decide,
    lucasoid_generates_sequence 2 1 9 (by unfold InRange; decide) (by unfold InRange; decide)
      (by unfold InRange; decide)⟩

end S2t1
